import Mathlib

/-!
Verification of the cashew_set cache-line B-tree (src/cashew_set.h).

Shallow embedding conventions:
* Keys are `Nat`; the comparator `less` is `<` on `Nat` and `eq` is `=`
  (the code's default `std::less` / `std::equal_to`).
* `elt_count_max` (written `M` throughout) is the traits parameter
  `CashewSetTraits::elt_count_max`; the fan-out `children_per_node` is `M + 1`.
  The instantiation checks of the traits guarantee `1 ≤ M`, which appears as a
  hypothesis on the theorems.
* C arrays are Lean lists: `node.elts` is the full `key_type elts[M]` slot
  array (length `M`, live prefix `elt_count`); a family is the full
  `node_type child[M+1]` array (length `M + 1`).
* `aligned_unique_ptr<family_type>` is `Option (List CashewSetNode)`;
  `nullptr` is `none`; moving out of a `unique_ptr` leaves `none` behind
  (`movedFrom` below models a moved-from node).
* The in-place mutation of nodes and of `treeEltCount` is explicit state
  passing: `tryInsert` returns the updated node and the updated element count.
* `cashew_set_bug` exceptions are the `Except Bug` monad.
* The mutual recursion `tryInsert` / `insertSpacious` / `insertFull` descends
  one tree level per call; in the code the descent is bounded because
  `checkBugs` throws on `nodeDepth > treeDepth`.  The embedding makes the
  bound a structural fuel argument (`fuel = treeDepth + 1 - nodeDepth` at every
  reachable call); the artificial `Bug.outOfFuel` outcome is proved unreachable
  for the fuel the public entry points supply.  To keep the recursion
  structural in the fuel, the bodies of `insertSpacious` and `insertFull` are
  inlined inside `tryInsert`; the standalone `insertSpacious` / `insertFull`
  below restate them verbatim, and `tryInsert_succ_eq` proves the dispatch
  identity of the source's `tryInsert`.
-/

namespace Cashew

/-- `CashewSetNode`: `family` pointer, `elt_count`, and the `elts[M]` slot
array (the list keeps all `M` slots, including dead ones past `elt_count`). -/
inductive CashewSetNode : Type where
  | mk (family : Option (List CashewSetNode)) (elt_count : Nat) (elts : List Nat)

def CashewSetNode.family : CashewSetNode → Option (List CashewSetNode)
  | .mk f _ _ => f

def CashewSetNode.elt_count : CashewSetNode → Nat
  | .mk _ c _ => c

def CashewSetNode.elts : CashewSetNode → List Nat
  | .mk _ _ e => e

@[simp] theorem CashewSetNode.family_mk (f : Option (List CashewSetNode))
    (c : Nat) (e : List Nat) : (CashewSetNode.mk f c e).family = f := rfl

@[simp] theorem CashewSetNode.elt_count_mk (f : Option (List CashewSetNode))
    (c : Nat) (e : List Nat) : (CashewSetNode.mk f c e).elt_count = c := rfl

@[simp] theorem CashewSetNode.elts_mk (f : Option (List CashewSetNode))
    (c : Nat) (e : List Nat) : (CashewSetNode.mk f c e).elts = e := rfl

theorem CashewSetNode.eta (n : CashewSetNode) :
    CashewSetNode.mk n.family n.elt_count n.elts = n := by
  cases n; rfl

/-- Out-of-range child reads (which never happen on well-formed trees) return
this placeholder node. -/
def nodeD : CashewSetNode := .mk none 0 []

/-- A default-constructed `CashewSetNode`: no family, `elt_count = 0`, and the
`M` key slots hold unspecified values (modelled as zeros). -/
def freshNode (M : Nat) : CashewSetNode := .mk none 0 (List.replicate M 0)

/-- `make_family()`: a freshly constructed `family_type`, i.e. an array of
`M + 1` default-constructed nodes.  (Model note: allocation always succeeds
and is aligned, so the `bad_alloc` / alignment throws of `make_family` do not
arise.) -/
def make_family (M : Nat) : List CashewSetNode := List.replicate (M + 1) (freshNode M)

/-- The moved-from state of a node after `std::move`: the `family` unique_ptr
is nulled, `elt_count` and the `elts` ints are copied out but left behind. -/
def movedFrom (n : CashewSetNode) : CashewSetNode := .mk none n.elt_count n.elts

/-- The live key slots `elts[0..elt_count)` of a node. -/
def liveElts (node : CashewSetNode) : List Nat := node.elts.take node.elt_count

/-- The linear scan's count of live slots strictly less than `key`
(`lessCount` in the code). -/
def scanLess (live : List Nat) (key : Nat) : Nat :=
  live.countP (fun x => decide (x < key))

/-! ## splitArray (the partition primitive, §4.4.4)

`splitArray(src, len, dest_lt, dest_ge, pivot, less)` is the loop

    for(i=0;i<len;++i)
      if(less(src[i],pivot)) dest_lt[ltCount++]=src[i];
      else dest_ge[i-ltCount]=src[i];
    return ltCount;

Two faithful renderings: `splitArrayGo` reads the source elements from a list
(the no-overlap case, where writes cannot disturb the source), and
`splitArrayAlias` reads `src[i]` from the same array it writes `dest_lt` into
(the permitted full-alias case `src ≡ dest_lt`).  Both are generic in the
`less` predicate. -/

def splitArrayGo (less : Nat → Nat → Bool) (pivot : Nat) :
    List Nat → Nat → Nat → List Nat → List Nat → Nat × List Nat × List Nat
  | [], _, ltCount, dlt, dge => (ltCount, dlt, dge)
  | x :: rest, i, ltCount, dlt, dge =>
    if less x pivot then
      splitArrayGo less pivot rest (i + 1) (ltCount + 1) (dlt.set ltCount x) dge
    else
      splitArrayGo less pivot rest (i + 1) ltCount dlt (dge.set (i - ltCount) x)

/-- `splitArray` with `src`, `dest_lt`, `dest_ge` pairwise non-overlapping;
`src` is the list of the `len` source elements. -/
def splitArray (less : Nat → Nat → Bool) (pivot : Nat)
    (src dlt dge : List Nat) : Nat × List Nat × List Nat :=
  splitArrayGo less pivot src 0 0 dlt dge

def splitArrayAliasGo (less : Nat → Nat → Bool) (pivot : Nat) :
    Nat → Nat → Nat → List Nat → List Nat → Nat × List Nat × List Nat
  | 0, _, ltCount, arr, dge => (ltCount, arr, dge)
  | len+1, i, ltCount, arr, dge =>
    let x := arr.getD i 0
    if less x pivot then
      splitArrayAliasGo less pivot len (i + 1) (ltCount + 1) (arr.set ltCount x) dge
    else
      splitArrayAliasGo less pivot len (i + 1) ltCount arr (dge.set (i - ltCount) x)

/-- `splitArray` under full aliasing `src ≡ dest_lt`: `arr` is that shared
array, `len` the number of source elements. -/
def splitArrayAlias (less : Nat → Nat → Bool) (pivot : Nat)
    (len : Nat) (arr dge : List Nat) : Nat × List Nat × List Nat :=
  splitArrayAliasGo less pivot len 0 0 arr dge

/-- The contents of an array after writing the elements of `vals` one by one
into positions `pos`, `pos+1`, ... -/
def writeAt (arr : List Nat) (pos : Nat) : List Nat → List Nat
  | [] => arr
  | v :: vs => writeAt (arr.set pos v) (pos + 1) vs

@[simp] theorem writeAt_nil (arr : List Nat) (pos : Nat) : writeAt arr pos [] = arr := rfl

theorem writeAt_cons (arr : List Nat) (pos v : Nat) (vs : List Nat) :
    writeAt arr pos (v :: vs) = writeAt (arr.set pos v) (pos + 1) vs := rfl

@[simp] theorem length_writeAt (vals : List Nat) (arr : List Nat) (pos : Nat) :
    (writeAt arr pos vals).length = arr.length := by
  induction vals generalizing arr pos with
  | nil => rfl
  | cons v vs ih => simp [writeAt, ih]

theorem writeAt_eq (vals : List Nat) (arr : List Nat) (pos : Nat)
    (h : pos + vals.length ≤ arr.length) :
    writeAt arr pos vals = arr.take pos ++ vals ++ arr.drop (pos + vals.length) := by
  induction vals generalizing arr pos with
  | nil => simp
  | cons v vs ih =>
    have hpos : pos < arr.length := by simp at h; omega
    rw [writeAt_cons, ih (arr.set pos v) (pos + 1) (by simp; simp at h; omega)]
    rw [List.set_eq_take_cons_drop v hpos]
    have hlen : (arr.take pos).length = pos := by
      simp [Nat.le_of_lt hpos]
    rw [List.take_append_eq_append_take, List.drop_append_eq_append_drop]
    have e1 : List.take (pos + 1) (List.take pos arr) = List.take pos arr :=
      List.take_of_length_le (by rw [hlen]; omega)
    have e2 : List.drop (pos + 1 + vs.length) (List.take pos arr) = [] :=
      List.drop_eq_nil_of_le (by rw [hlen]; omega)
    have e3 : pos + 1 + vs.length - (List.take pos arr).length = vs.length + 1 := by
      rw [hlen]; omega
    have e4 : pos + 1 + vs.length = pos + (vs.length + 1) := by omega
    rw [e1, e2, e3]
    simp [List.drop_drop]
    have e5 : pos + 1 - pos ⊓ arr.length = 1 := by omega
    rw [e5]
    simp
    rw [← e4]

theorem splitArrayGo_spec (less : Nat → Nat → Bool) (pivot : Nat) :
    ∀ (src : List Nat) (i ltc : Nat) (dlt dge : List Nat), ltc ≤ i →
    splitArrayGo less pivot src i ltc dlt dge =
      (ltc + (src.filter (fun x => less x pivot)).length,
       writeAt dlt ltc (src.filter (fun x => less x pivot)),
       writeAt dge (i - ltc) (src.filter (fun x => !less x pivot))) := by
  intro src
  induction src with
  | nil => intro i ltc dlt dge h; simp [splitArrayGo]
  | cons x rest ih =>
    intro i ltc dlt dge h
    by_cases hx : less x pivot = true
    · rw [splitArrayGo, if_pos hx]
      rw [ih (i + 1) (ltc + 1) (dlt.set ltc x) dge (by omega)]
      have e1 : i + 1 - (ltc + 1) = i - ltc := by omega
      simp [hx, e1, writeAt_cons]
      omega
    · rw [splitArrayGo, if_neg hx]
      rw [ih (i + 1) ltc dlt (dge.set (i - ltc) x) (by omega)]
      have e1 : i + 1 - ltc = (i - ltc) + 1 := by omega
      simp [hx, e1, writeAt_cons]

theorem splitArrayAliasGo_spec (less : Nat → Nat → Bool) (pivot : Nat) :
    ∀ (len i ltc : Nat) (arr dge : List Nat), ltc ≤ i → i + len ≤ arr.length →
    splitArrayAliasGo less pivot len i ltc arr dge =
      (ltc + (((arr.drop i).take len).filter (fun x => less x pivot)).length,
       writeAt arr ltc (((arr.drop i).take len).filter (fun x => less x pivot)),
       writeAt dge (i - ltc) (((arr.drop i).take len).filter (fun x => !less x pivot))) := by
  intro len
  induction len with
  | zero => intro i ltc arr dge h1 h2; simp [splitArrayAliasGo]
  | succ len ih =>
    intro i ltc arr dge h1 h2
    have hi : i < arr.length := by omega
    have hx : arr.getD i 0 = arr[i] := by
      simp [List.getD_eq_getElem?_getD, List.getElem?_eq_getElem hi]
    have hdrop : arr.drop i = arr[i] :: arr.drop (i + 1) :=
      List.drop_eq_getElem_cons hi
    have hR : (arr.drop i).take (len + 1) = arr[i] :: ((arr.drop (i + 1)).take len) := by
      rw [hdrop, List.take_succ_cons]
    by_cases hlt : less arr[i] pivot = true
    · rw [splitArrayAliasGo]
      simp only [hx, hlt, if_pos]
      rw [ih (i + 1) (ltc + 1) (arr.set ltc arr[i]) dge (by omega) (by simp; omega)]
      have hd : (arr.set ltc arr[i]).drop (i + 1) = arr.drop (i + 1) :=
        List.drop_set_of_lt _ _ (by omega)
      have e1 : i + 1 - (ltc + 1) = i - ltc := by omega
      rw [hd, hR, e1]
      simp [hlt, writeAt_cons]
      omega
    · rw [splitArrayAliasGo]
      simp only [hx, hlt, if_neg, Bool.false_eq_true, not_false_iff]
      rw [ih (i + 1) ltc arr (dge.set (i - ltc) arr[i]) (by omega) (by omega)]
      have e1 : i + 1 - ltc = (i - ltc) + 1 := by omega
      rw [hR, e1]
      simp [hlt, writeAt_cons]

/-- `splitArray` on non-overlapping arrays, in terms of `filter`. -/
theorem splitArray_spec (less : Nat → Nat → Bool) (pivot : Nat)
    (src dlt dge : List Nat) :
    splitArray less pivot src dlt dge =
      ((src.filter (fun x => less x pivot)).length,
       writeAt dlt 0 (src.filter (fun x => less x pivot)),
       writeAt dge 0 (src.filter (fun x => !less x pivot))) := by
  rw [splitArray, splitArrayGo_spec less pivot src 0 0 dlt dge (Nat.le_refl 0)]
  simp

/-- `splitArray` under full aliasing `src ≡ dest_lt`, in terms of `filter`. -/
theorem splitArrayAlias_spec (less : Nat → Nat → Bool) (pivot : Nat)
    (len : Nat) (arr dge : List Nat) (h : len ≤ arr.length) :
    splitArrayAlias less pivot len arr dge =
      (((arr.take len).filter (fun x => less x pivot)).length,
       writeAt arr 0 ((arr.take len).filter (fun x => less x pivot)),
       writeAt dge 0 ((arr.take len).filter (fun x => !less x pivot))) := by
  rw [splitArrayAlias,
    splitArrayAliasGo_spec less pivot len 0 0 arr dge (Nat.le_refl 0) (by omega)]
  simp

/-- The comparator the set instantiates (`std::less<Nat>`). -/
def natLess (a b : Nat) : Bool := decide (a < b)

/-! ## shiftArray and move_n -/

/-- `arr[dst] = std::move(arr[src])` inside one node array: slot `dst`
receives the whole node (taking over its family), slot `src` is left in the
moved-from state. -/
def moveWithin (fam : List CashewSetNode) (dst src : Nat) : List CashewSetNode :=
  let v := fam.getD src nodeD
  (fam.set dst v).set src (movedFrom v)

/-- `shiftArray(arr, len)` where `arr = child + base` inside the family list:
`for(i=len;i>0;--i) arr[i]=std::move(arr[i-1])`. -/
def shiftArray (base : Nat) : Nat → List CashewSetNode → List CashewSetNode
  | 0, fam => fam
  | i+1, fam => shiftArray base i (moveWithin fam (base + i + 1) (base + i))

/-- `move_n(src + sb, len, dst + db)` between two distinct node arrays:
`while(count-->0) *result++ = std::move(*first++)`. -/
def move_n : Nat → List CashewSetNode → Nat → List CashewSetNode → Nat →
    List CashewSetNode × List CashewSetNode
  | 0, src, _, dst, _ => (src, dst)
  | t+1, src, sb, dst, db =>
    let v := src.getD sb nodeD
    move_n t (src.set sb (movedFrom v)) (sb + 1) (dst.set db v) (db + 1)

/-! ## Search -/

/-- `countRecursive(node, key)`: linear scan of the live slots (`eq` hit
returns 1, otherwise count the slots `< key`), then recurse into
`family->child[lessCount]` if a family exists.  The fuel bounds the descent;
the public `count` supplies `treeDepth`, which the depth invariant I3 makes
sufficient. -/
def countRecursive : Nat → CashewSetNode → Nat → Nat
  | 0, _, _ => 0
  | fuel+1, node, key =>
    if (liveElts node).contains key then 1
    else
      match node.family with
      | none => 0
      | some fam => countRecursive fuel (fam.getD (scanLess (liveElts node) key) nodeD) key

/-- The `cashew_set_bug` throw sites (`std::logic_error` in the code). -/
inductive Bug : Type where
  | eltCountTooLarge   -- checkBugs: "Node is corrupted. Element count too large."
  | nodeTooDeep        -- checkBugs: "Node is deeper than it's supposed to be."
  | deepFamily         -- checkBugs: "It's too deep for having children"
  | fullNoFamily       -- insertFull: "Full leaf node should only appear at leaf level"
  | outOfFuel          -- artifact of the fuelled embedding; unreachable (tryInsert_fuel_ok)
deriving DecidableEq, Repr

/-- `checkBugs(node, nodeDepth)`: the invariant checker at the top of every
`tryInsert`. -/
def checkBugs (M treeDepth : Nat) (node : CashewSetNode) (nodeDepth : Nat) : Option Bug :=
  if node.elt_count > M then some .eltCountTooLarge
  else if nodeDepth > treeDepth then some .nodeTooDeep
  else if nodeDepth == treeDepth && node.family.isSome then some .deepFamily
  else none

inductive InsStatus : Type where
  | done
  | duplicateFound
  | familySplit
deriving DecidableEq, Repr

/-- `TryInsertResult`: two family handles and a status. -/
structure TryInsertResult : Type where
  family0 : Option (List CashewSetNode)
  family1 : Option (List CashewSetNode)
  status : InsStatus

/-- `tryInsert(node, nodeDepth, key)`, with the bodies of `insertSpacious` and
`insertFull` inlined at their dispatch sites (see the header note; the
standalone versions and the `rfl` dispatch lemma follow).  Returns the
`TryInsertResult` together with the mutated node and mutated `treeEltCount`. -/
def tryInsert (M treeDepth : Nat) :
    Nat → CashewSetNode → Nat → Nat → Nat →
    Except Bug (TryInsertResult × CashewSetNode × Nat)
  | 0, _, _, _, _ => .error .outOfFuel
  | fuel+1, node, nodeDepth, key, eltCount =>
    match checkBugs M treeDepth node nodeDepth with
    | some b => .error b
    | none =>
      if (liveElts node).contains key then
        .ok (⟨none, none, .duplicateFound⟩, node, eltCount)
      else
        let lessCount := scanLess (liveElts node) key
        if node.elt_count < M then
          -- insertSpacious(node, nodeDepth, key, lessCount)
          if nodeDepth < treeDepth then
            let fam := node.family.getD (make_family M)
            match tryInsert M treeDepth fuel (fam.getD lessCount nodeD)
                (nodeDepth + 1) key eltCount with
            | .error b => .error b
            | .ok (result, child, eltCount1) =>
              let fam := fam.set lessCount child
              if result.status ≠ .familySplit then
                .ok (result, .mk (some fam) node.elt_count node.elts, eltCount1)
              else
                -- O(n) insert of result.family into node.family at lessCount+1
                let child_count := node.elt_count + 1
                let fam := shiftArray (lessCount + 1) (child_count - lessCount - 1) fam
                let lt_node := fam.getD lessCount nodeD
                let gt_node := fam.getD (lessCount + 1) nodeD
                let (ltCount, lt_elts, gt_elts) :=
                  splitArrayAlias natLess key lt_node.elt_count lt_node.elts gt_node.elts
                let gt_count := lt_node.elt_count - ltCount
                let lt_node : CashewSetNode :=
                  .mk result.family0 (lt_node.elt_count - gt_count) lt_elts
                let gt_node : CashewSetNode := .mk result.family1 gt_count gt_elts
                let fam := (fam.set lessCount lt_node).set (lessCount + 1) gt_node
                -- Append key to node.elts; ++treeEltCount.
                .ok (⟨none, none, .done⟩,
                     .mk (some fam) (node.elt_count + 1) (node.elts.set node.elt_count key),
                     eltCount1 + 1)
          else
            -- At the leaf level the append still runs; no recursion.
            .ok (⟨none, none, .done⟩,
                 .mk node.family (node.elt_count + 1) (node.elts.set node.elt_count key),
                 eltCount + 1)
        else
          -- insertFull(node, nodeDepth, key, lessCount)
          if nodeDepth = treeDepth then
            .ok (⟨none, none, .familySplit⟩, node, eltCount)
          else
            match node.family with
            | none => .error .fullNoFamily
            | some fam =>
              match tryInsert M treeDepth fuel (fam.getD lessCount nodeD)
                  (nodeDepth + 1) key eltCount with
              | .error b => .error b
              | .ok (result, child, eltCount1) =>
                let fam := fam.set lessCount child
                if result.status ≠ .familySplit then
                  .ok (result, .mk (some fam) node.elt_count node.elts, eltCount1)
                else
                  let child_count := node.elt_count + 1
                  let nibling := make_family M
                  -- Larger children are adopted by the new sibling family.
                  let (fam, nibling) :=
                    move_n (child_count - lessCount - 1) fam (lessCount + 1) nibling 1
                  let lt_node := fam.getD lessCount nodeD
                  let gt_node := nibling.getD 0 nodeD
                  let (ltCount, lt_elts, gt_elts) :=
                    splitArrayAlias natLess key lt_node.elt_count lt_node.elts gt_node.elts
                  let gt_count := lt_node.elt_count - ltCount
                  let lt_node : CashewSetNode :=
                    .mk result.family0 (lt_node.elt_count - gt_count) lt_elts
                  let gt_node : CashewSetNode := .mk result.family1 gt_count gt_elts
                  let fam := fam.set lessCount lt_node
                  let nibling := nibling.set 0 gt_node
                  .ok (⟨some fam, some nibling, .familySplit⟩,
                       .mk none node.elt_count node.elts, eltCount1)

/-- `insertSpacious(node, nodeDepth, key, lessCount)` standalone (the body the
dispatch in `tryInsert` inlines).  Assumes `elt_count < M` without checking;
never returns `familySplit`. -/
def insertSpacious (M treeDepth fuel : Nat) (node : CashewSetNode)
    (nodeDepth key lessCount eltCount : Nat) :
    Except Bug (TryInsertResult × CashewSetNode × Nat) :=
  if nodeDepth < treeDepth then
    let fam := node.family.getD (make_family M)
    match tryInsert M treeDepth fuel (fam.getD lessCount nodeD)
        (nodeDepth + 1) key eltCount with
    | .error b => .error b
    | .ok (result, child, eltCount1) =>
      let fam := fam.set lessCount child
      if result.status ≠ .familySplit then
        .ok (result, .mk (some fam) node.elt_count node.elts, eltCount1)
      else
        let child_count := node.elt_count + 1
        let fam := shiftArray (lessCount + 1) (child_count - lessCount - 1) fam
        let lt_node := fam.getD lessCount nodeD
        let gt_node := fam.getD (lessCount + 1) nodeD
        let (ltCount, lt_elts, gt_elts) :=
          splitArrayAlias natLess key lt_node.elt_count lt_node.elts gt_node.elts
        let gt_count := lt_node.elt_count - ltCount
        let lt_node : CashewSetNode :=
          .mk result.family0 (lt_node.elt_count - gt_count) lt_elts
        let gt_node : CashewSetNode := .mk result.family1 gt_count gt_elts
        let fam := (fam.set lessCount lt_node).set (lessCount + 1) gt_node
        .ok (⟨none, none, .done⟩,
             .mk (some fam) (node.elt_count + 1) (node.elts.set node.elt_count key),
             eltCount1 + 1)
  else
    .ok (⟨none, none, .done⟩,
         .mk node.family (node.elt_count + 1) (node.elts.set node.elt_count key),
         eltCount + 1)

/-- `insertFull(node, nodeDepth, key, lessCount)` standalone.  Assumes
`elt_count == M` without checking; propagates any `familySplit`. -/
def insertFull (M treeDepth fuel : Nat) (node : CashewSetNode)
    (nodeDepth key lessCount eltCount : Nat) :
    Except Bug (TryInsertResult × CashewSetNode × Nat) :=
  if nodeDepth = treeDepth then
    .ok (⟨none, none, .familySplit⟩, node, eltCount)
  else
    match node.family with
    | none => .error .fullNoFamily
    | some fam =>
      match tryInsert M treeDepth fuel (fam.getD lessCount nodeD)
          (nodeDepth + 1) key eltCount with
      | .error b => .error b
      | .ok (result, child, eltCount1) =>
        let fam := fam.set lessCount child
        if result.status ≠ .familySplit then
          .ok (result, .mk (some fam) node.elt_count node.elts, eltCount1)
        else
          let child_count := node.elt_count + 1
          let nibling := make_family M
          let (fam, nibling) :=
            move_n (child_count - lessCount - 1) fam (lessCount + 1) nibling 1
          let lt_node := fam.getD lessCount nodeD
          let gt_node := nibling.getD 0 nodeD
          let (ltCount, lt_elts, gt_elts) :=
            splitArrayAlias natLess key lt_node.elt_count lt_node.elts gt_node.elts
          let gt_count := lt_node.elt_count - ltCount
          let lt_node : CashewSetNode :=
            .mk result.family0 (lt_node.elt_count - gt_count) lt_elts
          let gt_node : CashewSetNode := .mk result.family1 gt_count gt_elts
          let fam := fam.set lessCount lt_node
          let nibling := nibling.set 0 gt_node
          .ok (⟨some fam, some nibling, .familySplit⟩,
               .mk none node.elt_count node.elts, eltCount1)

/-- The source's `tryInsert` is `checkBugs`, the duplicate/lessCount scan, and
a dispatch on `elt_count < elt_count_max` to `insertSpacious` / `insertFull`:
the inlined `tryInsert` satisfies that dispatch identity definitionally. -/
theorem tryInsert_succ_eq (M treeDepth fuel : Nat) (node : CashewSetNode)
    (nodeDepth key eltCount : Nat) :
    tryInsert M treeDepth (fuel + 1) node nodeDepth key eltCount =
      match checkBugs M treeDepth node nodeDepth with
      | some b => .error b
      | none =>
        if (liveElts node).contains key then
          .ok (⟨none, none, .duplicateFound⟩, node, eltCount)
        else
          let lessCount := scanLess (liveElts node) key
          if node.elt_count < M then
            insertSpacious M treeDepth fuel node nodeDepth key lessCount eltCount
          else
            insertFull M treeDepth fuel node nodeDepth key lessCount eltCount := by
  rfl

/-! ## The set object -/

/-- The `cashew_set` state: the embedded root node, `treeDepth` (root depth is
1) and `treeEltCount`. -/
structure cashew_set : Type where
  root : CashewSetNode
  treeDepth : Nat
  treeEltCount : Nat

@[simp] theorem cashew_set.root_mk (r : CashewSetNode) (d n : Nat) :
    (⟨r, d, n⟩ : cashew_set).root = r := rfl

@[simp] theorem cashew_set.treeDepth_mk (r : CashewSetNode) (d n : Nat) :
    (⟨r, d, n⟩ : cashew_set).treeDepth = d := rfl

@[simp] theorem cashew_set.treeEltCount_mk (r : CashewSetNode) (d n : Nat) :
    (⟨r, d, n⟩ : cashew_set).treeEltCount = n := rfl

/-- A default-constructed `cashew_set`. -/
def cashew_set.empty (M : Nat) : cashew_set := ⟨freshNode M, 1, 0⟩

/-- `clear()`: `root.elt_count=0; root.family.reset(); treeDepth=1;
treeEltCount=0;` (the root's key slots are not wiped). -/
def cashew_set.clear (s : cashew_set) : cashew_set :=
  ⟨.mk none 0 s.root.elts, 1, 0⟩

/-- `count(key)`, always 0 or 1. -/
def cashew_set.count (s : cashew_set) (key : Nat) : Nat :=
  countRecursive s.treeDepth s.root key

/-- `size()`. -/
def cashew_set.size (s : cashew_set) : Nat := s.treeEltCount

/-- `empty()`. -/
def cashew_set.isEmpty (s : cashew_set) : Bool := s.treeEltCount == 0

/-- `insert(key)`: `tryInsert(root, 1, key)` and, on `familySplit`, the root
split (fix pointers, split up elts, reset root, `treeDepth++`,
`treeEltCount++`).  Returns the bool result and the new state, or the
propagated `cashew_set_bug`. -/
def cashew_set.insert (M : Nat) (s : cashew_set) (key : Nat) :
    Except Bug (Bool × cashew_set) :=
  match tryInsert M s.treeDepth s.treeDepth s.root 1 key s.treeEltCount with
  | .error b => .error b
  | .ok (result, root, eltCount) =>
    if result.status ≠ .familySplit then
      .ok (result.status ≠ .duplicateFound, ⟨root, s.treeDepth, eltCount⟩)
    else
      -- Step 1) Fix pointers.
      let fam := make_family M
      let child0 := fam.getD 0 nodeD
      let child1 := fam.getD 1 nodeD
      let child0 : CashewSetNode := .mk result.family0 child0.elt_count child0.elts
      let child1 : CashewSetNode := .mk result.family1 child1.elt_count child1.elts
      -- Step 2) Split up elts.
      let (ltCount, lt_elts, gt_elts) :=
        splitArray natLess key (root.elts.take root.elt_count) child0.elts child1.elts
      let child0 : CashewSetNode := .mk child0.family ltCount lt_elts
      let child1 : CashewSetNode := .mk child1.family (root.elt_count - ltCount) gt_elts
      let fam := (fam.set 0 child0).set 1 child1
      -- Step 3) Reset root; ++treeDepth; ++treeEltCount.
      .ok (true, ⟨.mk (some fam) 1 (root.elts.set 0 key), s.treeDepth + 1, eltCount + 1⟩)

/-- Run a list of `insert` calls left to right, propagating any exception. -/
def insertsE (M : Nat) : cashew_set → List Nat → Except Bug cashew_set
  | s, [] => .ok s
  | s, k :: ks =>
    match cashew_set.insert M s k with
    | .error b => .error b
    | .ok (_, s1) => insertsE M s1 ks

/-! ## Abstraction and invariants -/

/-- All keys reachable by search in the subtree rooted at `node`: the live
slots plus, recursively, the keys of the `elt_count + 1` in-use children.
`fuel` bounds the depth as everywhere (`treeDepth - nodeDepth`). -/
def nodeKeys : Nat → CashewSetNode → List Nat
  | 0, node => liveElts node
  | fuel+1, node =>
    liveElts node ++
      (match node.family with
       | none => []
       | some fam => ((fam.take (node.elt_count + 1)).map (nodeKeys fuel)).flatten)

/-- The keys strictly below `node` (the children's contribution of
`nodeKeys (fuel+1)`). -/
def belowKeys (fuel : Nat) (node : CashewSetNode) : List Nat :=
  match node.family with
  | none => []
  | some fam => ((fam.take (node.elt_count + 1)).map (nodeKeys fuel)).flatten

/-- All keys stored in a set. -/
def treeKeys (s : cashew_set) : List Nat := nodeKeys (s.treeDepth - 1) s.root

/-- The representation invariant of a subtree whose root sits `fuel` levels
above the leaf level (`fuel = treeDepth - nodeDepth`):
structure (I1, I2's slot count, I3), key distinctness (I4), and the search
ordering (I5) in its routing form: every key in the in-use child `j` has
exactly `j` live keys of the node below it.  A node with a family also keeps
family pointers out of the slots past the in-use range, and an interior node
without a family is on an all-empty chain (`elt_count = 0`). -/
def invNode (M : Nat) : Nat → CashewSetNode → Bool
  | 0, node =>
    decide (node.elt_count ≤ M) && (node.elts.length == M) &&
    decide (nodeKeys 0 node).Nodup && node.family.isNone
  | fuel+1, node =>
    decide (node.elt_count ≤ M) && (node.elts.length == M) &&
    decide (nodeKeys (fuel + 1) node).Nodup &&
    (match node.family with
     | none => node.elt_count == 0
     | some fam =>
       (fam.length == M + 1) &&
       (fam.all (fun ch => ch.elts.length == M)) &&
       ((List.range (node.elt_count + 1)).all (fun j => invNode M fuel (fam.getD j nodeD))) &&
       ((List.range (node.elt_count + 1)).all (fun j =>
          (nodeKeys fuel (fam.getD j nodeD)).all (fun y =>
            scanLess (liveElts node) y == j))) &&
       ((List.range (M + 1)).all (fun j =>
          !decide (node.elt_count < j) || (fam.getD j nodeD).family.isNone)))

/-- The whole-set invariant: root depth 1, the root subtree invariant, and
`treeEltCount` equal to the number of stored keys. -/
def cashew_set.inv (M : Nat) (s : cashew_set) : Bool :=
  decide (1 ≤ s.treeDepth) && invNode M (s.treeDepth - 1) s.root &&
    (s.treeEltCount == (treeKeys s).length)

/-- States reachable from a default-constructed set through the public
mutators (`insert` when it returns normally, and `clear`). -/
inductive Reachable (M : Nat) : cashew_set → Prop where
  | empty : Reachable M (cashew_set.empty M)
  | insert (s : cashew_set) (key : Nat) (b : Bool) (s1 : cashew_set) :
      Reachable M s → cashew_set.insert M s key = .ok (b, s1) → Reachable M s1
  | clear (s : cashew_set) : Reachable M s → Reachable M s.clear

/-! ## List glue lemmas -/

theorem getD_eq_getElem {α : Type} (l : List α) (j : Nat) (d : α) (h : j < l.length) :
    l.getD j d = l[j] := by
  simp [List.getD_eq_getElem?_getD, List.getElem?_eq_getElem h]

theorem getD_eq_default {α : Type} (l : List α) (j : Nat) (d : α) (h : l.length ≤ j) :
    l.getD j d = d := by
  simp [List.getD_eq_getElem?_getD, List.getElem?_eq_none h]

theorem getD_set_self {α : Type} (l : List α) (j : Nat) (x d : α) (h : j < l.length) :
    (l.set j x).getD j d = x := by
  rw [getD_eq_getElem _ _ _ (by simp [h])]
  simp [List.getElem_set_self, h]

theorem getD_set_ne {α : Type} (l : List α) (i j : Nat) (x d : α) (h : i ≠ j) :
    (l.set i x).getD j d = l.getD j d := by
  simp [List.getD_eq_getElem?_getD, List.getElem?_set_ne h]

theorem getD_append_left {α : Type} (l₁ l₂ : List α) (j : Nat) (d : α) (h : j < l₁.length) :
    (l₁ ++ l₂).getD j d = l₁.getD j d := by
  simp [List.getD_eq_getElem?_getD, List.getElem?_append_left h]

theorem getD_append_right {α : Type} (l₁ l₂ : List α) (j : Nat) (d : α) (h : l₁.length ≤ j) :
    (l₁ ++ l₂).getD j d = l₂.getD (j - l₁.length) d := by
  simp [List.getD_eq_getElem?_getD, List.getElem?_append_right h]

theorem getD_take {α : Type} (l : List α) (n j : Nat) (d : α) (h : j < n) :
    (l.take n).getD j d = l.getD j d := by
  simp [List.getD_eq_getElem?_getD, List.getElem?_take_of_lt h]

theorem getD_replicate {α : Type} (n j : Nat) (x d : α) (h : j < n) :
    (List.replicate n x).getD j d = x := by
  simp [List.getD_eq_getElem?_getD, List.getElem?_replicate_of_lt h]

theorem getD_mem_of_lt {α : Type} (l : List α) (j : Nat) (d : α) (h : j < l.length) :
    l.getD j d ∈ l := by
  rw [getD_eq_getElem _ _ _ h]
  exact List.getElem_mem h

theorem set_getD_self {α : Type} (l : List α) (j : Nat) (d : α) :
    l.set j (l.getD j d) = l := by
  by_cases h : j < l.length
  · apply List.ext_getElem?
    intro i
    by_cases hij : j = i
    · subst hij
      rw [List.getElem?_set_self h, List.getElem?_eq_getElem h, getD_eq_getElem _ _ _ h]
    · rw [List.getElem?_set_ne hij]
  · exact List.set_eq_of_length_le (by omega)

/-- `take (n+1)` splits off the final element. -/
theorem take_succ_getD {α : Type} (l : List α) (n : Nat) (d : α) (h : n < l.length) :
    l.take (n + 1) = l.take n ++ [l.getD n d] := by
  rw [getD_eq_getElem _ _ _ h, List.take_succ, List.getElem?_eq_getElem h]
  rfl

/-- `take (n+1)` of a list just set at `n`. -/
theorem take_succ_set {α : Type} (l : List α) (n : Nat) (x : α) (h : n < l.length) :
    (l.set n x).take (n + 1) = l.take n ++ [x] := by
  rw [take_succ_getD (l.set n x) n x (by simp [h]), List.set_take, getD_set_self _ _ _ _ h]
  congr 1
  exact List.set_eq_of_length_le (by simp)

/-- Decomposition of a `take` prefix around one interior position. -/
theorem take_decomp {α : Type} (l : List α) (j n : Nat) (d : α)
    (hj : j < n) (hn : n ≤ l.length) :
    l.take n = l.take j ++ l.getD j d :: ((l.drop (j + 1)).take (n - j - 1)) := by
  have hjl : j < l.length := by omega
  have h1 : l.take n = l.take j ++ (l.drop j).take (n - j) := by
    have : n = j + (n - j) := by omega
    rw [this, List.take_add]
    congr 2
    omega
  rw [h1, List.drop_eq_getElem_cons hjl, getD_eq_getElem _ _ _ hjl]
  congr 1
  have : n - j = (n - j - 1) + 1 := by omega
  rw [this, List.take_succ_cons]
  simp


/-! ## liveElts, scanLess and contains lemmas -/

@[simp] theorem liveElts_mk (f : Option (List CashewSetNode)) (c : Nat) (e : List Nat) :
    liveElts (.mk f c e) = e.take c := rfl

@[simp] theorem liveElts_movedFrom (n : CashewSetNode) : liveElts (movedFrom n) = liveElts n := rfl

theorem length_liveElts (node : CashewSetNode) (h : node.elt_count ≤ node.elts.length) :
    (liveElts node).length = node.elt_count := by
  simp [liveElts]; omega

theorem liveElts_writeAt (f : Option (List CashewSetNode)) (vals arr : List Nat)
    (h : vals.length ≤ arr.length) :
    liveElts (.mk f vals.length (writeAt arr 0 vals)) = vals := by
  rw [liveElts_mk, writeAt_eq vals arr 0 (by omega)]
  simp [List.take_append_eq_append_take]

theorem contains_iff_mem (l : List Nat) (k : Nat) : l.contains k = true ↔ k ∈ l :=
  List.elem_iff

theorem scanLess_le_length (live : List Nat) (k : Nat) : scanLess live k ≤ live.length :=
  List.countP_le_length _

theorem scanLess_mono (live : List Nat) (y z : Nat) (h : y ≤ z) :
    scanLess live y ≤ scanLess live z :=
  List.countP_mono_left (fun a _ ha => by
    simp at ha ⊢; omega)

theorem scanLess_append (l1 l2 : List Nat) (k : Nat) :
    scanLess (l1 ++ l2) k = scanLess l1 k + scanLess l2 k := by
  simp [scanLess]

theorem scanLess_singleton (x k : Nat) : scanLess [x] k = if x < k then 1 else 0 := by
  by_cases h : x < k <;> simp [scanLess, List.countP_cons, h]

theorem scanLess_filter_lt (live : List Nat) (k y : Nat) (h : y ≤ k) :
    scanLess (live.filter (fun x => decide (x < k))) y = scanLess live y := by
  rw [scanLess, List.countP_filter]
  apply List.countP_congr
  intro a _
  by_cases ha : a < y <;> simp [ha] <;> omega

theorem scanLess_filter_ge (live : List Nat) (k y : Nat) (h : k ≤ y) :
    scanLess live k + scanLess (live.filter (fun x => !decide (x < k))) y =
      scanLess live y := by
  have hperm := List.filter_append_perm (fun x => decide (x < k)) live
  have h1 : scanLess live y = scanLess (live.filter (fun x => decide (x < k))) y +
      scanLess (live.filter (fun x => !decide (x < k))) y := by
    rw [← scanLess_append]
    exact (hperm.countP_eq _).symm
  have h2 : scanLess (live.filter (fun x => decide (x < k))) y = scanLess live k := by
    rw [scanLess, List.countP_filter]
    rw [scanLess]
    apply List.countP_congr
    intro a _
    by_cases ha : a < k <;> simp [ha] <;> omega
  omega

theorem scanLess_strict (live : List Nat) (x y : Nat) (hx : x ∈ live) (hxy : x < y) :
    scanLess live x < scanLess live y := by
  have h1 := scanLess_filter_ge live x y (by omega)
  have h2 : 1 ≤ scanLess (live.filter (fun a => !decide (a < x))) y := by
    rw [scanLess]
    have : 0 < (live.filter (fun a => !decide (a < x))).countP (fun a => decide (a < y)) := by
      rw [List.countP_pos_iff]
      refine ⟨x, ?_, by simp [hxy]⟩
      rw [List.mem_filter]
      exact ⟨hx, by simp⟩
    omega
  omega

/-! ## nodeKeys, belowKeys, invNode interface -/

@[simp] theorem nodeKeys_zero (node : CashewSetNode) : nodeKeys 0 node = liveElts node := rfl

theorem nodeKeys_succ (fuel : Nat) (node : CashewSetNode) :
    nodeKeys (fuel + 1) node = liveElts node ++ belowKeys fuel node := by
  cases node with
  | mk f c e => cases f <;> rfl

theorem belowKeys_none (fuel : Nat) (node : CashewSetNode) (h : node.family = none) :
    belowKeys fuel node = [] := by
  cases node with
  | mk f c e => simp at h; simp [belowKeys, h]

theorem belowKeys_some (fuel : Nat) (node : CashewSetNode) (fam : List CashewSetNode)
    (h : node.family = some fam) :
    belowKeys fuel node =
      ((fam.take (node.elt_count + 1)).map (nodeKeys fuel)).flatten := by
  cases node with
  | mk f c e => simp at h; simp [belowKeys, h]

theorem mem_take_getD {α : Type} (l : List α) (n : Nat) (d : α) (x : α) (hn : n ≤ l.length) :
    x ∈ l.take n ↔ ∃ j, j < n ∧ l.getD j d = x := by
  constructor
  · intro hx
    rcases List.mem_iff_getElem.1 hx with ⟨j, hj, hx⟩
    have hjn : j < n := by simp at hj; omega
    have hjl : j < l.length := by omega
    refine ⟨j, hjn, ?_⟩
    rw [getD_eq_getElem _ _ _ hjl, ← hx, List.getElem_take]
  · rintro ⟨j, hjn, rfl⟩
    have hjl : j < l.length := by omega
    rw [getD_eq_getElem _ _ _ hjl]
    rw [List.mem_iff_getElem]
    refine ⟨j, by simp; omega, by rw [List.getElem_take]⟩

theorem mem_belowKeys (fuel : Nat) (node : CashewSetNode) (fam : List CashewSetNode)
    (h : node.family = some fam) (hlen : node.elt_count + 1 ≤ fam.length) (y : Nat) :
    y ∈ belowKeys fuel node ↔
      ∃ j, j ≤ node.elt_count ∧ y ∈ nodeKeys fuel (fam.getD j nodeD) := by
  rw [belowKeys_some fuel node fam h]
  rw [List.mem_flatten]
  constructor
  · rintro ⟨l, hl, hy⟩
    rcases List.mem_map.1 hl with ⟨child, hchild, rfl⟩
    rcases (mem_take_getD fam (node.elt_count + 1) nodeD child hlen).1 hchild with ⟨j, hj, rfl⟩
    exact ⟨j, by omega, hy⟩
  · rintro ⟨j, hj, hy⟩
    refine ⟨nodeKeys fuel (fam.getD j nodeD), ?_, hy⟩
    apply List.mem_map_of_mem
    exact (mem_take_getD fam (node.elt_count + 1) nodeD _ hlen).2 ⟨j, by omega, rfl⟩

theorem invNode_zero (M : Nat) (node : CashewSetNode) : invNode M 0 node = true ↔
    node.elt_count ≤ M ∧ node.elts.length = M ∧ (nodeKeys 0 node).Nodup ∧
    node.family = none := by
  simp [invNode, Option.isNone_iff_eq_none, and_assoc]

theorem invNode_succ (M fuel : Nat) (node : CashewSetNode) :
    invNode M (fuel + 1) node = true ↔
    node.elt_count ≤ M ∧ node.elts.length = M ∧ (nodeKeys (fuel + 1) node).Nodup ∧
    ((node.family = none ∧ node.elt_count = 0) ∨
     (∃ fam, node.family = some fam ∧ fam.length = M + 1 ∧
       (∀ ch, ch ∈ fam → ch.elts.length = M) ∧
       (∀ j, j ≤ node.elt_count → invNode M fuel (fam.getD j nodeD) = true) ∧
       (∀ j, j ≤ node.elt_count → ∀ y ∈ nodeKeys fuel (fam.getD j nodeD),
           scanLess (liveElts node) y = j) ∧
       (∀ j, node.elt_count < j → (fam.getD j nodeD).family = none))) := by
  cases hnodefam : node.family with
  | none =>
    simp only [invNode, hnodefam, Bool.and_eq_true, decide_eq_true_eq, beq_iff_eq]
    constructor
    · rintro ⟨⟨⟨hc, he⟩, hnd⟩, h0⟩
      exact ⟨hc, he, hnd, Or.inl ⟨by trivial, h0⟩⟩
    · rintro ⟨hc, he, hnd, h⟩
      rcases h with ⟨h1, h0⟩ | ⟨fam, hfam, hrest⟩
      · exact ⟨⟨⟨hc, he⟩, hnd⟩, h0⟩
      · exact absurd hfam (by simp)
  | some fam =>
    simp only [invNode, hnodefam, Bool.and_eq_true, decide_eq_true_eq, beq_iff_eq,
      List.all_eq_true, List.mem_range, Bool.or_eq_true, Option.isNone_iff_eq_none,
      Bool.not_eq_eq_eq_not, Bool.not_true, decide_eq_false_iff_not]
    constructor
    · rintro ⟨⟨⟨hc, he⟩, hnd⟩, ⟨⟨⟨⟨hlen, hslots⟩, hinv⟩, hroute⟩, hbeyond⟩⟩
      refine ⟨hc, he, hnd, Or.inr ⟨fam, rfl, hlen, hslots, ?_, ?_, ?_⟩⟩
      · intro j hj; exact hinv j (by omega)
      · intro j hj y hy
        exact hroute j (by omega) y hy
      · intro j hj
        by_cases hjM : j < M + 1
        · rcases hbeyond j hjM with h | h
          · omega
          · exact h
        · rw [getD_eq_default fam j nodeD (by omega)]
          rfl
    · rintro ⟨hc, he, hnd, h⟩
      rcases h with ⟨hfam, h0⟩ | ⟨fam2, hfam2, hlen, hslots, hinv, hroute, hbeyond⟩
      · exact absurd hfam (by simp)
      · have hfameq : fam2 = fam := by
          have h3 := hfam2.symm
          simpa using h3
        subst hfameq
        refine ⟨⟨⟨hc, he⟩, hnd⟩, ⟨⟨⟨⟨hlen, hslots⟩, ?_⟩, ?_⟩, ?_⟩⟩
        · intro j hj; exact hinv j (by omega)
        · intro j hj y hy
          exact hroute j (by omega) y hy
        · intro j hj
          by_cases hcj : node.elt_count < j
          · exact Or.inr (hbeyond j hcj)
          · exact Or.inl (by omega)

theorem inv_iff (M : Nat) (s : cashew_set) : s.inv M = true ↔
    1 ≤ s.treeDepth ∧ invNode M (s.treeDepth - 1) s.root = true ∧
    s.treeEltCount = (treeKeys s).length := by
  simp [cashew_set.inv]
  tauto

/-! ## More glue: take/set/drop, fresh nodes, checkBugs -/

theorem take_set_of_le {α : Type} (l : List α) (n m : Nat) (a : α) (h : m ≤ n) :
    (l.set n a).take m = l.take m := by
  rw [List.set_take]
  exact List.set_eq_of_length_le (by simp; omega)

theorem getD_drop {α : Type} (l : List α) (m n : Nat) (d : α) :
    (l.drop m).getD n d = l.getD (m + n) d := by
  simp [List.getD_eq_getElem?_getD, List.getElem?_drop]

theorem length_moveWithin (fam : List CashewSetNode) (dst src : Nat) :
    (moveWithin fam dst src).length = fam.length := by
  simp [moveWithin]

theorem length_shiftArray (base : Nat) :
    ∀ (len : Nat) (fam : List CashewSetNode),
    (shiftArray base len fam).length = fam.length := by
  intro len
  induction len with
  | zero => intro fam; rfl
  | succ n ih => intro fam; rw [shiftArray, ih, length_moveWithin]

theorem shiftArray_eq (base : Nat) :
    ∀ (len : Nat) (fam : List CashewSetNode), base + len < fam.length →
    shiftArray base len fam =
      fam.take base ++
      (if len = 0 then fam.getD base nodeD else movedFrom (fam.getD base nodeD)) ::
      ((fam.drop base).take len ++ fam.drop (base + len + 1)) := by
  intro len
  induction len with
  | zero =>
    intro fam h
    have hb : base < fam.length := by omega
    rw [shiftArray, if_pos rfl]
    simp only [List.take_zero, List.nil_append, Nat.add_zero]
    rw [getD_eq_getElem _ _ _ hb]
    rw [← List.drop_eq_getElem_cons hb, List.take_append_drop]
  | succ len ih =>
    intro fam h
    have hlen1 : base + len < fam.length := by omega
    have hbl : base + len < fam.length := hlen1
    rw [shiftArray]
    set v := fam.getD (base + len) nodeD with hv
    have hmw : moveWithin fam (base + len + 1) (base + len) =
        (fam.set (base + len + 1) v).set (base + len) (movedFrom v) := rfl
    rw [hmw]
    set fam2 := (fam.set (base + len + 1) v).set (base + len) (movedFrom v) with hfam2
    have hlen2 : base + len < fam2.length := by simp [hfam2]; omega
    rw [ih fam2 hlen2]
    have ha : fam2.take base = fam.take base := by
      rw [hfam2, take_set_of_le _ _ _ _ (by omega), take_set_of_le _ _ _ _ (by omega)]
    have hslot : (if len = 0 then fam2.getD base nodeD else movedFrom (fam2.getD base nodeD)) =
        movedFrom (fam.getD base nodeD) := by
      by_cases h0 : len = 0
      · subst h0
        rw [if_pos rfl, hfam2]
        have hb0 : base + 0 = base := by omega
        rw [hb0] at hv ⊢
        rw [getD_set_self _ _ _ _ (by simp; omega), hv]
      · rw [if_neg h0, hfam2]
        rw [getD_set_ne _ _ _ _ _ (by omega), getD_set_ne _ _ _ _ _ (by omega)]
    have hc : (fam2.drop base).take len = (fam.drop base).take len := by
      rw [hfam2]
      rw [List.drop_set, if_neg (by omega), List.drop_set, if_neg (by omega)]
      rw [take_set_of_le _ _ _ _ (by omega), take_set_of_le _ _ _ _ (by omega)]
    have hd : fam2.drop (base + len + 1) = v :: fam.drop (base + len + 2) := by
      rw [hfam2]
      rw [List.drop_set_of_lt _ _ (by omega)]
      rw [List.drop_set, if_neg (by omega)]
      have e0 : base + len + 1 - (base + len + 1) = 0 := by omega
      rw [e0]
      rw [List.drop_eq_getElem_cons (by omega : base + len + 1 < fam.length)]
      rw [List.set_cons_zero]
    rw [ha, hslot, hc, hd]
    rw [if_neg (by omega : ¬len + 1 = 0)]
    have e1 : (fam.drop base).take (len + 1) =
        (fam.drop base).take len ++ [v] := by
      rw [take_succ_getD _ _ nodeD (by simp; omega), getD_drop]
    have e2 : base + (len + 1) + 1 = base + len + 2 := by omega
    rw [e1, e2]
    simp

theorem length_move_n :
    ∀ (len : Nat) (src : List CashewSetNode) (sb : Nat) (dst : List CashewSetNode) (db : Nat),
    (move_n len src sb dst db).1.length = src.length ∧
    (move_n len src sb dst db).2.length = dst.length := by
  intro len
  induction len with
  | zero => intro src sb dst db; exact ⟨rfl, rfl⟩
  | succ n ih =>
    intro src sb dst db
    rw [move_n]
    refine ⟨?_, ?_⟩
    · rw [(ih _ _ _ _).1]; simp
    · rw [(ih _ _ _ _).2]; simp

theorem move_n_eq :
    ∀ (len : Nat) (src : List CashewSetNode) (sb : Nat) (dst : List CashewSetNode) (db : Nat),
    sb + len ≤ src.length → db + len ≤ dst.length →
    move_n len src sb dst db =
      (src.take sb ++ ((src.drop sb).take len).map movedFrom ++ src.drop (sb + len),
       dst.take db ++ (src.drop sb).take len ++ dst.drop (db + len)) := by
  intro len
  induction len with
  | zero =>
    intro src sb dst db h1 h2
    simp [move_n]
  | succ len ih =>
    intro src sb dst db h1 h2
    have hsb : sb < src.length := by omega
    have hdb : db < dst.length := by omega
    rw [move_n]
    set v := src.getD sb nodeD with hv
    rw [ih (src.set sb (movedFrom v)) (sb + 1) (dst.set db v) (db + 1)
      (by simp; omega) (by simp; omega)]
    have ha : (src.set sb (movedFrom v)).take (sb + 1) = src.take sb ++ [movedFrom v] :=
      take_succ_set _ _ _ hsb
    have hb : (src.set sb (movedFrom v)).drop (sb + 1) = src.drop (sb + 1) :=
      List.drop_set_of_lt _ _ (by omega)
    have hcc : (src.set sb (movedFrom v)).drop (sb + 1 + len) = src.drop (sb + 1 + len) :=
      List.drop_set_of_lt _ _ (by omega)
    have hdd : (dst.set db v).take (db + 1) = dst.take db ++ [v] :=
      take_succ_set _ _ _ hdb
    have he : (dst.set db v).drop (db + 1 + len) = dst.drop (db + 1 + len) :=
      List.drop_set_of_lt _ _ (by omega)
    rw [ha, hb, hcc, hdd, he]
    have hsplit : (src.drop sb).take (len + 1) = v :: (src.drop (sb + 1)).take len := by
      rw [List.drop_eq_getElem_cons hsb, List.take_succ_cons, hv,
        getD_eq_getElem _ _ _ hsb]
    rw [hsplit]
    have e1 : sb + (len + 1) = sb + 1 + len := by omega
    have e2 : db + (len + 1) = db + 1 + len := by omega
    rw [e1, e2]
    simp

/-! ## Fresh nodes and families -/

@[simp] theorem length_make_family (M : Nat) : (make_family M).length = M + 1 := by
  simp [make_family]

theorem getD_make_family (M j : Nat) (h : j < M + 1) :
    (make_family M).getD j nodeD = freshNode M := by
  rw [make_family, getD_replicate _ _ _ _ h]

@[simp] theorem liveElts_freshNode (M : Nat) : liveElts (freshNode M) = [] := by
  simp [freshNode]

@[simp] theorem nodeKeys_freshNode (fuel M : Nat) : nodeKeys fuel (freshNode M) = [] := by
  cases fuel with
  | zero => simp
  | succ n => rw [nodeKeys_succ, belowKeys_none n (freshNode M) rfl]; simp

theorem invNode_freshNode (M fuel : Nat) : invNode M fuel (freshNode M) = true := by
  cases fuel with
  | zero =>
    rw [invNode_zero]
    refine ⟨by simp [freshNode], by simp [freshNode], by simp, by simp [freshNode]⟩
  | succ n =>
    rw [invNode_succ]
    refine ⟨by simp [freshNode], by simp [freshNode], by simp, Or.inl ⟨rfl, rfl⟩⟩

/-! ## checkBugs characterization -/

theorem checkBugs_eq_none_iff (M d : Nat) (node : CashewSetNode) (δ : Nat) :
    checkBugs M d node δ = none ↔
    node.elt_count ≤ M ∧ δ ≤ d ∧ (δ = d → node.family = none) := by
  rw [checkBugs]
  split_ifs with h1 h2 h3
  · simp; omega
  · simp; omega
  · simp at h3
    constructor
    · intro h; cases h
    · rintro ⟨-, -, hf⟩
      rw [hf h3.1] at h3
      simp at h3
  · simp at h3
    exact ⟨fun _ => ⟨by omega, by omega, h3⟩, fun _ => rfl⟩

/-! ## Search correctness on invariant subtrees -/

theorem countRecursive_eq (M : Nat) :
    ∀ (fuel : Nat) (node : CashewSetNode) (k : Nat),
    invNode M fuel node = true →
    countRecursive (fuel + 1) node k = if k ∈ nodeKeys fuel node then 1 else 0 := by
  intro fuel
  induction fuel with
  | zero =>
    intro node k hinv
    rcases (invNode_zero M node).1 hinv with ⟨hc, he, hnd0, hf⟩
    rw [countRecursive]
    by_cases hk : (liveElts node).contains k
    · rw [if_pos hk, if_pos (by simpa [nodeKeys_zero] using (contains_iff_mem _ _).1 hk)]
    · rw [if_neg hk, hf, if_neg]
      simp only [nodeKeys_zero]
      intro hmem
      exact hk ((contains_iff_mem _ _).2 hmem)
  | succ fuel ih =>
    intro node k hinv
    rcases (invNode_succ M fuel node).1 hinv with ⟨hc, he, hnd, hfam⟩
    rw [countRecursive]
    by_cases hk : (liveElts node).contains k
    · rw [if_pos hk, if_pos]
      rw [nodeKeys_succ]
      exact List.mem_append_left _ ((contains_iff_mem _ _).1 hk)
    · rw [if_neg hk]
      have hklive : k ∉ liveElts node := fun hmem => hk ((contains_iff_mem _ _).2 hmem)
      rcases hfam with ⟨hnone, h0⟩ | ⟨fam, hsome, hlen, hslots, hinvc, hroute, hbeyond⟩
      · rw [hnone, if_neg]
        rw [nodeKeys_succ, belowKeys_none _ _ hnone]
        simpa using hklive
      · simp only [hsome]
        have hlc : scanLess (liveElts node) k ≤ node.elt_count := by
          have h1 := scanLess_le_length (liveElts node) k
          have h2 : (liveElts node).length = node.elt_count :=
            length_liveElts node (by omega)
          omega
        rw [ih (fam.getD (scanLess (liveElts node) k) nodeD) k (hinvc _ hlc)]
        by_cases hmem : k ∈ nodeKeys (fuel + 1) node
        · rw [if_pos hmem, if_pos]
          rw [nodeKeys_succ] at hmem
          rcases List.mem_append.1 hmem with h | h
          · exact absurd h hklive
          · rcases (mem_belowKeys fuel node fam hsome (by omega) k).1 h with ⟨j, hj, hkj⟩
            have := hroute j hj k hkj
            rw [this]
            exact hkj
        · rw [if_neg hmem, if_neg]
          intro hkc
          apply hmem
          rw [nodeKeys_succ]
          apply List.mem_append_right
          exact (mem_belowKeys fuel node fam hsome (by omega) k).2
            ⟨scanLess (liveElts node) k, hlc, hkc⟩

/-! ## The split contract and the insert outcome specification -/

/-- What a `familySplit` family handle promises: it can be installed as the
family of a node whose live keys become `newLive` (with `cnt` of them), and
its in-use children carry exactly the keys `below`. -/
def famInstallOK (M fuel : Nat) (fam? : Option (List CashewSetNode))
    (cnt : Nat) (newLive below : List Nat) : Prop :=
  match fam? with
  | none => below = []
  | some fam =>
    fam.length = M + 1 ∧
    (∀ ch, ch ∈ fam → ch.elts.length = M) ∧
    (∀ j, j ≤ cnt → invNode M fuel (fam.getD j nodeD) = true) ∧
    (∀ j, j ≤ cnt → ∀ y ∈ nodeKeys fuel (fam.getD j nodeD), scanLess newLive y = j) ∧
    (∀ j, cnt < j → (fam.getD j nodeD).family = none) ∧
    List.Perm (((fam.take (cnt + 1)).map (nodeKeys fuel)).flatten) below

/-- The full behavioural specification of one `tryInsert` call on a subtree
satisfying `invNode M fuel`: the three statuses characterised (`fuel` is the
remaining depth `treeDepth - nodeDepth`). -/
def InsertOutcome (M fuel : Nat) (node : CashewSetNode) (k n : Nat)
    (out : TryInsertResult × CashewSetNode × Nat) : Prop :=
  (out.1.status = .duplicateFound ↔ k ∈ nodeKeys fuel node) ∧
  (out.1.status = .duplicateFound → out.2.1 = node ∧ out.2.2 = n) ∧
  (out.1.status = .done →
     out.2.2 = n + 1 ∧ invNode M fuel out.2.1 = true ∧
     List.Perm (nodeKeys fuel out.2.1) (k :: nodeKeys fuel node)) ∧
  (out.1.status = .familySplit →
     out.2.2 = n ∧ node.elt_count = M ∧ out.2.1 = movedFrom node ∧
     (out.1.family0 = none ↔ fuel = 0) ∧ (out.1.family1 = none ↔ fuel = 0) ∧
     famInstallOK M (fuel - 1) out.1.family0 (scanLess (liveElts node) k)
       ((liveElts node).filter (fun x => decide (x < k)))
       ((belowKeys (fuel - 1) node).filter (fun x => decide (x < k))) ∧
     famInstallOK M (fuel - 1) out.1.family1
       (node.elt_count - scanLess (liveElts node) k)
       ((liveElts node).filter (fun x => !decide (x < k)))
       ((belowKeys (fuel - 1) node).filter (fun x => !decide (x < k))))

/-- Assembling a node from an install-ready family, a count, and a slot array
whose first `cnt` slots have just been overwritten with `vals`. -/
theorem assembleNode (M r cnt : Nat) (fam? : Option (List CashewSetNode))
    (vals arr below : List Nat)
    (hfam : famInstallOK M (r - 1) fam? cnt vals below)
    (hiff : fam? = none ↔ r = 0)
    (hlen : vals.length = cnt) (hcnt : cnt ≤ M) (harr : arr.length = M)
    (hnd : (vals ++ below).Nodup) :
    invNode M r (.mk fam? cnt (writeAt arr 0 vals)) = true ∧
    List.Perm (nodeKeys r (.mk fam? cnt (writeAt arr 0 vals))) (vals ++ below) ∧
    liveElts (.mk fam? cnt (writeAt arr 0 vals)) = vals := by
  have hlive : liveElts (CashewSetNode.mk fam? cnt (writeAt arr 0 vals)) = vals := by
    rw [← hlen]
    exact liveElts_writeAt fam? vals arr (by omega)
  cases r with
  | zero =>
    have hfnone : fam? = none := hiff.2 rfl
    subst hfnone
    have hbelow : below = [] := hfam
    refine ⟨?_, ?_, hlive⟩
    · rw [invNode_zero]
      refine ⟨by simpa using hcnt, by simp [harr], ?_, by simp⟩
      rw [nodeKeys_zero, hlive]
      rw [hbelow, List.append_nil] at hnd
      exact hnd
    · rw [nodeKeys_zero, hlive, hbelow, List.append_nil]
  | succ r0 =>
    cases hfs : fam? with
    | none => exact absurd (hiff.1 hfs) (by omega)
    | some fam =>
      subst hfs
      rcases hfam with ⟨hflen, hslots, hinvc, hroute, hbeyond, hperm⟩
      have hbel : belowKeys r0 (CashewSetNode.mk (some fam) cnt (writeAt arr 0 vals)) =
          ((fam.take (cnt + 1)).map (nodeKeys r0)).flatten := by
        rw [belowKeys_some r0 (CashewSetNode.mk (some fam) cnt (writeAt arr 0 vals)) fam rfl]
        simp
      have hkeys : List.Perm
          (nodeKeys (r0 + 1) (CashewSetNode.mk (some fam) cnt (writeAt arr 0 vals)))
          (vals ++ below) := by
        rw [nodeKeys_succ, hbel, hlive]
        exact hperm.append_left vals
      refine ⟨?_, hkeys, hlive⟩
      rw [invNode_succ]
      refine ⟨by simpa using hcnt, by simp [harr], hkeys.nodup_iff.2 hnd,
        Or.inr ⟨fam, rfl, hflen, hslots, ?_, ?_, ?_⟩⟩
      · intro j hj
        have h2 : (r0 + 1) - 1 = r0 := by omega
        have := hinvc j (by simpa using hj)
        rwa [h2] at this
      · intro j hj y hy
        rw [hlive]
        have h2 : (r0 + 1) - 1 = r0 := by omega
        apply hroute j (by simpa using hj)
        rw [h2]
        exact hy
      · intro j hj
        exact hbeyond j (by simpa using hj)

/-! ## Write-back of a mutated child (the non-split propagation paths) -/

theorem scanLess_le_count (M r : Nat) (node : CashewSetNode) (k : Nat)
    (hc : node.elt_count ≤ M) (he : node.elts.length = M) :
    scanLess (liveElts node) k ≤ node.elt_count := by
  have h1 := scanLess_le_length (liveElts node) k
  have h2 : (liveElts node).length = node.elt_count := length_liveElts node (by omega)
  omega

/-- Destructor for `invNode` at a node with a family. -/
theorem invNode_succ_some (M r : Nat) (node : CashewSetNode) (fam : List CashewSetNode)
    (hsome : node.family = some fam) (hinv : invNode M (r + 1) node = true) :
    node.elt_count ≤ M ∧ node.elts.length = M ∧ (nodeKeys (r + 1) node).Nodup ∧
    fam.length = M + 1 ∧
    (∀ ch, ch ∈ fam → ch.elts.length = M) ∧
    (∀ j, j ≤ node.elt_count → invNode M r (fam.getD j nodeD) = true) ∧
    (∀ j, j ≤ node.elt_count → ∀ y ∈ nodeKeys r (fam.getD j nodeD),
        scanLess (liveElts node) y = j) ∧
    (∀ j, node.elt_count < j → (fam.getD j nodeD).family = none) := by
  rcases (invNode_succ M r node).1 hinv with ⟨hc, he, hnd, hfam⟩
  rcases hfam with ⟨hnone, -⟩ | ⟨fam2, hsome2, hflen, hslots, hinvc, hroute, hbeyond⟩
  · rw [hsome] at hnone; exact absurd hnone (by simp)
  · have hfameq : fam2 = fam := by
      rw [hsome] at hsome2; simpa using hsome2.symm
    exact ⟨hc, he, hnd, hfameq ▸ hflen, hfameq ▸ hslots, hfameq ▸ hinvc,
      hfameq ▸ hroute, hfameq ▸ hbeyond⟩

theorem writeBack_done (M r : Nat) (node : CashewSetNode) (fam : List CashewSetNode)
    (child1 : CashewSetNode) (k : Nat)
    (hsome : node.family = some fam)
    (hinv : invNode M (r + 1) node = true)
    (hknotin : k ∉ nodeKeys (r + 1) node)
    (hinv1 : invNode M r child1 = true)
    (hkeys1 : List.Perm (nodeKeys r child1)
      (k :: nodeKeys r (fam.getD (scanLess (liveElts node) k) nodeD))) :
    invNode M (r + 1)
      (.mk (some (fam.set (scanLess (liveElts node) k) child1)) node.elt_count node.elts)
      = true ∧
    List.Perm
      (nodeKeys (r + 1)
        (.mk (some (fam.set (scanLess (liveElts node) k) child1)) node.elt_count node.elts))
      (k :: nodeKeys (r + 1) node) := by
  obtain ⟨hc, he, hnd, hflen, hslots, hinvc, hroute, hbeyond⟩ :=
    invNode_succ_some M r node fam hsome hinv
  set lc := scanLess (liveElts node) k with hlc
  have hlcc : lc ≤ node.elt_count := scanLess_le_count M r node k hc he
  have hlcf : lc < fam.length := by omega
  have hdecomp2 : (fam.set lc child1).take (node.elt_count + 1) =
      fam.take lc ++ child1 :: ((fam.drop (lc + 1)).take (node.elt_count - lc)) := by
    rw [take_decomp (fam.set lc child1) lc (node.elt_count + 1) nodeD (by omega) (by simp; omega)]
    rw [take_set_of_le _ _ _ _ (by omega), getD_set_self _ _ _ _ hlcf,
      List.drop_set_of_lt _ _ (by omega)]
    have e1 : node.elt_count + 1 - lc - 1 = node.elt_count - lc := by omega
    rw [e1]
  have hdecomp1 : fam.take (node.elt_count + 1) =
      fam.take lc ++ (fam.getD lc nodeD) :: ((fam.drop (lc + 1)).take (node.elt_count - lc)) := by
    rw [take_decomp fam lc (node.elt_count + 1) nodeD (by omega) (by omega)]
    have e1 : node.elt_count + 1 - lc - 1 = node.elt_count - lc := by omega
    rw [e1]
  have hbel1 : belowKeys r node = ((fam.take (node.elt_count + 1)).map (nodeKeys r)).flatten :=
    belowKeys_some r node fam hsome
  have h0 : liveElts (CashewSetNode.mk (some (fam.set lc child1)) node.elt_count node.elts)
      = liveElts node := rfl
  have hkeysnew : List.Perm
      (nodeKeys (r + 1)
        (CashewSetNode.mk (some (fam.set lc child1)) node.elt_count node.elts))
      (k :: nodeKeys (r + 1) node) := by
    rw [nodeKeys_succ, nodeKeys_succ]
    rw [belowKeys_some r
      (CashewSetNode.mk (some (fam.set lc child1)) node.elt_count node.elts)
      (fam.set lc child1) rfl]
    simp only [CashewSetNode.elt_count_mk, CashewSetNode.elts_mk]
    rw [hdecomp2, hbel1, hdecomp1, h0]
    simp only [List.map_append, List.map_cons, List.flatten_append, List.flatten_cons]
    set L := liveElts node
    set FA := ((fam.take lc).map (nodeKeys r)).flatten
    set FB := (((fam.drop (lc + 1)).take (node.elt_count - lc)).map (nodeKeys r)).flatten
    set KC := nodeKeys r (fam.getD lc nodeD)
    have step1 : List.Perm (L ++ (FA ++ (nodeKeys r child1 ++ FB)))
        (L ++ (FA ++ ((k :: KC) ++ FB))) :=
      List.Perm.append_left L (List.Perm.append_left FA (hkeys1.append_right FB))
    have step2 : List.Perm (L ++ (FA ++ ((k :: KC) ++ FB)))
        (k :: (L ++ (FA ++ (KC ++ FB)))) := by
      have h1 : L ++ (FA ++ ((k :: KC) ++ FB)) = (L ++ FA) ++ (k :: (KC ++ FB)) := by
        simp [List.append_assoc]
      have h2 : k :: (L ++ (FA ++ (KC ++ FB))) = k :: ((L ++ FA) ++ (KC ++ FB)) := by
        simp [List.append_assoc]
      rw [h1, h2]
      exact List.perm_middle
    exact step1.trans step2
  refine ⟨?_, hkeysnew⟩
  rw [invNode_succ]
  have hch1len : child1.elts.length = M := by
    cases r with
    | zero => exact ((invNode_zero M child1).1 hinv1).2.1
    | succ r0 => exact ((invNode_succ M r0 child1).1 hinv1).2.1
  refine ⟨by simpa using hc, by simpa using he,
    hkeysnew.nodup_iff.2 (List.nodup_cons.2 ⟨hknotin, hnd⟩),
    Or.inr ⟨fam.set lc child1, rfl, by simp [hflen], ?_, ?_, ?_, ?_⟩⟩
  · intro ch hch
    rcases List.mem_or_eq_of_mem_set hch with hch2 | hch2
    · exact hslots ch hch2
    · rw [hch2]; exact hch1len
  · intro j hj
    simp only [CashewSetNode.elt_count_mk] at hj
    by_cases hjlc : j = lc
    · subst hjlc
      rw [getD_set_self _ _ _ _ hlcf]
      exact hinv1
    · rw [getD_set_ne _ _ _ _ _ (fun a => hjlc a.symm)]
      exact hinvc j hj
  · intro j hj y hy
    simp only [CashewSetNode.elt_count_mk] at hj
    rw [h0]
    by_cases hjlc : j = lc
    · subst hjlc
      rw [getD_set_self _ _ _ _ hlcf] at hy
      have hy2 := hkeys1.mem_iff.1 hy
      rcases List.mem_cons.1 hy2 with rfl | hy3
      · exact hlc.symm
      · exact hroute lc hlcc y hy3
    · rw [getD_set_ne _ _ _ _ _ (fun a => hjlc a.symm)] at hy
      exact hroute j hj y hy
  · intro j hj
    simp only [CashewSetNode.elt_count_mk] at hj
    rw [getD_set_ne _ _ _ _ _ (by omega)]
    exact hbeyond j hj

theorem invNode_elts_length (M f : Nat) (node : CashewSetNode)
    (h : invNode M f node = true) : node.elts.length = M := by
  cases f with
  | zero => exact ((invNode_zero M node).1 h).2.1
  | succ f0 => exact ((invNode_succ M f0 node).1 h).2.1

theorem invNode_count_le (M f : Nat) (node : CashewSetNode)
    (h : invNode M f node = true) : node.elt_count ≤ M := by
  cases f with
  | zero => exact ((invNode_zero M node).1 h).1
  | succ f0 => exact ((invNode_succ M f0 node).1 h).1

theorem invNode_nodup (M f : Nat) (node : CashewSetNode)
    (h : invNode M f node = true) : (nodeKeys f node).Nodup := by
  cases f with
  | zero => exact ((invNode_zero M node).1 h).2.2.1
  | succ f0 => exact ((invNode_succ M f0 node).1 h).2.2.1

/-- Attaching a fresh family to an interior node with no family (the
`make_family` allocation in `insertSpacious`) preserves the invariant and the
key set. -/
theorem attach_fresh_family (M r : Nat) (node : CashewSetNode)
    (hinv : invNode M (r + 1) node = true) (hnone : node.family = none) :
    invNode M (r + 1)
      (.mk (some (make_family M)) node.elt_count node.elts) = true ∧
    nodeKeys (r + 1) (.mk (some (make_family M)) node.elt_count node.elts) =
      nodeKeys (r + 1) node := by
  rcases (invNode_succ M r node).1 hinv with ⟨hc, he, hnd, hfam⟩
  rcases hfam with ⟨-, h0⟩ | ⟨fam2, hsome2, -⟩
  swap
  · rw [hnone] at hsome2; exact absurd hsome2 (by simp)
  have hbelow : belowKeys r (CashewSetNode.mk (some (make_family M)) node.elt_count node.elts)
      = [] := by
    rw [belowKeys_some r
      (CashewSetNode.mk (some (make_family M)) node.elt_count node.elts)
      (make_family M) rfl]
    rw [List.flatten_eq_nil_iff]
    intro l hl
    rcases List.mem_map.1 hl with ⟨ch, hch, rfl⟩
    have hch2 : ch ∈ make_family M := List.mem_of_mem_take hch
    have hch3 : ch = freshNode M := List.eq_of_mem_replicate hch2
    rw [hch3]
    exact nodeKeys_freshNode r M
  have hkeys : nodeKeys (r + 1) (CashewSetNode.mk (some (make_family M)) node.elt_count node.elts)
      = nodeKeys (r + 1) node := by
    rw [nodeKeys_succ, nodeKeys_succ, hbelow, belowKeys_none r node hnone]
    rfl
  refine ⟨?_, hkeys⟩
  rw [invNode_succ]
  refine ⟨by simpa using hc, by simpa using he, by rw [hkeys]; exact hnd,
    Or.inr ⟨make_family M, rfl, by simp, ?_, ?_, ?_, ?_⟩⟩
  · intro ch hch
    rw [List.eq_of_mem_replicate hch]
    simp [freshNode]
  · intro j hj
    simp only [CashewSetNode.elt_count_mk] at hj
    rw [getD_make_family M j (by omega)]
    exact invNode_freshNode M r
  · intro j hj y hy
    simp only [CashewSetNode.elt_count_mk] at hj
    rw [getD_make_family M j (by omega)] at hy
    rw [nodeKeys_freshNode] at hy
    exact absurd hy (List.not_mem_nil y)
  · intro j hj
    by_cases hjM : j < M + 1
    · rw [getD_make_family M j hjM]; rfl
    · rw [getD_eq_default _ _ _ (by simp; omega)]; rfl

/-! ## Key bookkeeping helpers -/

theorem filter_length_split (l : List Nat) (p : Nat → Bool) :
    (l.filter p).length + (l.filter (fun x => !p x)).length = l.length := by
  have h := (List.filter_append_perm p l).length_eq
  simpa using h

theorem perm_append_swap {α : Type} (A B C D : List α) :
    List.Perm ((A ++ B) ++ (C ++ D)) ((A ++ C) ++ (B ++ D)) := by
  have h1 : (A ++ B) ++ (C ++ D) = A ++ (B ++ C) ++ D := by simp [List.append_assoc]
  have h2 : (A ++ C) ++ (B ++ D) = A ++ (C ++ B) ++ D := by simp [List.append_assoc]
  rw [h1, h2]
  exact ((List.perm_append_comm.append_left A).append_right D)

/-- `nodeKeys` of an invariant node always splits as live keys plus the keys
below, for any stated child fuel when the node is a leaf. -/
theorem nodeKeys_eq_live_below (M r : Nat) (node : CashewSetNode)
    (hinv : invNode M r node = true) :
    nodeKeys r node = liveElts node ++ belowKeys (r - 1) node := by
  cases r with
  | zero =>
    rcases (invNode_zero M node).1 hinv with ⟨-, -, -, hf⟩
    rw [nodeKeys_zero, belowKeys_none _ _ hf, List.append_nil]
  | succ r0 => rw [nodeKeys_succ]; rfl

/-- The heart of the split-absorbing `insertSpacious` branch: installing the
two halves of a split child (plus the pivot key appended to the node) keeps
the invariant and adds exactly the pivot to the key set. -/
theorem absorb_core (M r : Nat) (node : CashewSetNode) (fam : List CashewSetNode)
    (k : Nat) (f0 f1 : Option (List CashewSetNode)) (slotElts : List Nat)
    (hsome : node.family = some fam)
    (hinv : invNode M (r + 1) node = true)
    (hcM : node.elt_count < M)
    (hknotin : k ∉ nodeKeys (r + 1) node)
    (hccM : (fam.getD (scanLess (liveElts node) k) nodeD).elt_count = M)
    (hf0 : f0 = none ↔ r = 0) (hf1 : f1 = none ↔ r = 0)
    (hslotlen : slotElts.length = M)
    (hins0 : famInstallOK M (r - 1) f0
      (scanLess (liveElts (fam.getD (scanLess (liveElts node) k) nodeD)) k)
      ((liveElts (fam.getD (scanLess (liveElts node) k) nodeD)).filter
        (fun x => decide (x < k)))
      ((belowKeys (r - 1) (fam.getD (scanLess (liveElts node) k) nodeD)).filter
        (fun x => decide (x < k))))
    (hins1 : famInstallOK M (r - 1) f1
      ((fam.getD (scanLess (liveElts node) k) nodeD).elt_count -
        scanLess (liveElts (fam.getD (scanLess (liveElts node) k) nodeD)) k)
      ((liveElts (fam.getD (scanLess (liveElts node) k) nodeD)).filter
        (fun x => !decide (x < k)))
      ((belowKeys (r - 1) (fam.getD (scanLess (liveElts node) k) nodeD)).filter
        (fun x => !decide (x < k)))) :
    invNode M (r + 1)
      (.mk (some ((fam.take (scanLess (liveElts node) k) ++
        CashewSetNode.mk f0
          ((liveElts (fam.getD (scanLess (liveElts node) k) nodeD)).filter
            (fun x => decide (x < k))).length
          (writeAt (fam.getD (scanLess (liveElts node) k) nodeD).elts 0
            ((liveElts (fam.getD (scanLess (liveElts node) k) nodeD)).filter
              (fun x => decide (x < k)))) ::
        CashewSetNode.mk f1
          ((liveElts (fam.getD (scanLess (liveElts node) k) nodeD)).filter
            (fun x => !decide (x < k))).length
          (writeAt slotElts 0
            ((liveElts (fam.getD (scanLess (liveElts node) k) nodeD)).filter
              (fun x => !decide (x < k)))) ::
        ((fam.drop (scanLess (liveElts node) k + 1)).take
          (node.elt_count - scanLess (liveElts node) k))) ++
        fam.drop (node.elt_count + 2)))
        (node.elt_count + 1) (node.elts.set node.elt_count k)) = true ∧
    List.Perm
      (nodeKeys (r + 1)
        (.mk (some ((fam.take (scanLess (liveElts node) k) ++
          CashewSetNode.mk f0
            ((liveElts (fam.getD (scanLess (liveElts node) k) nodeD)).filter
              (fun x => decide (x < k))).length
            (writeAt (fam.getD (scanLess (liveElts node) k) nodeD).elts 0
              ((liveElts (fam.getD (scanLess (liveElts node) k) nodeD)).filter
                (fun x => decide (x < k)))) ::
          CashewSetNode.mk f1
            ((liveElts (fam.getD (scanLess (liveElts node) k) nodeD)).filter
              (fun x => !decide (x < k))).length
            (writeAt slotElts 0
              ((liveElts (fam.getD (scanLess (liveElts node) k) nodeD)).filter
                (fun x => !decide (x < k)))) ::
          ((fam.drop (scanLess (liveElts node) k + 1)).take
            (node.elt_count - scanLess (liveElts node) k))) ++
          fam.drop (node.elt_count + 2)))
          (node.elt_count + 1) (node.elts.set node.elt_count k)))
      (k :: nodeKeys (r + 1) node) := by
  obtain ⟨hc, he, hnd, hflen, hslots, hinvc, hroute, hbeyond⟩ :=
    invNode_succ_some M r node fam hsome hinv
  set lc := scanLess (liveElts node) k with hlc
  set child := fam.getD lc nodeD with hchild
  set ltL := (liveElts child).filter (fun x => decide (x < k)) with hltL
  set geL := (liveElts child).filter (fun x => !decide (x < k)) with hgeL
  set lt1 := CashewSetNode.mk f0 ltL.length (writeAt child.elts 0 ltL) with hlt1
  set gt1 := CashewSetNode.mk f1 geL.length (writeAt slotElts 0 geL) with hgt1
  set slice := (fam.drop (lc + 1)).take (node.elt_count - lc) with hslice
  set PRE := fam.take lc ++ lt1 :: gt1 :: slice with hPRE
  set fam3 := PRE ++ fam.drop (node.elt_count + 2) with hfam3
  have hlcc : lc ≤ node.elt_count := scanLess_le_count M r node k hc he
  have hlcf : lc < fam.length := by omega
  have hchildmem : child ∈ fam := getD_mem_of_lt fam lc nodeD hlcf
  have hchlen : child.elts.length = M := hslots child hchildmem
  have hchildinv : invNode M r child = true := hinvc lc hlcc
  have hliveC : (liveElts child).length = M := by
    rw [length_liveElts child (by omega)]
    exact hccM
  have hltge : ltL.length + geL.length = M := by
    rw [hltL, hgeL, filter_length_split, hliveC]
  have hltM : ltL.length ≤ M := by omega
  have hkC : k ∉ nodeKeys r child := by
    intro hmem
    apply hknotin
    rw [nodeKeys_succ]
    apply List.mem_append_right
    exact (mem_belowKeys r node fam hsome (by omega) k).2 ⟨lc, hlcc, hmem⟩
  -- the two assembled halves
  have hasm0 := assembleNode M r ltL.length f0 ltL child.elts
    ((belowKeys (r - 1) child).filter (fun x => decide (x < k)))
    (by rw [hltL]
        have e1 : scanLess (liveElts child) k = ltL.length := by
          rw [scanLess, List.countP_eq_length_filter, hltL]
        rw [← e1]
        exact hins0)
    hf0 rfl hltM hchlen
    (by rw [hltL]
        have hkeysC : nodeKeys r child = liveElts child ++ belowKeys (r - 1) child :=
          nodeKeys_eq_live_below M r child hchildinv
        have hndC : (nodeKeys r child).Nodup := invNode_nodup M r child hchildinv
        rw [hkeysC] at hndC
        rw [← List.filter_append]
        exact hndC.filter _)
  have hasm1 := assembleNode M r geL.length f1 geL slotElts
    ((belowKeys (r - 1) child).filter (fun x => !decide (x < k)))
    (by rw [hgeL]
        have e1 : child.elt_count - scanLess (liveElts child) k = geL.length := by
          rw [scanLess, List.countP_eq_length_filter, hccM]
          have e2 : ((liveElts child).filter (fun x => decide (x < k))).length = ltL.length := by
            rw [hltL]
          rw [e2]
          omega
        rw [← e1]
        exact hins1)
    hf1 rfl (by omega) hslotlen
    (by rw [hgeL]
        have hkeysC : nodeKeys r child = liveElts child ++ belowKeys (r - 1) child :=
          nodeKeys_eq_live_below M r child hchildinv
        have hndC : (nodeKeys r child).Nodup := invNode_nodup M r child hchildinv
        rw [hkeysC] at hndC
        rw [← List.filter_append]
        exact hndC.filter _)
  obtain ⟨hinv0, hkeys0, hlive0⟩ := hasm0
  obtain ⟨hinv1, hkeys1, hlive1⟩ := hasm1
  -- lengths of the pieces
  have hALen : (fam.take lc).length = lc := by simp; omega
  have hSliceLen : slice.length = node.elt_count - lc := by
    rw [hslice]; simp; omega
  have hPRELen : PRE.length = node.elt_count + 2 := by
    rw [hPRE]; simp only [List.length_append, List.length_cons, hALen, hSliceLen]; omega
  have hfam3Len : fam3.length = M + 1 := by
    rw [hfam3]; simp only [List.length_append, hPRELen, List.length_drop, hflen]; omega
  -- pointwise description of the new family
  have hG_lt : ∀ j, j < lc → fam3.getD j nodeD = fam.getD j nodeD := by
    intro j hj
    rw [hfam3, getD_append_left _ _ _ _ (by omega), hPRE,
      getD_append_left _ _ _ _ (by omega), getD_take _ _ _ _ hj]
  have hG_lc : fam3.getD lc nodeD = lt1 := by
    rw [hfam3, getD_append_left _ _ _ _ (by omega), hPRE,
      getD_append_right _ _ _ _ (by omega)]
    rw [hALen]
    simp
  have hG_lc1 : fam3.getD (lc + 1) nodeD = gt1 := by
    rw [hfam3, getD_append_left _ _ _ _ (by omega), hPRE,
      getD_append_right _ _ _ _ (by omega)]
    rw [hALen]
    have e1 : lc + 1 - lc = 1 := by omega
    rw [e1]
    simp
  have hG_mid : ∀ j, lc + 2 ≤ j → j ≤ node.elt_count + 1 →
      fam3.getD j nodeD = fam.getD (j - 1) nodeD := by
    intro j hj1 hj2
    rw [hfam3, getD_append_left _ _ _ _ (by omega), hPRE,
      getD_append_right _ _ _ _ (by omega)]
    rw [hALen]
    obtain ⟨t, rfl⟩ : ∃ t, j = lc + 2 + t := ⟨j - lc - 2, by omega⟩
    have e1 : lc + 2 + t - lc = t + 2 := by omega
    rw [e1]
    simp only [List.getD_cons_succ]
    rw [hslice, getD_take _ _ _ _ (by omega), getD_drop]
    congr 1
    omega
  have hG_hi : ∀ j, node.elt_count + 2 ≤ j → fam3.getD j nodeD = fam.getD j nodeD := by
    intro j hj
    rw [hfam3, getD_append_right _ _ _ _ (by omega), hPRELen, getD_drop]
    congr 1
    omega
  -- the in-use prefixes, old and new
  have hOld : fam.take (node.elt_count + 1) = fam.take lc ++ child :: slice := by
    rw [take_decomp fam lc (node.elt_count + 1) nodeD (by omega) (by omega)]
    have e1 : node.elt_count + 1 - lc - 1 = node.elt_count - lc := by omega
    rw [e1, ← hchild, ← hslice]
  have hNew : fam3.take (node.elt_count + 2) = fam.take lc ++ lt1 :: gt1 :: slice := by
    rw [hfam3, List.take_left' hPRELen, hPRE]
  -- live keys of the result
  have hlive2 : (node.elts.set node.elt_count k).take (node.elt_count + 1) =
      liveElts node ++ [k] := by
    rw [take_succ_set node.elts node.elt_count k (by omega)]
    rfl
  have hscan2 : ∀ y, scanLess (liveElts node ++ [k]) y =
      scanLess (liveElts node) y + if k < y then 1 else 0 := by
    intro y
    rw [scanLess_append, scanLess_singleton]
  -- membership helpers for the two halves
  have hmem0 : ∀ y, y ∈ nodeKeys r lt1 → y < k ∧ y ∈ nodeKeys r child := by
    intro y hy
    have hy2 := hkeys0.mem_iff.1 hy
    rw [nodeKeys_eq_live_below M r child hchildinv]
    rcases List.mem_append.1 hy2 with h | h
    · rcases List.mem_filter.1 h with ⟨h1, h2⟩
      exact ⟨by simpa using h2, List.mem_append_left _ h1⟩
    · rcases List.mem_filter.1 h with ⟨h1, h2⟩
      exact ⟨by simpa using h2, List.mem_append_right _ h1⟩
  have hmem1 : ∀ y, y ∈ nodeKeys r gt1 → k < y ∧ y ∈ nodeKeys r child := by
    intro y hy
    have hy2 := hkeys1.mem_iff.1 hy
    have hyC : y ∈ nodeKeys r child ∧ ¬y < k := by
      rw [nodeKeys_eq_live_below M r child hchildinv]
      rcases List.mem_append.1 hy2 with h | h
      · rcases List.mem_filter.1 h with ⟨h1, h2⟩
        exact ⟨List.mem_append_left _ h1, by simpa using h2⟩
      · rcases List.mem_filter.1 h with ⟨h1, h2⟩
        exact ⟨List.mem_append_right _ h1, by simpa using h2⟩
    have hyk : y ≠ k := by
      intro h
      exact hkC (h ▸ hyC.1)
    exact ⟨by omega, hyC.1⟩
  -- key permutation
  have hperm : List.Perm
      (nodeKeys (r + 1)
        (CashewSetNode.mk (some fam3) (node.elt_count + 1)
          (node.elts.set node.elt_count k)))
      (k :: nodeKeys (r + 1) node) := by
    rw [nodeKeys_succ,
      belowKeys_some r
        (CashewSetNode.mk (some fam3) (node.elt_count + 1)
          (node.elts.set node.elt_count k)) fam3 rfl]
    simp only [CashewSetNode.elt_count_mk, CashewSetNode.elts_mk, liveElts_mk]
    rw [hlive2, hNew]
    rw [nodeKeys_succ, belowKeys_some r node fam hsome, hOld]
    simp only [List.map_append, List.map_cons, List.flatten_append, List.flatten_cons]
    set L := liveElts node
    set FA := ((fam.take lc).map (nodeKeys r)).flatten
    set FS := (slice.map (nodeKeys r)).flatten
    set KC := nodeKeys r child
    have s1 : List.Perm (nodeKeys r lt1 ++ (nodeKeys r gt1 ++ FS)) (KC ++ FS) := by
      have s2 : List.Perm (nodeKeys r lt1 ++ nodeKeys r gt1) KC := by
        have s3 := (hkeys0.append hkeys1).trans
          (perm_append_swap ltL
            ((belowKeys (r - 1) child).filter (fun x => decide (x < k)))
            geL
            ((belowKeys (r - 1) child).filter (fun x => !decide (x < k))))
        have s4 : List.Perm (ltL ++ geL) (liveElts child) := List.filter_append_perm _ _
        have s5 : List.Perm
            ((belowKeys (r - 1) child).filter (fun x => decide (x < k)) ++
             (belowKeys (r - 1) child).filter (fun x => !decide (x < k)))
            (belowKeys (r - 1) child) := List.filter_append_perm _ _
        have s6 := s3.trans (s4.append s5)
        rw [← nodeKeys_eq_live_below M r child hchildinv] at s6
        exact s6
      have s7 : nodeKeys r lt1 ++ (nodeKeys r gt1 ++ FS) =
          (nodeKeys r lt1 ++ nodeKeys r gt1) ++ FS := by simp [List.append_assoc]
      rw [s7]
      exact s2.append_right FS
    have s8 : List.Perm ((L ++ [k]) ++ (FA ++ (nodeKeys r lt1 ++ (nodeKeys r gt1 ++ FS))))
        ((L ++ [k]) ++ (FA ++ (KC ++ FS))) :=
      List.Perm.append_left _ (List.Perm.append_left FA s1)
    refine s8.trans ?_
    have s9 : (L ++ [k]) ++ (FA ++ (KC ++ FS)) = L ++ k :: (FA ++ (KC ++ FS)) := by
      simp [List.append_assoc]
    rw [s9]
    exact List.perm_middle
  refine ⟨?_, hperm⟩
  -- the invariant of the result
  rw [invNode_succ]
  refine ⟨by simpa using (by omega : node.elt_count + 1 ≤ M), by simpa using he,
    hperm.nodup_iff.2 (List.nodup_cons.2 ⟨hknotin, hnd⟩),
    Or.inr ⟨fam3, rfl, hfam3Len, ?_, ?_, ?_, ?_⟩⟩
  · -- all slots keep M-length arrays
    intro ch hch
    rw [hfam3, hPRE] at hch
    rcases List.mem_append.1 hch with hch1 | hch1
    swap
    · exact hslots ch (List.mem_of_mem_drop hch1)
    rcases List.mem_append.1 hch1 with hch2 | hch2
    · exact hslots ch (List.mem_of_mem_take hch2)
    rcases List.mem_cons.1 hch2 with rfl | hch3
    · rw [hlt1]; simp [hchlen]
    rcases List.mem_cons.1 hch3 with rfl | hch4
    · rw [hgt1]; simp [hslotlen]
    · exact hslots ch (List.mem_of_mem_drop (List.mem_of_mem_take hch4))
  · -- in-use children satisfy the invariant
    intro j hj
    simp only [CashewSetNode.elt_count_mk] at hj
    by_cases h1 : j < lc
    · rw [hG_lt j h1]; exact hinvc j (by omega)
    by_cases h2 : j = lc
    · subst h2; rw [hG_lc]; exact hinv0
    by_cases h3 : j = lc + 1
    · subst h3; rw [hG_lc1]; exact hinv1
    · rw [hG_mid j (by omega) (by omega)]
      exact hinvc (j - 1) (by omega)
  · -- routing
    intro j hj y hy
    simp only [CashewSetNode.elt_count_mk, CashewSetNode.elts_mk, liveElts_mk] at hj ⊢
    rw [hlive2, hscan2 y]
    by_cases h1 : j < lc
    · rw [hG_lt j h1] at hy
      have hr := hroute j (by omega) y hy
      have hky : ¬k < y := by
        intro hlt
        have := scanLess_mono (liveElts node) k y (by omega)
        omega
      rw [if_neg hky, hr]
      omega
    by_cases h2 : j = lc
    · subst h2
      rw [hG_lc] at hy
      obtain ⟨hyk, hyC⟩ := hmem0 y hy
      have hr := hroute lc hlcc y hyC
      rw [if_neg (by omega), hr]
      omega
    by_cases h3 : j = lc + 1
    · subst h3
      rw [hG_lc1] at hy
      obtain ⟨hyk, hyC⟩ := hmem1 y hy
      have hr := hroute lc hlcc y hyC
      rw [if_pos hyk, hr]
    · rw [hG_mid j (by omega) (by omega)] at hy
      have hr := hroute (j - 1) (by omega) y hy
      have hky : k < y := by
        by_contra hnk
        have := scanLess_mono (liveElts node) y k (by omega)
        omega
      rw [if_pos hky, hr]
      omega
  · -- slots past the in-use range have no family
    intro j hj
    simp only [CashewSetNode.elt_count_mk] at hj
    by_cases hjM : j ≤ M
    · rw [hG_hi j (by omega)]
      exact hbeyond j (by omega)
    · rw [getD_eq_default _ _ _ (by omega)]
      rfl

/-- The node produced by the split-absorbing branch of `insertSpacious`, in
sliced form. -/
def absorbedNode (node : CashewSetNode) (fam : List CashewSetNode) (k : Nat)
    (f0 f1 : Option (List CashewSetNode)) (slotElts : List Nat) : CashewSetNode :=
  CashewSetNode.mk
    (some ((fam.take (scanLess (liveElts node) k) ++
      CashewSetNode.mk f0
        ((liveElts (fam.getD (scanLess (liveElts node) k) nodeD)).filter
          (fun x => decide (x < k))).length
        (writeAt (fam.getD (scanLess (liveElts node) k) nodeD).elts 0
          ((liveElts (fam.getD (scanLess (liveElts node) k) nodeD)).filter
            (fun x => decide (x < k)))) ::
      CashewSetNode.mk f1
        ((liveElts (fam.getD (scanLess (liveElts node) k) nodeD)).filter
          (fun x => !decide (x < k))).length
        (writeAt slotElts 0
          ((liveElts (fam.getD (scanLess (liveElts node) k) nodeD)).filter
            (fun x => !decide (x < k)))) ::
      ((fam.drop (scanLess (liveElts node) k + 1)).take
        (node.elt_count - scanLess (liveElts node) k))) ++
      fam.drop (node.elt_count + 2)))
    (node.elt_count + 1) (node.elts.set node.elt_count k)

theorem absorb_core2 (M r : Nat) (node : CashewSetNode) (fam : List CashewSetNode)
    (k : Nat) (f0 f1 : Option (List CashewSetNode)) (slotElts : List Nat)
    (hsome : node.family = some fam)
    (hinv : invNode M (r + 1) node = true)
    (hcM : node.elt_count < M)
    (hknotin : k ∉ nodeKeys (r + 1) node)
    (hccM : (fam.getD (scanLess (liveElts node) k) nodeD).elt_count = M)
    (hf0 : f0 = none ↔ r = 0) (hf1 : f1 = none ↔ r = 0)
    (hslotlen : slotElts.length = M)
    (hins0 : famInstallOK M (r - 1) f0
      (scanLess (liveElts (fam.getD (scanLess (liveElts node) k) nodeD)) k)
      ((liveElts (fam.getD (scanLess (liveElts node) k) nodeD)).filter
        (fun x => decide (x < k)))
      ((belowKeys (r - 1) (fam.getD (scanLess (liveElts node) k) nodeD)).filter
        (fun x => decide (x < k))))
    (hins1 : famInstallOK M (r - 1) f1
      ((fam.getD (scanLess (liveElts node) k) nodeD).elt_count -
        scanLess (liveElts (fam.getD (scanLess (liveElts node) k) nodeD)) k)
      ((liveElts (fam.getD (scanLess (liveElts node) k) nodeD)).filter
        (fun x => !decide (x < k)))
      ((belowKeys (r - 1) (fam.getD (scanLess (liveElts node) k) nodeD)).filter
        (fun x => !decide (x < k)))) :
    invNode M (r + 1) (absorbedNode node fam k f0 f1 slotElts) = true ∧
    List.Perm (nodeKeys (r + 1) (absorbedNode node fam k f0 f1 slotElts))
      (k :: nodeKeys (r + 1) node) :=
  absorb_core M r node fam k f0 f1 slotElts hsome hinv hcM hknotin hccM hf0 hf1
    hslotlen hins0 hins1

theorem getD_map_movedFrom (l : List CashewSetNode) (i : Nat) (h : i < l.length) :
    (l.map movedFrom).getD i nodeD = movedFrom (l.getD i nodeD) := by
  rw [getD_eq_getElem _ _ _ (by simpa using h), getD_eq_getElem _ _ _ h]
  exact List.getElem_map movedFrom

/-- Keys routed strictly left of the query child are below the pivot. -/
theorem route_side_lt (live : List Nat) (k y j : Nat) (hr : scanLess live y = j)
    (hj : j < scanLess live k) : y < k := by
  by_contra h
  have := scanLess_mono live k y (by omega)
  omega

/-- Keys routed strictly right of the query child are not below the pivot. -/
theorem route_side_ge (live : List Nat) (k y j : Nat) (hr : scanLess live y = j)
    (hj : scanLess live k < j) : ¬y < k := by
  intro h
  have := scanLess_mono live y k (by omega)
  omega

/-- The heart of the splitting `insertFull` branch on an interior node: the two
families the node hands up (its own array with the larger children vacated, and
the freshly allocated sibling family) satisfy the split contract for the two
halves of the node's keys. -/
theorem full_core (M r : Nat) (node : CashewSetNode) (fam : List CashewSetNode)
    (k : Nat) (f0 f1 : Option (List CashewSetNode)) (slotElts : List Nat)
    (hsome : node.family = some fam)
    (hinv : invNode M (r + 1) node = true)
    (hcM : node.elt_count = M)
    (hknotin : k ∉ nodeKeys (r + 1) node)
    (hccM : (fam.getD (scanLess (liveElts node) k) nodeD).elt_count = M)
    (hf0 : f0 = none ↔ r = 0) (hf1 : f1 = none ↔ r = 0)
    (hslotlen : slotElts.length = M)
    (hins0 : famInstallOK M (r - 1) f0
      (scanLess (liveElts (fam.getD (scanLess (liveElts node) k) nodeD)) k)
      ((liveElts (fam.getD (scanLess (liveElts node) k) nodeD)).filter
        (fun x => decide (x < k)))
      ((belowKeys (r - 1) (fam.getD (scanLess (liveElts node) k) nodeD)).filter
        (fun x => decide (x < k))))
    (hins1 : famInstallOK M (r - 1) f1
      ((fam.getD (scanLess (liveElts node) k) nodeD).elt_count -
        scanLess (liveElts (fam.getD (scanLess (liveElts node) k) nodeD)) k)
      ((liveElts (fam.getD (scanLess (liveElts node) k) nodeD)).filter
        (fun x => !decide (x < k)))
      ((belowKeys (r - 1) (fam.getD (scanLess (liveElts node) k) nodeD)).filter
        (fun x => !decide (x < k)))) :
    famInstallOK M r
      (some (fam.take (scanLess (liveElts node) k) ++
        CashewSetNode.mk f0
          ((liveElts (fam.getD (scanLess (liveElts node) k) nodeD)).filter
            (fun x => decide (x < k))).length
          (writeAt (fam.getD (scanLess (liveElts node) k) nodeD).elts 0
            ((liveElts (fam.getD (scanLess (liveElts node) k) nodeD)).filter
              (fun x => decide (x < k)))) ::
        (fam.drop (scanLess (liveElts node) k + 1)).map movedFrom))
      (scanLess (liveElts node) k)
      ((liveElts node).filter (fun x => decide (x < k)))
      ((belowKeys r node).filter (fun x => decide (x < k))) ∧
    famInstallOK M r
      (some (CashewSetNode.mk f1
          ((liveElts (fam.getD (scanLess (liveElts node) k) nodeD)).filter
            (fun x => !decide (x < k))).length
          (writeAt slotElts 0
            ((liveElts (fam.getD (scanLess (liveElts node) k) nodeD)).filter
              (fun x => !decide (x < k)))) ::
        (fam.drop (scanLess (liveElts node) k + 1) ++
          List.replicate (scanLess (liveElts node) k) (freshNode M))))
      (node.elt_count - scanLess (liveElts node) k)
      ((liveElts node).filter (fun x => !decide (x < k)))
      ((belowKeys r node).filter (fun x => !decide (x < k))) := by
  obtain ⟨hc, he, hnd, hflen, hslots, hinvc, hroute, hbeyond⟩ :=
    invNode_succ_some M r node fam hsome hinv
  set lc := scanLess (liveElts node) k with hlc
  set child := fam.getD lc nodeD with hchild
  set ltL := (liveElts child).filter (fun x => decide (x < k)) with hltL
  set geL := (liveElts child).filter (fun x => !decide (x < k)) with hgeL
  set lt1 := CashewSetNode.mk f0 ltL.length (writeAt child.elts 0 ltL) with hlt1
  set gt1 := CashewSetNode.mk f1 geL.length (writeAt slotElts 0 geL) with hgt1
  set F0 := fam.take lc ++ lt1 :: (fam.drop (lc + 1)).map movedFrom with hF0
  set F1 := gt1 :: (fam.drop (lc + 1) ++ List.replicate lc (freshNode M)) with hF1
  have hlcc : lc ≤ node.elt_count := scanLess_le_count M r node k hc he
  have hlcM : lc ≤ M := by omega
  have hlcf : lc < fam.length := by omega
  have hchildmem : child ∈ fam := getD_mem_of_lt fam lc nodeD hlcf
  have hchlen : child.elts.length = M := hslots child hchildmem
  have hchildinv : invNode M r child = true := hinvc lc hlcc
  have hliveC : (liveElts child).length = M := by
    rw [length_liveElts child (by omega)]
    exact hccM
  have hltge : ltL.length + geL.length = M := by
    rw [hltL, hgeL, filter_length_split, hliveC]
  have hltM : ltL.length ≤ M := by omega
  have hkC : k ∉ nodeKeys r child := by
    intro hmem
    apply hknotin
    rw [nodeKeys_succ]
    apply List.mem_append_right
    exact (mem_belowKeys r node fam hsome (by omega) k).2 ⟨lc, hlcc, hmem⟩
  have hasm0 := assembleNode M r ltL.length f0 ltL child.elts
    ((belowKeys (r - 1) child).filter (fun x => decide (x < k)))
    (by rw [hltL]
        have e1 : scanLess (liveElts child) k = ltL.length := by
          rw [scanLess, List.countP_eq_length_filter, hltL]
        rw [← e1]
        exact hins0)
    hf0 rfl hltM hchlen
    (by rw [hltL]
        have hkeysC : nodeKeys r child = liveElts child ++ belowKeys (r - 1) child :=
          nodeKeys_eq_live_below M r child hchildinv
        have hndC : (nodeKeys r child).Nodup := invNode_nodup M r child hchildinv
        rw [hkeysC] at hndC
        rw [← List.filter_append]
        exact hndC.filter _)
  have hasm1 := assembleNode M r geL.length f1 geL slotElts
    ((belowKeys (r - 1) child).filter (fun x => !decide (x < k)))
    (by rw [hgeL]
        have e1 : child.elt_count - scanLess (liveElts child) k = geL.length := by
          rw [scanLess, List.countP_eq_length_filter, hccM]
          have e2 : ((liveElts child).filter (fun x => decide (x < k))).length = ltL.length := by
            rw [hltL]
          rw [e2]
          omega
        rw [← e1]
        exact hins1)
    hf1 rfl (by omega) hslotlen
    (by rw [hgeL]
        have hkeysC : nodeKeys r child = liveElts child ++ belowKeys (r - 1) child :=
          nodeKeys_eq_live_below M r child hchildinv
        have hndC : (nodeKeys r child).Nodup := invNode_nodup M r child hchildinv
        rw [hkeysC] at hndC
        rw [← List.filter_append]
        exact hndC.filter _)
  obtain ⟨hinv0, hkeys0, hlive0⟩ := hasm0
  obtain ⟨hinv1, hkeys1, hlive1⟩ := hasm1
  have hALen : (fam.take lc).length = lc := by simp; omega
  have hDLen : (fam.drop (lc + 1)).length = M - lc := by simp; omega
  -- membership in the two halves of the split child
  have hmem0 : ∀ y, y ∈ nodeKeys r lt1 → y < k ∧ y ∈ nodeKeys r child := by
    intro y hy
    have hy2 := hkeys0.mem_iff.1 hy
    rw [nodeKeys_eq_live_below M r child hchildinv]
    rcases List.mem_append.1 hy2 with h | h
    · rcases List.mem_filter.1 h with ⟨h1, h2⟩
      exact ⟨by simpa using h2, List.mem_append_left _ h1⟩
    · rcases List.mem_filter.1 h with ⟨h1, h2⟩
      exact ⟨by simpa using h2, List.mem_append_right _ h1⟩
  have hmem1 : ∀ y, y ∈ nodeKeys r gt1 → k < y ∧ y ∈ nodeKeys r child := by
    intro y hy
    have hy2 := hkeys1.mem_iff.1 hy
    have hyC : y ∈ nodeKeys r child ∧ ¬y < k := by
      rw [nodeKeys_eq_live_below M r child hchildinv]
      rcases List.mem_append.1 hy2 with h | h
      · rcases List.mem_filter.1 h with ⟨h1, h2⟩
        exact ⟨List.mem_append_left _ h1, by simpa using h2⟩
      · rcases List.mem_filter.1 h with ⟨h1, h2⟩
        exact ⟨List.mem_append_right _ h1, by simpa using h2⟩
    have hyk : y ≠ k := by
      intro h
      exact hkC (h ▸ hyC.1)
    exact ⟨by omega, hyC.1⟩
  -- the old family decomposed around the split child
  have hfamdecomp : fam = fam.take lc ++ child :: fam.drop (lc + 1) := by
    conv_lhs => rw [← List.take_append_drop lc fam]
    rw [List.drop_eq_getElem_cons hlcf, ← getD_eq_getElem fam lc nodeD hlcf, ← hchild]
  have hbelow_decomp : belowKeys r node =
      ((fam.take lc).map (nodeKeys r)).flatten ++
      (nodeKeys r child ++ ((fam.drop (lc + 1)).map (nodeKeys r)).flatten) := by
    rw [belowKeys_some r node fam hsome, hcM]
    have htk : fam.take (M + 1) = fam := by
      rw [← hflen]; simp
    rw [htk]
    conv_lhs => rw [hfamdecomp]
    simp [List.append_assoc]
  -- keys strictly left of the split child are below the pivot, right ones above
  have hFA_lt : ∀ y ∈ ((fam.take lc).map (nodeKeys r)).flatten, y < k := by
    intro y hy
    rcases List.mem_flatten.1 hy with ⟨l, hl, hyl⟩
    rcases List.mem_map.1 hl with ⟨ch, hch, rfl⟩
    rcases (mem_take_getD fam lc nodeD ch (by omega)).1 hch with ⟨j, hjlc, rfl⟩
    exact route_side_lt (liveElts node) k y j (hroute j (by omega) y hyl) (by omega)
  have hTK_ge : ∀ y ∈ ((fam.drop (lc + 1)).map (nodeKeys r)).flatten, ¬y < k := by
    intro y hy
    rcases List.mem_flatten.1 hy with ⟨l, hl, hyl⟩
    rcases List.mem_map.1 hl with ⟨ch, hch, rfl⟩
    rcases List.mem_iff_getElem.1 hch with ⟨t, ht, rfl⟩
    have ht2 : t < M - lc := by omega
    have hgd : (fam.drop (lc + 1))[t] = fam.getD (lc + 1 + t) nodeD := by
      rw [← getD_eq_getElem _ _ nodeD (by omega), getD_drop]
    rw [hgd] at hyl
    exact route_side_ge (liveElts node) k y (lc + 1 + t)
      (hroute (lc + 1 + t) (by omega) y hyl) (by omega)
  refine ⟨⟨?_, ?_, ?_, ?_, ?_, ?_⟩, ⟨?_, ?_, ?_, ?_, ?_, ?_⟩⟩
  · -- F0 length
    rw [hF0]
    simp only [List.length_append, List.length_cons, List.length_map, hALen, hDLen]
    omega
  · -- F0 slots
    intro ch hch
    rw [hF0] at hch
    rcases List.mem_append.1 hch with hch1 | hch1
    · exact hslots ch (List.mem_of_mem_take hch1)
    rcases List.mem_cons.1 hch1 with rfl | hch2
    · rw [hlt1]; simp [hchlen]
    · rcases List.mem_map.1 hch2 with ⟨ch0, hch0, rfl⟩
      exact hslots ch0 (List.mem_of_mem_drop hch0)
  · -- F0 in-use children invariant
    intro j hj
    by_cases h1 : j < lc
    · rw [hF0, getD_append_left _ _ _ _ (by omega), getD_take _ _ _ _ h1]
      exact hinvc j (by omega)
    · have hjeq : j = lc := by omega
      subst hjeq
      rw [hF0, getD_append_right _ _ _ _ (by omega), hALen]
      simp only [Nat.sub_self, List.getD_cons_zero]
      exact hinv0
  · -- F0 routing
    intro j hj y hy
    by_cases h1 : j < lc
    · rw [hF0, getD_append_left _ _ _ _ (by omega), getD_take _ _ _ _ h1] at hy
      have hr := hroute j (by omega) y hy
      have hyk : y < k := route_side_lt (liveElts node) k y j hr (by omega)
      rw [scanLess_filter_lt (liveElts node) k y (by omega), hr]
    · have hjeq : j = lc := by omega
      subst hjeq
      rw [hF0, getD_append_right _ _ _ _ (by omega), hALen] at hy
      simp only [Nat.sub_self, List.getD_cons_zero] at hy
      obtain ⟨hyk, hyC⟩ := hmem0 y hy
      have hr := hroute lc hlcc y hyC
      rw [scanLess_filter_lt (liveElts node) k y (by omega), hr]
  · -- F0 beyond
    intro j hj
    by_cases hjM : j ≤ M
    · rw [hF0, getD_append_right _ _ _ _ (by omega), hALen]
      obtain ⟨t, rfl⟩ : ∃ t, j = lc + 1 + t := ⟨j - lc - 1, by omega⟩
      have e1 : lc + 1 + t - lc = t + 1 := by omega
      rw [e1, List.getD_cons_succ, getD_map_movedFrom _ _ (by omega)]
      rfl
    · rw [getD_eq_default _ _ _ ?_]
      · rfl
      · rw [hF0]
        simp only [List.length_append, List.length_cons, List.length_map, hALen, hDLen]
        omega
  · -- F0 key permutation
    have htake : F0.take (lc + 1) = fam.take lc ++ [lt1] := by
      rw [hF0]
      have e1 : fam.take lc ++ lt1 :: (fam.drop (lc + 1)).map movedFrom =
          (fam.take lc ++ [lt1]) ++ (fam.drop (lc + 1)).map movedFrom := by simp
      rw [e1, List.take_left' (by simp [hALen])]
    rw [htake, hbelow_decomp]
    simp only [List.map_append, List.flatten_append, List.map_cons, List.flatten_cons,
      List.map_nil, List.flatten_nil, List.append_nil, List.filter_append]
    have hfa : (((fam.take lc).map (nodeKeys r)).flatten).filter (fun x => decide (x < k)) =
        ((fam.take lc).map (nodeKeys r)).flatten :=
      List.filter_eq_self.2 (fun a ha => by simpa using hFA_lt a ha)
    have htk : (((fam.drop (lc + 1)).map (nodeKeys r)).flatten).filter
        (fun x => decide (x < k)) = [] := by
      rw [List.filter_eq_nil_iff]
      intro a ha
      simpa using hTK_ge a ha
    rw [hfa, htk, List.append_nil]
    have hkc : List.Perm (nodeKeys r lt1) ((nodeKeys r child).filter (fun x => decide (x < k))) := by
      rw [nodeKeys_eq_live_below M r child hchildinv, List.filter_append, ← hltL]
      exact hkeys0
    exact hkc.append_left _
  · -- F1 length
    rw [hF1]
    simp only [List.length_cons, List.length_append, List.length_replicate, hDLen]
    omega
  · -- F1 slots
    intro ch hch
    rw [hF1] at hch
    rcases List.mem_cons.1 hch with rfl | hch1
    · rw [hgt1]; simp [hslotlen]
    rcases List.mem_append.1 hch1 with hch2 | hch2
    · exact hslots ch (List.mem_of_mem_drop hch2)
    · rw [List.eq_of_mem_replicate hch2]
      simp [freshNode]
  · -- F1 in-use children invariant
    intro j hj
    rw [hcM] at hj
    cases j with
    | zero =>
      rw [hF1, List.getD_cons_zero]
      exact hinv1
    | succ t =>
      rw [hF1, List.getD_cons_succ, getD_append_left _ _ _ _ (by omega), getD_drop]
      exact hinvc (lc + 1 + t) (by omega)
  · -- F1 routing
    intro j hj y hy
    rw [hcM] at hj
    cases j with
    | zero =>
      rw [hF1, List.getD_cons_zero] at hy
      obtain ⟨hyk, hyC⟩ := hmem1 y hy
      have hr := hroute lc hlcc y hyC
      have hge := scanLess_filter_ge (liveElts node) k y (by omega)
      rw [hr] at hge
      omega
    | succ t =>
      rw [hF1, List.getD_cons_succ, getD_append_left _ _ _ _ (by omega), getD_drop] at hy
      have hr := hroute (lc + 1 + t) (by omega) y hy
      have hyk : ¬y < k := route_side_ge (liveElts node) k y (lc + 1 + t) hr (by omega)
      have hge := scanLess_filter_ge (liveElts node) k y (by omega)
      rw [hr] at hge
      omega
  · -- F1 beyond
    intro j hj
    rw [hcM] at hj
    cases j with
    | zero => omega
    | succ t =>
      rw [hF1, List.getD_cons_succ]
      by_cases ht : t < M - lc
      · omega
      by_cases ht2 : t < M
      · rw [getD_append_right _ _ _ _ (by omega), hDLen,
          getD_replicate _ _ _ _ (by omega)]
        rfl
      · rw [getD_eq_default _ _ _ ?_]
        · rfl
        · simp only [List.length_append, List.length_replicate, hDLen]
          omega
  · -- F1 key permutation
    rw [hcM]
    have htake : F1.take (M - lc + 1) = gt1 :: fam.drop (lc + 1) := by
      rw [hF1, List.take_succ_cons, List.take_left' hDLen]
    rw [htake, hbelow_decomp]
    simp only [List.map_cons, List.flatten_cons, List.filter_append]
    have hfa : (((fam.take lc).map (nodeKeys r)).flatten).filter (fun x => !decide (x < k)) =
        [] := by
      rw [List.filter_eq_nil_iff]
      intro a ha
      simpa using hFA_lt a ha
    have htk : (((fam.drop (lc + 1)).map (nodeKeys r)).flatten).filter
        (fun x => !decide (x < k)) = ((fam.drop (lc + 1)).map (nodeKeys r)).flatten :=
      List.filter_eq_self.2 (fun a ha => by simpa using hTK_ge a ha)
    rw [hfa, htk, List.nil_append]
    have hkc : List.Perm (nodeKeys r gt1)
        ((nodeKeys r child).filter (fun x => !decide (x < k))) := by
      rw [nodeKeys_eq_live_below M r child hchildinv, List.filter_append, ← hgeL]
      exact hkeys1
    exact hkc.append_right _

/-- `InsertOutcome` on an explicit result triple, componentwise. -/
theorem insertOutcome_def (M fuel : Nat) (node : CashewSetNode) (k n : Nat)
    (res : TryInsertResult) (nd : CashewSetNode) (n1 : Nat) :
    InsertOutcome M fuel node k n (res, nd, n1) ↔
    ((res.status = .duplicateFound ↔ k ∈ nodeKeys fuel node) ∧
     (res.status = .duplicateFound → nd = node ∧ n1 = n) ∧
     (res.status = .done →
        n1 = n + 1 ∧ invNode M fuel nd = true ∧
        List.Perm (nodeKeys fuel nd) (k :: nodeKeys fuel node)) ∧
     (res.status = .familySplit →
        n1 = n ∧ node.elt_count = M ∧ nd = movedFrom node ∧
        (res.family0 = none ↔ fuel = 0) ∧ (res.family1 = none ↔ fuel = 0) ∧
        famInstallOK M (fuel - 1) res.family0 (scanLess (liveElts node) k)
          ((liveElts node).filter (fun x => decide (x < k)))
          ((belowKeys (fuel - 1) node).filter (fun x => decide (x < k))) ∧
        famInstallOK M (fuel - 1) res.family1
          (node.elt_count - scanLess (liveElts node) k)
          ((liveElts node).filter (fun x => !decide (x < k)))
          ((belowKeys (fuel - 1) node).filter (fun x => !decide (x < k))))) :=
  Iff.rfl

/-- `insertSpacious` at the leaf level (`nodeDepth = treeDepth`): the plain
append of the key into the spacious leaf. -/
theorem insertSpacious_leaf (M d fuel : Nat) (node : CashewSetNode)
    (δ k lcArg n : Nat)
    (hδd : ¬δ < d)
    (hinv : invNode M 0 node = true)
    (hcM : node.elt_count < M)
    (hklive : k ∉ liveElts node) :
    ∃ out, insertSpacious M d fuel node δ k lcArg n = .ok out ∧
      InsertOutcome M 0 node k n out ∧ out.1.status ≠ .familySplit := by
  obtain ⟨hc, he, hnd, hfnone⟩ := (invNode_zero M node).1 hinv
  have heq : insertSpacious M d fuel node δ k lcArg n =
      .ok (⟨none, none, .done⟩,
        .mk node.family (node.elt_count + 1) (node.elts.set node.elt_count k), n + 1) := by
    unfold insertSpacious
    rw [if_neg hδd]
  refine ⟨_, heq, ?_, by simp⟩
  have hlive1 : liveElts (CashewSetNode.mk node.family (node.elt_count + 1)
      (node.elts.set node.elt_count k)) = liveElts node ++ [k] := by
    rw [liveElts_mk, take_succ_set node.elts node.elt_count k (by omega)]
    rfl
  have hkeys1 : nodeKeys 0 (CashewSetNode.mk node.family (node.elt_count + 1)
      (node.elts.set node.elt_count k)) = liveElts node ++ [k] := by
    rw [nodeKeys_zero, hlive1]
  have hperm : List.Perm (liveElts node ++ [k]) (k :: liveElts node) := by
    have h1 := @List.perm_middle Nat k (liveElts node) []
    simpa using h1
  rw [insertOutcome_def]
  refine ⟨?_, ?_, ?_, ?_⟩
  · constructor
    · intro h; exact absurd h (by simp)
    · intro h; exact absurd h hklive
  · intro h; exact absurd h (by simp)
  · intro h
    refine ⟨rfl, ?_, ?_⟩
    · rw [invNode_zero]
      refine ⟨by simp; omega, by simp [he], ?_, by simp [hfnone]⟩
      rw [hkeys1]
      rw [hperm.nodup_iff]
      rw [nodeKeys_zero] at hnd
      exact List.nodup_cons.2 ⟨hklive, hnd⟩
    · rw [hkeys1, nodeKeys_zero]
      exact hperm
  · intro h; exact absurd h (by simp)

/-- `insertSpacious` on an interior node (`nodeDepth < treeDepth`), with the
recursion's behaviour supplied as a hypothesis: the result is never a split,
and satisfies the full outcome specification. -/
theorem insertSpacious_interior (M d fuel r : Nat) (node : CashewSetNode) (δ k n : Nat)
    (hM : 1 ≤ M)
    (hδd : δ < d)
    (hinv : invNode M (r + 1) node = true)
    (hcM : node.elt_count < M)
    (hklive : k ∉ liveElts node)
    (IH : ∀ child n0, invNode M r child = true →
      ∃ out, tryInsert M d fuel child (δ + 1) k n0 = .ok out ∧
        InsertOutcome M r child k n0 out) :
    ∃ out, insertSpacious M d fuel node δ k (scanLess (liveElts node) k) n = .ok out ∧
      InsertOutcome M (r + 1) node k n out ∧ out.1.status ≠ .familySplit := by
  set lc := scanLess (liveElts node) k with hlc
  cases hf : node.family with
  | none =>
    -- an empty interior node on an all-empty chain: attach a fresh family
    rcases (invNode_succ M r node).1 hinv with ⟨hc, he, hnd, hcase⟩
    rcases hcase with ⟨-, hc0⟩ | ⟨fam2, hsome2, -⟩
    swap
    · rw [hf] at hsome2; exact absurd hsome2 (by simp)
    have hlc0 : lc = 0 := by
      have h1 := scanLess_le_length (liveElts node) k
      have h2 : (liveElts node).length = node.elt_count := length_liveElts node (by omega)
      omega
    have hknotin : k ∉ nodeKeys (r + 1) node := by
      rw [nodeKeys_succ, belowKeys_none r node hf, List.append_nil]
      exact hklive
    obtain ⟨hinvA, hkeysA⟩ := attach_fresh_family M r node hinv hf
    have hchildfresh : (make_family M).getD lc nodeD = freshNode M :=
      getD_make_family M lc (by omega)
    obtain ⟨⟨res, child1, n1⟩, hrec, houtc⟩ :=
      IH ((make_family M).getD lc nodeD) n (by rw [hchildfresh]; exact invNode_freshNode M r)
    rw [insertOutcome_def] at houtc
    obtain ⟨hiff, hdup, hdone, hsplit⟩ := houtc
    have hstat : res.status = .done := by
      cases hst : res.status with
      | done => rfl
      | duplicateFound =>
        have hmem := hiff.1 hst
        rw [hchildfresh, nodeKeys_freshNode] at hmem
        exact absurd hmem (List.not_mem_nil k)
      | familySplit =>
        have h2 := (hsplit hst).2.1
        rw [hchildfresh] at h2
        simp [freshNode] at h2
        omega
    obtain ⟨hn1, hinv1, hkeys1⟩ := hdone hstat
    have heq : insertSpacious M d fuel node δ k lc n =
        .ok (res, .mk (some ((make_family M).set lc child1)) node.elt_count node.elts, n1) := by
      unfold insertSpacious
      rw [if_pos hδd]
      simp only [hf, Option.getD_none]
      rw [hrec]
      simp only []
      rw [if_pos (show res.status ≠ InsStatus.familySplit by simp [hstat])]
    refine ⟨_, heq, ?_, by simp [hstat]⟩
    obtain ⟨hinvW, hpermW⟩ := writeBack_done M r
      (CashewSetNode.mk (some (make_family M)) node.elt_count node.elts)
      (make_family M) child1 k rfl hinvA (by rw [hkeysA]; exact hknotin) hinv1 hkeys1
    rw [hkeysA] at hpermW
    rw [insertOutcome_def]
    refine ⟨?_, ?_, ?_, ?_⟩
    · constructor
      · intro h; rw [hstat] at h; exact absurd h (by simp)
      · intro h; exact absurd h hknotin
    · intro h; rw [hstat] at h; exact absurd h (by simp)
    · intro h
      exact ⟨hn1, hinvW, hpermW⟩
    · intro h; rw [hstat] at h; exact absurd h (by simp)
  | some fam =>
    obtain ⟨hc, he, hnd, hflen, hslots, hinvc, hroute, hbeyond⟩ :=
      invNode_succ_some M r node fam hf hinv
    have hlcc : lc ≤ node.elt_count := scanLess_le_count M r node k hc he
    have hlcf : lc < fam.length := by omega
    obtain ⟨⟨res, child1, n1⟩, hrec, houtc⟩ :=
      IH (fam.getD lc nodeD) n (hinvc lc hlcc)
    rw [insertOutcome_def] at houtc
    obtain ⟨hiff, hdup, hdone, hsplit⟩ := houtc
    cases hstat : res.status with
    | duplicateFound =>
      obtain ⟨hch1, hn1⟩ := hdup hstat
      have hkin : k ∈ nodeKeys (r + 1) node := by
        rw [nodeKeys_succ]
        apply List.mem_append_right
        exact (mem_belowKeys r node fam hf (by omega) k).2 ⟨lc, hlcc, hiff.1 hstat⟩
      have heq : insertSpacious M d fuel node δ k lc n = .ok (res, node, n) := by
        unfold insertSpacious
        rw [if_pos hδd]
        simp only [hf, Option.getD_some]
        rw [hrec]
        simp only []
        rw [if_pos (show res.status ≠ InsStatus.familySplit by simp [hstat])]
        rw [hch1, set_getD_self fam lc nodeD, hn1]
        rw [show CashewSetNode.mk (some fam) node.elt_count node.elts = node by
          rw [← hf]; exact CashewSetNode.eta node]
      refine ⟨_, heq, ?_, by simp [hstat]⟩
      rw [insertOutcome_def]
      refine ⟨?_, ?_, ?_, ?_⟩
      · exact ⟨fun _ => hkin, fun _ => hstat⟩
      · intro h; exact ⟨rfl, rfl⟩
      · intro h; rw [hstat] at h; exact absurd h (by simp)
      · intro h; rw [hstat] at h; exact absurd h (by simp)
    | done =>
      have hkC : k ∉ nodeKeys r (fam.getD lc nodeD) := by
        intro hmem
        have := hiff.2 hmem
        rw [hstat] at this
        exact absurd this (by simp)
      have hknotin : k ∉ nodeKeys (r + 1) node := by
        intro hmem
        rw [nodeKeys_succ] at hmem
        rcases List.mem_append.1 hmem with h | h
        · exact hklive h
        · rcases (mem_belowKeys r node fam hf (by omega) k).1 h with ⟨j, hj, hjmem⟩
          have hjlc : j = lc := (hroute j hj k hjmem).symm
          exact hkC (hjlc ▸ hjmem)
      obtain ⟨hn1, hinv1, hkeys1⟩ := hdone hstat
      have heq : insertSpacious M d fuel node δ k lc n =
          .ok (res, .mk (some (fam.set lc child1)) node.elt_count node.elts, n1) := by
        unfold insertSpacious
        rw [if_pos hδd]
        simp only [hf, Option.getD_some]
        rw [hrec]
        simp only []
        rw [if_pos (show res.status ≠ InsStatus.familySplit by simp [hstat])]
      refine ⟨_, heq, ?_, by simp [hstat]⟩
      obtain ⟨hinvW, hpermW⟩ :=
        writeBack_done M r node fam child1 k hf hinv hknotin hinv1 hkeys1
      rw [insertOutcome_def]
      refine ⟨?_, ?_, ?_, ?_⟩
      · constructor
        · intro h; rw [hstat] at h; exact absurd h (by simp)
        · intro h; exact absurd h hknotin
      · intro h; rw [hstat] at h; exact absurd h (by simp)
      · intro h
        exact ⟨hn1, hinvW, hpermW⟩
      · intro h; rw [hstat] at h; exact absurd h (by simp)
    | familySplit =>
      obtain ⟨hn1, hccM, hch1, hf0, hf1, hins0, hins1⟩ := hsplit hstat
      have hkC : k ∉ nodeKeys r (fam.getD lc nodeD) := by
        intro hmem
        have := hiff.2 hmem
        rw [hstat] at this
        exact absurd this (by simp)
      have hknotin : k ∉ nodeKeys (r + 1) node := by
        intro hmem
        rw [nodeKeys_succ] at hmem
        rcases List.mem_append.1 hmem with h | h
        · exact hklive h
        · rcases (mem_belowKeys r node fam hf (by omega) k).1 h with ⟨j, hj, hjmem⟩
          have hjlc : j = lc := (hroute j hj k hjmem).symm
          exact hkC (hjlc ▸ hjmem)
      have hchlen : (fam.getD lc nodeD).elts.length = M :=
        hslots _ (getD_mem_of_lt fam lc nodeD hlcf)
      have heq : insertSpacious M d fuel node δ k lc n =
          .ok (⟨none, none, .done⟩,
            absorbedNode node fam k res.family0 res.family1
              ((fam.getD (lc + 1) nodeD).elts), n + 1) := by
        unfold insertSpacious
        rw [if_pos hδd]
        simp only [hf, Option.getD_some]
        rw [hrec]
        simp only []
        rw [if_neg (show ¬res.status ≠ InsStatus.familySplit by simp [hstat])]
        rw [hch1]
        have e0 : node.elt_count + 1 - lc - 1 = node.elt_count - lc := by omega
        rw [e0]
        have hshift : shiftArray (lc + 1) (node.elt_count - lc)
            (fam.set lc (movedFrom (fam.getD lc nodeD))) =
            fam.take lc ++ movedFrom (fam.getD lc nodeD) ::
              (if node.elt_count - lc = 0 then fam.getD (lc + 1) nodeD
               else movedFrom (fam.getD (lc + 1) nodeD)) ::
              ((fam.drop (lc + 1)).take (node.elt_count - lc) ++
               fam.drop (node.elt_count + 2)) := by
          rw [shiftArray_eq (lc + 1) (node.elt_count - lc) _ (by simp [hflen]; omega)]
          rw [take_succ_set fam lc (movedFrom (fam.getD lc nodeD)) (by omega)]
          rw [List.drop_set_of_lt _ _ (by omega : lc < lc + 1)]
          rw [getD_set_ne fam lc (lc + 1) (movedFrom (fam.getD lc nodeD)) nodeD (by omega)]
          rw [show lc + 1 + (node.elt_count - lc) + 1 = node.elt_count + 2 by omega]
          rw [List.drop_set_of_lt _ _ (by omega : lc < node.elt_count + 2)]
          simp
        rw [hshift]
        set SLOT := (if node.elt_count - lc = 0 then fam.getD (lc + 1) nodeD
          else movedFrom (fam.getD (lc + 1) nodeD)) with hSLOT
        set REST := (fam.drop (lc + 1)).take (node.elt_count - lc) ++
          fam.drop (node.elt_count + 2) with hREST
        have hALen : (fam.take lc).length = lc := by simp; omega
        have hgetlt : (fam.take lc ++ movedFrom (fam.getD lc nodeD) :: SLOT :: REST).getD lc
            nodeD = movedFrom (fam.getD lc nodeD) := by
          rw [getD_append_right _ _ _ _ (by omega), hALen]
          simp
        have hgetgt : (fam.take lc ++ movedFrom (fam.getD lc nodeD) :: SLOT :: REST).getD
            (lc + 1) nodeD = SLOT := by
          rw [getD_append_right _ _ _ _ (by omega), hALen]
          rw [show lc + 1 - lc = 1 by omega]
          simp
        rw [hgetlt, hgetgt]
        rw [show (movedFrom (fam.getD lc nodeD)).elt_count = (fam.getD lc nodeD).elt_count
          from rfl]
        rw [show (movedFrom (fam.getD lc nodeD)).elts = (fam.getD lc nodeD).elts from rfl]
        have hslotE : SLOT.elts = (fam.getD (lc + 1) nodeD).elts := by
          rw [hSLOT]
          by_cases h0 : node.elt_count - lc = 0
          · rw [if_pos h0]
          · rw [if_neg h0]; rfl
        rw [hslotE, hccM]
        rw [splitArrayAlias_spec natLess k M (fam.getD lc nodeD).elts
          ((fam.getD (lc + 1) nodeD).elts) (by omega)]
        simp only []
        have htkM : (fam.getD lc nodeD).elts.take M = liveElts (fam.getD lc nodeD) := by
          rw [liveElts, hccM]
        rw [htkM]
        rw [show (fun x => natLess x k) = (fun x => decide (x < k)) from rfl]
        rw [show (fun x => !natLess x k) = (fun x => !decide (x < k)) from rfl]
        have hliveC : (liveElts (fam.getD lc nodeD)).length = M := by
          rw [length_liveElts _ (by omega)]
          exact hccM
        have hltge := filter_length_split (liveElts (fam.getD lc nodeD))
          (fun x => decide (x < k))
        rw [hliveC] at hltge
        rw [show M - (M - ((liveElts (fam.getD lc nodeD)).filter
            (fun x => decide (x < k))).length) =
          ((liveElts (fam.getD lc nodeD)).filter (fun x => decide (x < k))).length
          by omega]
        rw [show M - ((liveElts (fam.getD lc nodeD)).filter
            (fun x => decide (x < k))).length =
          ((liveElts (fam.getD lc nodeD)).filter (fun x => !decide (x < k))).length
          by omega]
        set lt1 := CashewSetNode.mk res.family0
          ((liveElts (fam.getD lc nodeD)).filter (fun x => decide (x < k))).length
          (writeAt (fam.getD lc nodeD).elts 0
            ((liveElts (fam.getD lc nodeD)).filter (fun x => decide (x < k)))) with hlt1
        set gt1 := CashewSetNode.mk res.family1
          ((liveElts (fam.getD lc nodeD)).filter (fun x => !decide (x < k))).length
          (writeAt (fam.getD (lc + 1) nodeD).elts 0
            ((liveElts (fam.getD lc nodeD)).filter (fun x => !decide (x < k)))) with hgt1
        have hsets : ((fam.take lc ++ movedFrom (fam.getD lc nodeD) :: SLOT :: REST).set lc
            lt1).set (lc + 1) gt1 =
            (fam.take lc ++ lt1 :: gt1 ::
              (fam.drop (lc + 1)).take (node.elt_count - lc)) ++
              fam.drop (node.elt_count + 2) := by
          rw [List.set_append_right _ _ (by omega), hALen, Nat.sub_self, List.set_cons_zero]
          rw [List.set_append_right _ _ (by omega), hALen,
            show lc + 1 - lc = 1 by omega, List.set_cons_succ, List.set_cons_zero]
          rw [hREST]
          simp
        rw [hsets, hn1]
        rw [absorbedNode]
      refine ⟨_, heq, ?_, by simp⟩
      obtain ⟨hinvW, hpermW⟩ := absorb_core2 M r node fam k res.family0 res.family1
        ((fam.getD (lc + 1) nodeD).elts) hf hinv hcM hknotin hccM hf0 hf1
        (hslots _ (getD_mem_of_lt fam (lc + 1) nodeD (by omega))) hins0 hins1
      rw [insertOutcome_def]
      refine ⟨?_, ?_, ?_, ?_⟩
      · constructor
        · intro h; exact absurd h (by simp)
        · intro h; exact absurd h hknotin
      · intro h; exact absurd h (by simp)
      · intro h
        exact ⟨rfl, hinvW, hpermW⟩
      · intro h; exact absurd h (by simp)

/-- `insertFull` at the leaf level: the full leaf immediately reports
`familySplit` with empty family handles, leaving everything untouched. -/
theorem insertFull_leaf (M d fuel : Nat) (node : CashewSetNode) (δ k lcArg n : Nat)
    (hδd : δ = d)
    (hinv : invNode M 0 node = true)
    (hcM : node.elt_count = M)
    (hklive : k ∉ liveElts node) :
    ∃ out, insertFull M d fuel node δ k lcArg n = .ok out ∧
      InsertOutcome M 0 node k n out := by
  obtain ⟨hc, he, hnd, hfnone⟩ := (invNode_zero M node).1 hinv
  have heq : insertFull M d fuel node δ k lcArg n =
      .ok (⟨none, none, .familySplit⟩, node, n) := by
    unfold insertFull
    rw [if_pos hδd]
  refine ⟨_, heq, ?_⟩
  have hmv : node = movedFrom node := by
    cases node with
    | mk f c e =>
      simp only [CashewSetNode.family_mk] at hfnone
      rw [hfnone]
      rfl
  have hb : belowKeys 0 node = [] := belowKeys_none 0 node hfnone
  rw [insertOutcome_def]
  refine ⟨?_, ?_, ?_, ?_⟩
  · constructor
    · intro h; exact absurd h (by simp)
    · intro h; exact absurd h hklive
  · intro h; exact absurd h (by simp)
  · intro h; exact absurd h (by simp)
  · intro h
    refine ⟨rfl, hcM, hmv, by simp, by simp, ?_, ?_⟩
    · show (belowKeys 0 node).filter (fun x => decide (x < k)) = []
      rw [hb]
      rfl
    · show (belowKeys 0 node).filter (fun x => !decide (x < k)) = []
      rw [hb]
      rfl

/-- `insertFull` on a full interior node (`nodeDepth ≠ treeDepth`), with the
recursion's behaviour supplied as a hypothesis. -/
theorem insertFull_interior (M d fuel r : Nat) (node : CashewSetNode) (δ k n : Nat)
    (hM : 1 ≤ M)
    (hδd : δ ≠ d)
    (hinv : invNode M (r + 1) node = true)
    (hcM : node.elt_count = M)
    (hklive : k ∉ liveElts node)
    (IH : ∀ child n0, invNode M r child = true →
      ∃ out, tryInsert M d fuel child (δ + 1) k n0 = .ok out ∧
        InsertOutcome M r child k n0 out) :
    ∃ out, insertFull M d fuel node δ k (scanLess (liveElts node) k) n = .ok out ∧
      InsertOutcome M (r + 1) node k n out := by
  set lc := scanLess (liveElts node) k with hlc
  cases hf : node.family with
  | none =>
    exfalso
    rcases (invNode_succ M r node).1 hinv with ⟨hc, he, hnd, hcase⟩
    rcases hcase with ⟨-, hc0⟩ | ⟨fam2, hsome2, -⟩
    · omega
    · rw [hf] at hsome2; exact absurd hsome2 (by simp)
  | some fam =>
    obtain ⟨hc, he, hnd, hflen, hslots, hinvc, hroute, hbeyond⟩ :=
      invNode_succ_some M r node fam hf hinv
    have hlcc : lc ≤ node.elt_count := scanLess_le_count M r node k hc he
    have hlcf : lc < fam.length := by omega
    obtain ⟨⟨res, child1, n1⟩, hrec, houtc⟩ :=
      IH (fam.getD lc nodeD) n (hinvc lc hlcc)
    rw [insertOutcome_def] at houtc
    obtain ⟨hiff, hdup, hdone, hsplit⟩ := houtc
    cases hstat : res.status with
    | duplicateFound =>
      obtain ⟨hch1, hn1⟩ := hdup hstat
      have hkin : k ∈ nodeKeys (r + 1) node := by
        rw [nodeKeys_succ]
        apply List.mem_append_right
        exact (mem_belowKeys r node fam hf (by omega) k).2 ⟨lc, hlcc, hiff.1 hstat⟩
      have heq : insertFull M d fuel node δ k lc n = .ok (res, node, n) := by
        unfold insertFull
        rw [if_neg hδd]
        simp only [hf]
        rw [hrec]
        simp only []
        rw [if_pos (show res.status ≠ InsStatus.familySplit by simp [hstat])]
        rw [hch1, set_getD_self fam lc nodeD, hn1]
        rw [show CashewSetNode.mk (some fam) node.elt_count node.elts = node by
          rw [← hf]; exact CashewSetNode.eta node]
      refine ⟨_, heq, ?_⟩
      rw [insertOutcome_def]
      refine ⟨?_, ?_, ?_, ?_⟩
      · exact ⟨fun _ => hkin, fun _ => hstat⟩
      · intro h; exact ⟨rfl, rfl⟩
      · intro h; rw [hstat] at h; exact absurd h (by simp)
      · intro h; rw [hstat] at h; exact absurd h (by simp)
    | done =>
      have hkC : k ∉ nodeKeys r (fam.getD lc nodeD) := by
        intro hmem
        have := hiff.2 hmem
        rw [hstat] at this
        exact absurd this (by simp)
      have hknotin : k ∉ nodeKeys (r + 1) node := by
        intro hmem
        rw [nodeKeys_succ] at hmem
        rcases List.mem_append.1 hmem with h | h
        · exact hklive h
        · rcases (mem_belowKeys r node fam hf (by omega) k).1 h with ⟨j, hj, hjmem⟩
          have hjlc : j = lc := (hroute j hj k hjmem).symm
          exact hkC (hjlc ▸ hjmem)
      obtain ⟨hn1, hinv1, hkeys1⟩ := hdone hstat
      have heq : insertFull M d fuel node δ k lc n =
          .ok (res, .mk (some (fam.set lc child1)) node.elt_count node.elts, n1) := by
        unfold insertFull
        rw [if_neg hδd]
        simp only [hf]
        rw [hrec]
        simp only []
        rw [if_pos (show res.status ≠ InsStatus.familySplit by simp [hstat])]
      refine ⟨_, heq, ?_⟩
      obtain ⟨hinvW, hpermW⟩ :=
        writeBack_done M r node fam child1 k hf hinv hknotin hinv1 hkeys1
      rw [insertOutcome_def]
      refine ⟨?_, ?_, ?_, ?_⟩
      · constructor
        · intro h; rw [hstat] at h; exact absurd h (by simp)
        · intro h; exact absurd h hknotin
      · intro h; rw [hstat] at h; exact absurd h (by simp)
      · intro h
        exact ⟨hn1, hinvW, hpermW⟩
      · intro h; rw [hstat] at h; exact absurd h (by simp)
    | familySplit =>
      obtain ⟨hn1, hccM, hch1, hf0, hf1, hins0, hins1⟩ := hsplit hstat
      have hkC : k ∉ nodeKeys r (fam.getD lc nodeD) := by
        intro hmem
        have := hiff.2 hmem
        rw [hstat] at this
        exact absurd this (by simp)
      have hknotin : k ∉ nodeKeys (r + 1) node := by
        intro hmem
        rw [nodeKeys_succ] at hmem
        rcases List.mem_append.1 hmem with h | h
        · exact hklive h
        · rcases (mem_belowKeys r node fam hf (by omega) k).1 h with ⟨j, hj, hjmem⟩
          have hjlc : j = lc := (hroute j hj k hjmem).symm
          exact hkC (hjlc ▸ hjmem)
      have hchlen : (fam.getD lc nodeD).elts.length = M :=
        hslots _ (getD_mem_of_lt fam lc nodeD hlcf)
      have hDLen : (fam.drop (lc + 1)).length = M - lc := by simp; omega
      have heq : insertFull M d fuel node δ k lc n =
          .ok (⟨some (fam.take lc ++
              CashewSetNode.mk res.family0
                ((liveElts (fam.getD lc nodeD)).filter (fun x => decide (x < k))).length
                (writeAt (fam.getD lc nodeD).elts 0
                  ((liveElts (fam.getD lc nodeD)).filter (fun x => decide (x < k)))) ::
              (fam.drop (lc + 1)).map movedFrom),
            some (CashewSetNode.mk res.family1
                ((liveElts (fam.getD lc nodeD)).filter (fun x => !decide (x < k))).length
                (writeAt (List.replicate M 0) 0
                  ((liveElts (fam.getD lc nodeD)).filter (fun x => !decide (x < k)))) ::
              (fam.drop (lc + 1) ++ List.replicate lc (freshNode M))),
            .familySplit⟩,
            .mk none node.elt_count node.elts, n) := by
        unfold insertFull
        rw [if_neg hδd]
        simp only [hf]
        rw [hrec]
        simp only []
        rw [if_neg (show ¬res.status ≠ InsStatus.familySplit by simp [hstat])]
        rw [hch1]
        rw [show node.elt_count + 1 - lc - 1 = M - lc by omega]
        rw [move_n_eq (M - lc) (fam.set lc (movedFrom (fam.getD lc nodeD))) (lc + 1)
          (make_family M) 1 (by simp [hflen]; omega) (by simp; omega)]
        simp only []
        rw [take_succ_set fam lc (movedFrom (fam.getD lc nodeD)) (by omega)]
        rw [List.drop_set_of_lt _ _ (by omega : lc < lc + 1)]
        rw [show lc + 1 + (M - lc) = M + 1 by omega]
        rw [List.drop_set_of_lt _ _ (by omega : lc < M + 1)]
        rw [show fam.drop (M + 1) = [] from by rw [← hflen]; simp]
        rw [show (fam.drop (lc + 1)).take (M - lc) = fam.drop (lc + 1) from by
          rw [← hDLen]; simp]
        rw [show (make_family M).take 1 = [freshNode M] from by
          rw [make_family, List.take_replicate]
          rw [show min 1 (M + 1) = 1 by omega]
          rfl]
        rw [show (make_family M).drop (1 + (M - lc)) = List.replicate lc (freshNode M) from by
          rw [make_family, List.drop_replicate]
          rw [show M + 1 - (1 + (M - lc)) = lc by omega]]
        rw [List.append_nil]
        have hALen : (fam.take lc).length = lc := by simp; omega
        have hgetlt : ((fam.take lc ++ [movedFrom (fam.getD lc nodeD)]) ++
            (fam.drop (lc + 1)).map movedFrom).getD lc nodeD =
            movedFrom (fam.getD lc nodeD) := by
          rw [getD_append_left _ _ _ _ (by simp [hALen]),
            getD_append_right _ _ _ _ (by omega), hALen]
          simp
        have hgetgt : (([freshNode M] ++ fam.drop (lc + 1)) ++
            List.replicate lc (freshNode M)).getD 0 nodeD = freshNode M := by
          rw [getD_append_left _ _ _ _ (by simp)]
          rfl
        rw [hgetlt, hgetgt]
        rw [show (movedFrom (fam.getD lc nodeD)).elt_count = (fam.getD lc nodeD).elt_count
          from rfl]
        rw [show (movedFrom (fam.getD lc nodeD)).elts = (fam.getD lc nodeD).elts from rfl]
        rw [show (freshNode M).elts = List.replicate M 0 from rfl]
        rw [hccM]
        rw [splitArrayAlias_spec natLess k M (fam.getD lc nodeD).elts
          (List.replicate M 0) (by omega)]
        simp only []
        have htkM : (fam.getD lc nodeD).elts.take M = liveElts (fam.getD lc nodeD) := by
          rw [liveElts, hccM]
        rw [htkM]
        rw [show (fun x => natLess x k) = (fun x => decide (x < k)) from rfl]
        rw [show (fun x => !natLess x k) = (fun x => !decide (x < k)) from rfl]
        have hliveC : (liveElts (fam.getD lc nodeD)).length = M := by
          rw [length_liveElts _ (by omega)]
          exact hccM
        have hltge := filter_length_split (liveElts (fam.getD lc nodeD))
          (fun x => decide (x < k))
        rw [hliveC] at hltge
        rw [show M - (M - ((liveElts (fam.getD lc nodeD)).filter
            (fun x => decide (x < k))).length) =
          ((liveElts (fam.getD lc nodeD)).filter (fun x => decide (x < k))).length
          by omega]
        rw [show M - ((liveElts (fam.getD lc nodeD)).filter
            (fun x => decide (x < k))).length =
          ((liveElts (fam.getD lc nodeD)).filter (fun x => !decide (x < k))).length
          by omega]
        rw [List.set_append_left _ _ (by simp [hALen]),
          List.set_append_right _ _ (by omega), hALen, Nat.sub_self, List.set_cons_zero]
        rw [List.set_append_left _ _ (by simp),
          List.set_append_left _ _ (by simp), List.set_cons_zero]
        rw [hn1]
        simp
      refine ⟨_, heq, ?_⟩
      obtain ⟨hok0, hok1⟩ := full_core M r node fam k res.family0 res.family1
        (List.replicate M 0) hf hinv hcM hknotin hccM hf0 hf1 (by simp) hins0 hins1
      rw [insertOutcome_def]
      refine ⟨?_, ?_, ?_, ?_⟩
      · constructor
        · intro h; exact absurd h (by simp)
        · intro h; exact absurd h hknotin
      · intro h; exact absurd h (by simp)
      · intro h; exact absurd h (by simp)
      · intro h
        exact ⟨rfl, hcM, rfl, by simp, by simp, hok0, hok1⟩

/-- The master specification of `tryInsert`: on any subtree satisfying the
representation invariant at the depth the fuel encodes, the call returns
normally and its result satisfies `InsertOutcome`. -/
theorem tryInsert_master (M d k : Nat) (hM : 1 ≤ M) :
    ∀ (r δ : Nat) (node : CashewSetNode) (n : Nat), δ + r = d → 1 ≤ δ →
    invNode M r node = true →
    ∃ out, tryInsert M d (r + 1) node δ k n = .ok out ∧
      InsertOutcome M r node k n out := by
  intro r
  induction r with
  | zero =>
    intro δ node n hd hδ hinv
    obtain ⟨hc, he, hnd, hfnone⟩ := (invNode_zero M node).1 hinv
    have hδd : δ = d := by omega
    rw [tryInsert_succ_eq]
    rw [(checkBugs_eq_none_iff M d node δ).2 ⟨hc, by omega, fun _ => hfnone⟩]
    simp only []
    by_cases hdup : (liveElts node).contains k = true
    · rw [if_pos hdup]
      have hkin : k ∈ liveElts node := (contains_iff_mem _ _).1 hdup
      refine ⟨_, rfl, ?_⟩
      rw [insertOutcome_def]
      refine ⟨⟨fun _ => by rw [nodeKeys_zero]; exact hkin, fun _ => rfl⟩,
        fun _ => ⟨rfl, rfl⟩, ?_, ?_⟩
      · intro h; exact absurd h (by simp)
      · intro h; exact absurd h (by simp)
    · rw [if_neg hdup]
      have hklive : k ∉ liveElts node := fun hm => hdup ((contains_iff_mem _ _).2 hm)
      by_cases hcm : node.elt_count < M
      · rw [if_pos hcm]
        obtain ⟨out, h1, h2, -⟩ := insertSpacious_leaf M d 0 node δ k
          (scanLess (liveElts node) k) n (by omega) hinv hcm hklive
        exact ⟨out, h1, h2⟩
      · rw [if_neg hcm]
        exact insertFull_leaf M d 0 node δ k (scanLess (liveElts node) k) n hδd hinv
          (by omega) hklive
  | succ r ih =>
    intro δ node n hd hδ hinv
    have hδd : δ < d := by omega
    rw [tryInsert_succ_eq]
    rw [(checkBugs_eq_none_iff M d node δ).2
      ⟨invNode_count_le M (r + 1) node hinv, by omega, fun h => absurd h (by omega)⟩]
    simp only []
    by_cases hdup : (liveElts node).contains k = true
    · rw [if_pos hdup]
      have hkin : k ∈ liveElts node := (contains_iff_mem _ _).1 hdup
      refine ⟨_, rfl, ?_⟩
      rw [insertOutcome_def]
      refine ⟨⟨fun _ => by rw [nodeKeys_succ]; exact List.mem_append_left _ hkin,
        fun _ => rfl⟩, fun _ => ⟨rfl, rfl⟩, ?_, ?_⟩
      · intro h; exact absurd h (by simp)
      · intro h; exact absurd h (by simp)
    · rw [if_neg hdup]
      have hklive : k ∉ liveElts node := fun hm => hdup ((contains_iff_mem _ _).2 hm)
      have hIH : ∀ child n0, invNode M r child = true →
          ∃ out, tryInsert M d (r + 1) child (δ + 1) k n0 = .ok out ∧
            InsertOutcome M r child k n0 out :=
        fun child n0 hc0 => ih (δ + 1) child n0 (by omega) (by omega) hc0
      by_cases hcm : node.elt_count < M
      · rw [if_pos hcm]
        obtain ⟨out, h1, h2, -⟩ := insertSpacious_interior M d (r + 1) r node δ k n
          hM hδd hinv hcm hklive hIH
        exact ⟨out, h1, h2⟩
      · rw [if_neg hcm]
        exact insertFull_interior M d (r + 1) r node δ k n hM (by omega) hinv
          (by have := invNode_count_le M (r + 1) node hinv; omega) hklive hIH

/-- The heart of the root split in `insert`: installing the two halves of the
split old root under a brand-new root holding just the pivot preserves the
invariant one level up and adds exactly the pivot to the key set. -/
theorem root_split_core (M r : Nat) (root : CashewSetNode) (k : Nat)
    (f0 f1 : Option (List CashewSetNode))
    (hM : 1 ≤ M)
    (hinv : invNode M r root = true)
    (hcM : root.elt_count = M)
    (hknotin : k ∉ nodeKeys r root)
    (hf0 : f0 = none ↔ r = 0) (hf1 : f1 = none ↔ r = 0)
    (hins0 : famInstallOK M (r - 1) f0 (scanLess (liveElts root) k)
      ((liveElts root).filter (fun x => decide (x < k)))
      ((belowKeys (r - 1) root).filter (fun x => decide (x < k))))
    (hins1 : famInstallOK M (r - 1) f1
      (root.elt_count - scanLess (liveElts root) k)
      ((liveElts root).filter (fun x => !decide (x < k)))
      ((belowKeys (r - 1) root).filter (fun x => !decide (x < k)))) :
    invNode M (r + 1)
      (.mk (some (((make_family M).set 0
          (CashewSetNode.mk f0
            ((liveElts root).filter (fun x => decide (x < k))).length
            (writeAt (List.replicate M 0) 0
              ((liveElts root).filter (fun x => decide (x < k)))))).set 1
          (CashewSetNode.mk f1
            ((liveElts root).filter (fun x => !decide (x < k))).length
            (writeAt (List.replicate M 0) 0
              ((liveElts root).filter (fun x => !decide (x < k)))))))
        1 (root.elts.set 0 k)) = true ∧
    List.Perm
      (nodeKeys (r + 1)
        (.mk (some (((make_family M).set 0
            (CashewSetNode.mk f0
              ((liveElts root).filter (fun x => decide (x < k))).length
              (writeAt (List.replicate M 0) 0
                ((liveElts root).filter (fun x => decide (x < k)))))).set 1
            (CashewSetNode.mk f1
              ((liveElts root).filter (fun x => !decide (x < k))).length
              (writeAt (List.replicate M 0) 0
                ((liveElts root).filter (fun x => !decide (x < k)))))))
          1 (root.elts.set 0 k)))
      (k :: nodeKeys r root) := by
  have hc : root.elt_count ≤ M := invNode_count_le M r root hinv
  have he : root.elts.length = M := invNode_elts_length M r root hinv
  have hnd : (nodeKeys r root).Nodup := invNode_nodup M r root hinv
  set ltL := (liveElts root).filter (fun x => decide (x < k)) with hltL
  set geL := (liveElts root).filter (fun x => !decide (x < k)) with hgeL
  set lt1 := CashewSetNode.mk f0 ltL.length (writeAt (List.replicate M 0) 0 ltL) with hlt1
  set gt1 := CashewSetNode.mk f1 geL.length (writeAt (List.replicate M 0) 0 geL) with hgt1
  set FAM := ((make_family M).set 0 lt1).set 1 gt1 with hFAM
  have hliveR : (liveElts root).length = M := by
    rw [length_liveElts root (by omega)]
    exact hcM
  have hltge : ltL.length + geL.length = M := by
    rw [hltL, hgeL, filter_length_split, hliveR]
  have hltM : ltL.length ≤ M := by omega
  have hasm0 := assembleNode M r ltL.length f0 ltL (List.replicate M 0)
    ((belowKeys (r - 1) root).filter (fun x => decide (x < k)))
    (by rw [hltL]
        have e1 : scanLess (liveElts root) k = ltL.length := by
          rw [scanLess, List.countP_eq_length_filter, hltL]
        rw [← e1]
        exact hins0)
    hf0 rfl hltM (by simp)
    (by rw [hltL]
        have hkeysR : nodeKeys r root = liveElts root ++ belowKeys (r - 1) root :=
          nodeKeys_eq_live_below M r root hinv
        rw [hkeysR] at hnd
        rw [← List.filter_append]
        exact hnd.filter _)
  have hasm1 := assembleNode M r geL.length f1 geL (List.replicate M 0)
    ((belowKeys (r - 1) root).filter (fun x => !decide (x < k)))
    (by rw [hgeL]
        have e1 : root.elt_count - scanLess (liveElts root) k = geL.length := by
          rw [scanLess, List.countP_eq_length_filter, hcM]
          have e2 : ((liveElts root).filter (fun x => decide (x < k))).length = ltL.length := by
            rw [hltL]
          rw [e2]
          omega
        rw [← e1]
        exact hins1)
    hf1 rfl (by omega) (by simp)
    (by rw [hgeL]
        have hkeysR : nodeKeys r root = liveElts root ++ belowKeys (r - 1) root :=
          nodeKeys_eq_live_below M r root hinv
        rw [hkeysR] at hnd
        rw [← List.filter_append]
        exact hnd.filter _)
  obtain ⟨hinv0, hkeys0, hlive0⟩ := hasm0
  obtain ⟨hinv1, hkeys1, hlive1⟩ := hasm1
  have hFAMeq : FAM = lt1 :: gt1 :: List.replicate (M - 1) (freshNode M) := by
    rw [hFAM, make_family, show M + 1 = (M - 1) + 1 + 1 by omega]
    rw [List.replicate_succ, List.replicate_succ]
    rw [List.set_cons_zero, List.set_cons_succ, List.set_cons_zero]
  have hFAMlen : FAM.length = M + 1 := by
    rw [hFAMeq]
    simp
    omega
  have hG0 : FAM.getD 0 nodeD = lt1 := by rw [hFAMeq]; rfl
  have hG1 : FAM.getD 1 nodeD = gt1 := by rw [hFAMeq]; rfl
  have hGhi : ∀ j, 2 ≤ j → j ≤ M → FAM.getD j nodeD = freshNode M := by
    intro j hj2 hjM
    obtain ⟨t, rfl⟩ : ∃ t, j = t + 2 := ⟨j - 2, by omega⟩
    rw [hFAMeq, List.getD_cons_succ, List.getD_cons_succ,
      getD_replicate _ _ _ _ (by omega)]
  have hmem0 : ∀ y, y ∈ nodeKeys r lt1 → y < k ∧ y ∈ nodeKeys r root := by
    intro y hy
    have hy2 := hkeys0.mem_iff.1 hy
    rw [nodeKeys_eq_live_below M r root hinv]
    rcases List.mem_append.1 hy2 with h | h
    · rcases List.mem_filter.1 h with ⟨h1, h2⟩
      exact ⟨by simpa using h2, List.mem_append_left _ h1⟩
    · rcases List.mem_filter.1 h with ⟨h1, h2⟩
      exact ⟨by simpa using h2, List.mem_append_right _ h1⟩
  have hmem1 : ∀ y, y ∈ nodeKeys r gt1 → k < y ∧ y ∈ nodeKeys r root := by
    intro y hy
    have hy2 := hkeys1.mem_iff.1 hy
    have hyC : y ∈ nodeKeys r root ∧ ¬y < k := by
      rw [nodeKeys_eq_live_below M r root hinv]
      rcases List.mem_append.1 hy2 with h | h
      · rcases List.mem_filter.1 h with ⟨h1, h2⟩
        exact ⟨List.mem_append_left _ h1, by simpa using h2⟩
      · rcases List.mem_filter.1 h with ⟨h1, h2⟩
        exact ⟨List.mem_append_right _ h1, by simpa using h2⟩
    have hyk : y ≠ k := fun h => hknotin (h ▸ hyC.1)
    exact ⟨by omega, hyC.1⟩
  have hlive2 : liveElts (CashewSetNode.mk (some FAM) 1 (root.elts.set 0 k)) = [k] := by
    rw [liveElts_mk, take_succ_set root.elts 0 k (by omega)]
    rfl
  have htk2 : FAM.take 2 = [lt1, gt1] := by
    rw [hFAMeq, List.take_succ_cons, List.take_succ_cons, List.take_zero]
  have hperm : List.Perm
      (nodeKeys (r + 1) (CashewSetNode.mk (some FAM) 1 (root.elts.set 0 k)))
      (k :: nodeKeys r root) := by
    rw [nodeKeys_succ,
      belowKeys_some r (CashewSetNode.mk (some FAM) 1 (root.elts.set 0 k)) FAM rfl]
    simp only [CashewSetNode.elt_count_mk]
    rw [htk2, hlive2]
    simp only [List.map_cons, List.map_nil, List.flatten_cons, List.flatten_nil,
      List.append_nil]
    have s3 := (hkeys0.append hkeys1).trans
      (perm_append_swap ltL
        ((belowKeys (r - 1) root).filter (fun x => decide (x < k)))
        geL
        ((belowKeys (r - 1) root).filter (fun x => !decide (x < k))))
    have s4 : List.Perm (ltL ++ geL) (liveElts root) := List.filter_append_perm _ _
    have s5 : List.Perm
        ((belowKeys (r - 1) root).filter (fun x => decide (x < k)) ++
         (belowKeys (r - 1) root).filter (fun x => !decide (x < k)))
        (belowKeys (r - 1) root) := List.filter_append_perm _ _
    have s6 := s3.trans (s4.append s5)
    rw [← nodeKeys_eq_live_below M r root hinv] at s6
    exact s6.cons k
  refine ⟨?_, hperm⟩
  rw [invNode_succ]
  refine ⟨by simpa using hM, by simpa using he,
    hperm.nodup_iff.2 (List.nodup_cons.2 ⟨hknotin, hnd⟩),
    Or.inr ⟨FAM, rfl, hFAMlen, ?_, ?_, ?_, ?_⟩⟩
  · intro ch hch
    rw [hFAMeq] at hch
    rcases List.mem_cons.1 hch with rfl | hch1
    · rw [hlt1]; simp
    rcases List.mem_cons.1 hch1 with rfl | hch2
    · rw [hgt1]; simp
    · rw [List.eq_of_mem_replicate hch2]
      simp [freshNode]
  · intro j hj
    simp only [CashewSetNode.elt_count_mk] at hj
    match j, hj with
    | 0, _ => rw [hG0]; exact hinv0
    | 1, _ => rw [hG1]; exact hinv1
  · intro j hj y hy
    simp only [CashewSetNode.elt_count_mk] at hj
    rw [hlive2, scanLess_singleton]
    match j, hj with
    | 0, _ =>
      rw [hG0] at hy
      obtain ⟨hyk, -⟩ := hmem0 y hy
      rw [if_neg (by omega)]
    | 1, _ =>
      rw [hG1] at hy
      obtain ⟨hyk, -⟩ := hmem1 y hy
      rw [if_pos hyk]
  · intro j hj
    simp only [CashewSetNode.elt_count_mk] at hj
    by_cases hjM : j ≤ M
    · rw [hGhi j (by omega) hjM]
      rfl
    · rw [getD_eq_default _ _ _ (by omega)]
      rfl

/-- A default-constructed set satisfies the whole-set invariant. -/
theorem inv_empty (M : Nat) : (cashew_set.empty M).inv M = true := by
  rw [inv_iff]
  exact ⟨Nat.le_refl 1, invNode_freshNode M 0, rfl⟩

/-- `treeKeys` of a default-constructed set. -/
theorem treeKeys_empty (M : Nat) : treeKeys (cashew_set.empty M) = [] := by
  rw [treeKeys]
  exact nodeKeys_freshNode 0 M

/-- The full behavioural specification of one public `insert` call on an
invariant state: it returns normally; duplicates are reported with the state
untouched; fresh keys are added with the count bumped once; the depth grows by
exactly one precisely on a root split (which requires a full root). -/
theorem insert_spec (M : Nat) (s : cashew_set) (k : Nat)
    (hM : 1 ≤ M) (hinv : s.inv M = true) :
    ∃ b s1, cashew_set.insert M s k = .ok (b, s1) ∧
      s1.inv M = true ∧
      (b = false ↔ k ∈ treeKeys s) ∧
      (b = false → s1 = s) ∧
      (b = true → List.Perm (treeKeys s1) (k :: treeKeys s) ∧
        s1.treeEltCount = s.treeEltCount + 1) ∧
      (s1.treeDepth = s.treeDepth ∨
        (s1.treeDepth = s.treeDepth + 1 ∧ s.root.elt_count = M ∧ b = true)) := by
  obtain ⟨ro, td, te⟩ := s
  obtain ⟨hd1, hrootinv, hcount⟩ := (inv_iff M ⟨ro, td, te⟩).1 hinv
  simp only [cashew_set.treeDepth_mk, cashew_set.root_mk, cashew_set.treeEltCount_mk,
    treeKeys] at hd1 hrootinv hcount
  have hrd : td = (td - 1) + 1 := by omega
  obtain ⟨⟨res, root1, n1⟩, hrec, houtc⟩ := tryInsert_master M td k hM (td - 1) 1 ro te
    (by omega) (by omega) hrootinv
  rw [← hrd] at hrec
  rw [insertOutcome_def] at houtc
  obtain ⟨hiff, hdup, hdone, hsplit⟩ := houtc
  have hTK : treeKeys ⟨ro, td, te⟩ = nodeKeys (td - 1) ro := rfl
  cases hstat : res.status with
  | duplicateFound =>
    obtain ⟨hr1, hn1⟩ := hdup hstat
    have heq : cashew_set.insert M ⟨ro, td, te⟩ k = .ok (false, ⟨ro, td, te⟩) := by
      unfold cashew_set.insert
      simp only []
      rw [hrec]
      simp only []
      rw [if_pos (show res.status ≠ InsStatus.familySplit by simp [hstat])]
      rw [hr1, hn1, hstat]
      rfl
    refine ⟨false, ⟨ro, td, te⟩, heq, hinv, ?_, fun _ => rfl, ?_, Or.inl rfl⟩
    · exact ⟨fun _ => by rw [hTK]; exact hiff.1 hstat, fun _ => rfl⟩
    · intro h; exact absurd h (by simp)
  | done =>
    obtain ⟨hn1, hinv1, hkeys1⟩ := hdone hstat
    have hknotin : k ∉ nodeKeys (td - 1) ro := by
      intro hmem
      have := hiff.2 hmem
      rw [hstat] at this
      exact absurd this (by simp)
    have heq : cashew_set.insert M ⟨ro, td, te⟩ k = .ok (true, ⟨root1, td, n1⟩) := by
      unfold cashew_set.insert
      simp only []
      rw [hrec]
      simp only []
      rw [if_pos (show res.status ≠ InsStatus.familySplit by simp [hstat])]
      rw [hstat]
      rfl
    refine ⟨true, ⟨root1, td, n1⟩, heq, ?_, ?_, ?_, ?_, Or.inl rfl⟩
    · rw [inv_iff]
      refine ⟨by simpa using hd1, by simpa using hinv1, ?_⟩
      show n1 = (nodeKeys (td - 1) root1).length
      rw [hkeys1.length_eq]
      simp only [List.length_cons]
      omega
    · constructor
      · intro h; exact absurd h (by simp)
      · intro h; rw [hTK] at h; exact absurd h hknotin
    · intro h; exact absurd h (by simp)
    · intro h
      exact ⟨hkeys1, by simpa using hn1⟩
  | familySplit =>
    obtain ⟨hn1, hcM, hroot1, hf0, hf1, hins0, hins1⟩ := hsplit hstat
    have hknotin : k ∉ nodeKeys (td - 1) ro := by
      intro hmem
      have := hiff.2 hmem
      rw [hstat] at this
      exact absurd this (by simp)
    have heq : cashew_set.insert M ⟨ro, td, te⟩ k =
        .ok (true, ⟨.mk (some (((make_family M).set 0
            (CashewSetNode.mk res.family0
              ((liveElts ro).filter (fun x => decide (x < k))).length
              (writeAt (List.replicate M 0) 0
                ((liveElts ro).filter (fun x => decide (x < k)))))).set 1
            (CashewSetNode.mk res.family1
              ((liveElts ro).filter (fun x => !decide (x < k))).length
              (writeAt (List.replicate M 0) 0
                ((liveElts ro).filter (fun x => !decide (x < k)))))))
          1 (ro.elts.set 0 k), td + 1, te + 1⟩) := by
      unfold cashew_set.insert
      simp only []
      rw [hrec]
      simp only []
      rw [if_neg (show ¬res.status ≠ InsStatus.familySplit by simp [hstat])]
      rw [hroot1]
      rw [getD_make_family M 0 (by omega), getD_make_family M 1 (by omega)]
      simp only [movedFrom, freshNode, CashewSetNode.elts_mk, CashewSetNode.elt_count_mk,
        CashewSetNode.family_mk]
      rw [show ro.elts.take ro.elt_count = liveElts ro from rfl]
      rw [splitArray_spec natLess k (liveElts ro) (List.replicate M 0)
        (List.replicate M 0)]
      simp only []
      rw [show (fun x => natLess x k) = (fun x => decide (x < k)) from rfl]
      rw [show (fun x => !natLess x k) = (fun x => !decide (x < k)) from rfl]
      have hliveR : (liveElts ro).length = M := by
        rw [length_liveElts ro
          (by rw [invNode_elts_length M (td - 1) ro hrootinv]
              exact invNode_count_le M (td - 1) ro hrootinv)]
        exact hcM
      have hltge := filter_length_split (liveElts ro) (fun x => decide (x < k))
      rw [hliveR] at hltge
      rw [hcM]
      rw [hn1]
      rw [show M - ((liveElts ro).filter (fun x => decide (x < k))).length =
        ((liveElts ro).filter (fun x => !decide (x < k))).length by omega]
    obtain ⟨hinvN, hpermN⟩ := root_split_core M (td - 1) ro k res.family0 res.family1
      hM hrootinv hcM hknotin hf0 hf1 hins0 hins1
    refine ⟨true, _, heq, ?_, ?_, ?_, ?_, Or.inr ⟨rfl, hcM, rfl⟩⟩
    · rw [inv_iff]
      refine ⟨Nat.succ_le_succ (Nat.zero_le td), ?_, ?_⟩
      · show invNode M (td + 1 - 1) _ = true
        rw [show td + 1 - 1 = (td - 1) + 1 by omega]
        exact hinvN
      · show te + 1 = (nodeKeys (td + 1 - 1) _).length
        rw [show td + 1 - 1 = (td - 1) + 1 by omega]
        rw [hpermN.length_eq]
        simp only [List.length_cons]
        omega
    · constructor
      · intro h; exact absurd h (by simp)
      · intro h; rw [hTK] at h; exact absurd h hknotin
    · intro h; exact absurd h (by simp)
    · intro h
      refine ⟨?_, rfl⟩
      show List.Perm (nodeKeys (td + 1 - 1) _) (k :: nodeKeys (td - 1) ro)
      rw [show td + 1 - 1 = (td - 1) + 1 by omega]
      exact hpermN

/-- Running a list of inserts of fresh keys from an invariant state: the run
returns normally, keeps the invariant, and adds exactly the listed keys. -/
theorem insertsE_spec (M : Nat) (hM : 1 ≤ M) :
    ∀ (L : List Nat) (s : cashew_set), s.inv M = true → (L ++ treeKeys s).Nodup →
    ∃ s1, insertsE M s L = .ok s1 ∧ s1.inv M = true ∧
      List.Perm (treeKeys s1) (L ++ treeKeys s) := by
  intro L
  induction L with
  | nil =>
    intro s hs hnd
    exact ⟨s, rfl, hs, List.Perm.refl _⟩
  | cons a L ih =>
    intro s hs hnd
    have hknotin : a ∉ treeKeys s := by
      intro h
      exact (List.nodup_cons.1 hnd).1 (List.mem_append_right L h)
    obtain ⟨b, s1, heq, hinv1, hiff, hfls, htru, hdep⟩ := insert_spec M s a hM hs
    have hb : b = true := by
      cases b
      · exact absurd (hiff.1 rfl) hknotin
      · rfl
    obtain ⟨hperm1, hcnt1⟩ := htru hb
    have hnd1 : (L ++ treeKeys s1).Nodup := by
      have h1 : List.Perm (L ++ treeKeys s1) (L ++ (a :: treeKeys s)) :=
        hperm1.append_left L
      have h2 : List.Perm (L ++ (a :: treeKeys s)) (a :: (L ++ treeKeys s)) :=
        List.perm_middle
      exact ((h1.trans h2).nodup_iff).2 hnd
    obtain ⟨s2, heq2, hinv2, hperm2⟩ := ih s1 hinv1 hnd1
    refine ⟨s2, ?_, hinv2, ?_⟩
    · rw [insertsE]
      rw [heq, hb]
      exact heq2
    · exact hperm2.trans ((hperm1.append_left L).trans List.perm_middle)

/-- Every state reachable through the public mutators satisfies the whole-set
invariant. -/
theorem reachable_inv (M : Nat) (s : cashew_set) (hM : 1 ≤ M)
    (h : Reachable M s) : s.inv M = true := by
  induction h with
  | empty => exact inv_empty M
  | insert s0 key b s1 hreach heq ih =>
    obtain ⟨b2, s2, heq2, hinv2, -⟩ := insert_spec M s0 key hM ih
    rw [heq] at heq2
    simp only [Except.ok.injEq, Prod.mk.injEq] at heq2
    obtain ⟨-, h12⟩ := heq2
    rw [h12]
    exact hinv2
  | clear s0 hreach ih =>
    obtain ⟨hd1, hrinv, -⟩ := (inv_iff M s0).1 ih
    rw [inv_iff]
    refine ⟨Nat.le_refl 1, ?_, rfl⟩
    show invNode M 0 (CashewSetNode.mk none 0 s0.root.elts) = true
    rw [invNode_zero]
    refine ⟨by simp, ?_, ?_, by simp⟩
    · simpa using invNode_elts_length M (s0.treeDepth - 1) s0.root hrinv
    · simp [nodeKeys_zero, liveElts]

/-- `count` on an invariant state is the indicator of key membership. -/
theorem count_spec (M : Nat) (s : cashew_set) (k : Nat) (hinv : s.inv M = true) :
    s.count k = if k ∈ treeKeys s then 1 else 0 := by
  obtain ⟨hd1, hrinv, -⟩ := (inv_iff M s).1 hinv
  rw [cashew_set.count, show s.treeDepth = (s.treeDepth - 1) + 1 by omega]
  exact countRecursive_eq M (s.treeDepth - 1) s.root k hrinv

/-- All nodes of the search tree, each paired with its remaining depth
(`treeDepth - nodeDepth`): the node itself and, recursively, its in-use
children. -/
def nodesD : Nat → CashewSetNode → List (Nat × CashewSetNode)
  | 0, node => [(0, node)]
  | fuel+1, node =>
    (fuel + 1, node) ::
      (match node.family with
       | none => []
       | some fam => ((fam.take (node.elt_count + 1)).map (nodesD fuel)).flatten)

/-- Every node of an invariant subtree satisfies the invariant at its own
level. -/
theorem invNode_nodesD (M : Nat) : ∀ (f : Nat) (node : CashewSetNode),
    invNode M f node = true → ∀ p ∈ nodesD f node, invNode M p.1 p.2 = true := by
  intro f
  induction f with
  | zero =>
    intro node hinv p hp
    rw [nodesD] at hp
    rcases List.mem_singleton.1 hp with rfl
    exact hinv
  | succ f ih =>
    intro node hinv p hp
    rw [nodesD] at hp
    rcases List.mem_cons.1 hp with rfl | hp1
    · exact hinv
    · cases hnf : node.family with
      | none => rw [hnf] at hp1; exact absurd hp1 (List.not_mem_nil p)
      | some fam =>
        rw [hnf] at hp1
        obtain ⟨hc, he, hnd, hflen, hslots, hinvc, hroute, hbeyond⟩ :=
          invNode_succ_some M f node fam hnf hinv
        rcases List.mem_flatten.1 hp1 with ⟨l, hl, hpl⟩
        rcases List.mem_map.1 hl with ⟨ch, hch, rfl⟩
        rcases (mem_take_getD fam (node.elt_count + 1) nodeD ch (by omega)).1 hch with
          ⟨j, hj, rfl⟩
        exact ih (fam.getD j nodeD) (hinvc j (by omega)) p hpl

/-- The search-ordering invariant in the spec's form, derived from the routing
form: keys under children left of a key's position are smaller, keys under
children right of it are at least as large. -/
theorem invNode_I5 (M f : Nat) (node : CashewSetNode) (fam : List CashewSetNode)
    (hinv : invNode M (f + 1) node = true) (hsome : node.family = some fam) :
    ∀ x ∈ liveElts node, ∀ j, j ≤ node.elt_count →
      ∀ y ∈ nodeKeys f (fam.getD j nodeD),
        (j ≤ scanLess (liveElts node) x → y < x) ∧
        (scanLess (liveElts node) x < j → x ≤ y) := by
  obtain ⟨hc, he, hnd, hflen, hslots, hinvc, hroute, hbeyond⟩ :=
    invNode_succ_some M f node fam hsome hinv
  intro x hx j hj y hy
  have hr := hroute j hj y hy
  constructor
  · intro hjle
    by_contra hge
    have hxy : x ≤ y := by omega
    by_cases hxy2 : x = y
    · subst hxy2
      have hndsplit : (liveElts node ++ belowKeys f node).Nodup := by
        rw [← nodeKeys_succ]
        exact hnd
      have hbel : x ∈ belowKeys f node :=
        (mem_belowKeys f node fam hsome (by omega) x).2 ⟨j, hj, hy⟩
      exact (List.disjoint_of_nodup_append hndsplit) hx hbel
    · have hxy3 : x < y := by omega
      have := scanLess_strict (liveElts node) x y hx hxy3
      omega
  · intro hjgt
    by_contra hyx
    have hylt : y < x := by omega
    have := scanLess_mono (liveElts node) y x (by omega)
    have := scanLess_strict (liveElts node) y x
    omega

/-- `insertSpacious` never reports a split, no matter its input. -/
theorem insertSpacious_no_split (M d fuel : Nat) (node : CashewSetNode)
    (δ k lc n : Nat) (res : TryInsertResult) (nd : CashewSetNode) (n1 : Nat)
    (h : insertSpacious M d fuel node δ k lc n = .ok (res, nd, n1)) :
    res.status ≠ .familySplit := by
  unfold insertSpacious at h
  by_cases hdd : δ < d
  · rw [if_pos hdd] at h
    simp only [] at h
    cases htr : tryInsert M d fuel ((node.family.getD (make_family M)).getD lc nodeD)
        (δ + 1) k n with
    | error b =>
      rw [htr] at h
      exact absurd h (by simp)
    | ok out =>
      obtain ⟨res0, child, n0⟩ := out
      rw [htr] at h
      simp only [] at h
      by_cases hst : res0.status ≠ InsStatus.familySplit
      · rw [if_pos hst] at h
        simp only [Except.ok.injEq, Prod.mk.injEq] at h
        obtain ⟨h1, -⟩ := h
        rw [← h1]
        exact hst
      · rw [if_neg hst] at h
        simp only [Except.ok.injEq, Prod.mk.injEq] at h
        obtain ⟨h1, -⟩ := h
        rw [← h1]
        simp
  · rw [if_neg hdd] at h
    simp only [Except.ok.injEq, Prod.mk.injEq] at h
    obtain ⟨h1, -⟩ := h
    rw [← h1]
    simp

/-- Whenever `tryInsert` reports `familySplit`, the node it hands back holds
exactly `M` keys and a null family, its own family (if any) having moved into
the first returned handle. -/
theorem tryInsert_split_shape (M d fuel : Nat) (node : CashewSetNode) (δ k n : Nat)
    (res : TryInsertResult) (nd : CashewSetNode) (n1 : Nat)
    (h : tryInsert M d fuel node δ k n = .ok (res, nd, n1))
    (hs : res.status = .familySplit) :
    nd.elt_count = M ∧ nd.family = none ∧ (res.family0 = none ↔ node.family = none) := by
  cases fuel with
  | zero =>
    rw [show tryInsert M d 0 node δ k n = .error .outOfFuel from rfl] at h
    exact absurd h (by simp)
  | succ fuel =>
    rw [tryInsert_succ_eq] at h
    cases hcb : checkBugs M d node δ with
    | some b =>
      rw [hcb] at h
      simp only [] at h
      exact absurd h (by simp)
    | none =>
      rw [hcb] at h
      simp only [] at h
      obtain ⟨hcle, hdle, hfam⟩ := (checkBugs_eq_none_iff M d node δ).1 hcb
      by_cases hdup : (liveElts node).contains k = true
      · rw [if_pos hdup] at h
        simp only [Except.ok.injEq, Prod.mk.injEq] at h
        obtain ⟨h1, -⟩ := h
        rw [← h1] at hs
        exact absurd hs (by simp)
      · rw [if_neg hdup] at h
        by_cases hcm : node.elt_count < M
        · rw [if_pos hcm] at h
          exact absurd hs (insertSpacious_no_split M d fuel node δ k
            (scanLess (liveElts node) k) n res nd n1 h)
        · rw [if_neg hcm] at h
          unfold insertFull at h
          by_cases hdd : δ = d
          · rw [if_pos hdd] at h
            simp only [Except.ok.injEq, Prod.mk.injEq] at h
            obtain ⟨h1, h2, -⟩ := h
            rw [← h2]
            refine ⟨by omega, hfam hdd, ?_⟩
            rw [← h1]
            simp [hfam hdd]
          · rw [if_neg hdd] at h
            cases hnf : node.family with
            | none =>
              rw [hnf] at h
              simp only [] at h
              exact absurd h (by simp)
            | some fam =>
              rw [hnf] at h
              simp only [] at h
              cases htr : tryInsert M d fuel
                  (fam.getD (scanLess (liveElts node) k) nodeD) (δ + 1) k n with
              | error b =>
                rw [htr] at h
                exact absurd h (by simp)
              | ok out =>
                obtain ⟨res0, child, n0⟩ := out
                rw [htr] at h
                simp only [] at h
                by_cases hst : res0.status ≠ InsStatus.familySplit
                · rw [if_pos hst] at h
                  simp only [Except.ok.injEq, Prod.mk.injEq] at h
                  obtain ⟨h1, -⟩ := h
                  rw [← h1] at hs
                  exact absurd hs hst
                · rw [if_neg hst] at h
                  simp only [Except.ok.injEq, Prod.mk.injEq] at h
                  obtain ⟨h1, h2, -⟩ := h
                  rw [← h2]
                  refine ⟨by simp only [CashewSetNode.elt_count_mk]; omega, rfl, ?_⟩
                  rw [← h1]
                  simp

/-- Any insert sequence (duplicates included) runs without exceptions and
preserves the whole-set invariant. -/
theorem insertsE_inv (M : Nat) (hM : 1 ≤ M) :
    ∀ (L : List Nat) (s : cashew_set), s.inv M = true →
    ∃ s1, insertsE M s L = .ok s1 ∧ s1.inv M = true := by
  intro L
  induction L with
  | nil =>
    intro s hs
    exact ⟨s, rfl, hs⟩
  | cons a L ih =>
    intro s hs
    obtain ⟨b, s1, heq, hinv1, -⟩ := insert_spec M s a hM hs
    obtain ⟨s2, heq2, hinv2⟩ := ih s1 hinv1
    refine ⟨s2, ?_, hinv2⟩
    rw [insertsE, heq]
    exact heq2

/-- The root-split branch of the `insert` wrapper, as one equation: given the
inner `tryInsert` outcome, the wrapper builds the new two-child root, bumps the
depth and the count, and returns `true`. -/
theorem insert_split_eq (M : Nat) (ro : CashewSetNode) (td te k : Nat)
    (f0 f1 : Option (List CashewSetNode)) (root1 : CashewSetNode) (n1 : Nat)
    (hM : 1 ≤ M)
    (hrec : tryInsert M td td ro 1 k te = .ok (⟨f0, f1, .familySplit⟩, root1, n1)) :
    cashew_set.insert M ⟨ro, td, te⟩ k =
      .ok (true, ⟨.mk (some (((make_family M).set 0
          (CashewSetNode.mk f0
            (((root1.elts.take root1.elt_count).filter (fun x => decide (x < k))).length)
            (writeAt (List.replicate M 0) 0
              ((root1.elts.take root1.elt_count).filter (fun x => decide (x < k)))))).set 1
          (CashewSetNode.mk f1
            (root1.elt_count -
              ((root1.elts.take root1.elt_count).filter (fun x => decide (x < k))).length)
            (writeAt (List.replicate M 0) 0
              ((root1.elts.take root1.elt_count).filter (fun x => !decide (x < k)))))))
        1 (root1.elts.set 0 k), td + 1, n1 + 1⟩) := by
  unfold cashew_set.insert
  simp only []
  rw [hrec]
  simp only []
  rw [if_neg (show ¬(⟨f0, f1, .familySplit⟩ : TryInsertResult).status ≠
    InsStatus.familySplit by simp)]
  rw [getD_make_family M 0 (by omega), getD_make_family M 1 (by omega)]
  simp only [freshNode, CashewSetNode.elts_mk, CashewSetNode.elt_count_mk,
    CashewSetNode.family_mk]
  rw [splitArray_spec natLess k (root1.elts.take root1.elt_count) (List.replicate M 0)
    (List.replicate M 0)]
  simp only []
  rw [show (fun x => natLess x k) = (fun x => decide (x < k)) from rfl]
  rw [show (fun x => !natLess x k) = (fun x => !decide (x < k)) from rfl]

/-- The family built by the root split: `make_family` with its first two slots
overwritten. -/
theorem make_family_set2 (M : Nat) (hM : 1 ≤ M) (A B : CashewSetNode) :
    ((make_family M).set 0 A).set 1 B = A :: B :: List.replicate (M - 1) (freshNode M) := by
  rw [make_family, show M + 1 = (M - 1) + 1 + 1 by omega]
  rw [List.replicate_succ, List.replicate_succ]
  rw [List.set_cons_zero, List.set_cons_succ, List.set_cons_zero]

/-! ## The claims -/

/-- C1: for every sequence of distinct keys inserted in any order into an
initially empty set, the run returns normally, `count` is 1 on the inserted
keys and 0 on all others, and `size` is the number of keys inserted. -/
theorem claim_C1 (M : Nat) (L : List Nat) (hM : 1 ≤ M) (hnd : L.Nodup) :
    ∃ s, insertsE M (cashew_set.empty M) L = .ok s ∧
      (∀ k, k ∈ L → s.count k = 1) ∧
      (∀ k, k ∉ L → s.count k = 0) ∧
      s.size = L.length := by
  obtain ⟨s, heq, hinv, hperm⟩ := insertsE_spec M hM L (cashew_set.empty M)
    (inv_empty M) (by rw [treeKeys_empty, List.append_nil]; exact hnd)
  refine ⟨s, heq, ?_, ?_, ?_⟩
  · intro k hk
    rw [count_spec M s k hinv,
      if_pos (hperm.mem_iff.2 (List.mem_append_left _ hk))]
  · intro k hk
    have hnm : k ∉ treeKeys s := by
      intro hmem
      have h2 := hperm.mem_iff.1 hmem
      rw [treeKeys_empty, List.append_nil] at h2
      exact hk h2
    rw [count_spec M s k hinv, if_neg hnm]
  · have h1 := ((inv_iff M s).1 hinv).2.2
    rw [cashew_set.size, h1, hperm.length_eq, treeKeys_empty, List.append_nil]

/-- C1 at a concrete input: `M = 2`, keys `[3, 1, 2]`. -/
theorem claim_C1_witness :
    (1 ≤ 2 ∧ ([3, 1, 2] : List Nat).Nodup) ∧
    (∃ s, insertsE 2 (cashew_set.empty 2) [3, 1, 2] = .ok s ∧
      (∀ k, k ∈ [3, 1, 2] → s.count k = 1) ∧
      (∀ k, k ∉ ([3, 1, 2] : List Nat) → s.count k = 0) ∧
      s.size = [3, 1, 2].length) :=
  ⟨⟨by decide, by decide⟩, claim_C1 2 [3, 1, 2] (by decide) (by decide)⟩

/-- C2: inserting a key already present returns `false` and hands back the very
same state: every node's keys, counts and families are untouched. -/
theorem claim_C2 (M : Nat) (s : cashew_set) (k : Nat) (hM : 1 ≤ M)
    (hinv : s.inv M = true) (hk : k ∈ treeKeys s) :
    cashew_set.insert M s k = .ok (false, s) := by
  obtain ⟨b, s1, heq, -, hiff, hfls, -, -⟩ := insert_spec M s k hM hinv
  have hb : b = false := hiff.2 hk
  subst hb
  have hs1 : s1 = s := hfls rfl
  subst hs1
  exact heq

/-- C2 at a concrete input: a one-key tree and its key. -/
theorem claim_C2_witness :
    (1 ≤ 2 ∧
     (⟨CashewSetNode.mk none 1 [5, 0], 1, 1⟩ : cashew_set).inv 2 = true ∧
     5 ∈ treeKeys ⟨CashewSetNode.mk none 1 [5, 0], 1, 1⟩) ∧
    cashew_set.insert 2 ⟨CashewSetNode.mk none 1 [5, 0], 1, 1⟩ 5 =
      .ok (false, ⟨CashewSetNode.mk none 1 [5, 0], 1, 1⟩) :=
  ⟨⟨by decide, by decide, by decide⟩,
   claim_C2 2 ⟨CashewSetNode.mk none 1 [5, 0], 1, 1⟩ 5 (by decide) (by decide) (by decide)⟩

/-- C3 (amended): after any insert sequence, every node that has a family has
exactly `M + 1` slots and every slot past the in-use range carries no family;
the original claim's stronger "default-initialized" (element count 0) does not
hold of those slots. -/
theorem claim_C3 (M : Nat) (L : List Nat) (hM : 1 ≤ M) :
    ∃ s, insertsE M (cashew_set.empty M) L = .ok s ∧
      ∀ p ∈ nodesD (s.treeDepth - 1) s.root, ∀ fam, p.2.family = some fam →
        fam.length = M + 1 ∧
        ∀ j, p.2.elt_count < j → (fam.getD j nodeD).family = none := by
  obtain ⟨s, heq, hinv⟩ := insertsE_inv M hM L (cashew_set.empty M) (inv_empty M)
  refine ⟨s, heq, ?_⟩
  intro p hp fam hfam
  have hroot := ((inv_iff M s).1 hinv).2.1
  have hpinv := invNode_nodesD M (s.treeDepth - 1) s.root hroot p hp
  cases hf : p.1 with
  | zero =>
    rw [hf] at hpinv
    obtain ⟨-, -, -, hnone⟩ := (invNode_zero M p.2).1 hpinv
    rw [hnone] at hfam
    exact absurd hfam (by simp)
  | succ g =>
    rw [hf] at hpinv
    obtain ⟨-, -, -, hflen, -, -, -, hbeyond⟩ := invNode_succ_some M g p.2 fam hfam hpinv
    exact ⟨hflen, hbeyond⟩

/-- C3 at a concrete input: `M = 2`, keys `[1, 2]`. -/
theorem claim_C3_witness :
    (1 ≤ 2) ∧
    (∃ s, insertsE 2 (cashew_set.empty 2) [1, 2] = .ok s ∧
      ∀ p ∈ nodesD (s.treeDepth - 1) s.root, ∀ fam, p.2.family = some fam →
        fam.length = 2 + 1 ∧
        ∀ j, p.2.elt_count < j → (fam.getD j nodeD).family = none) :=
  ⟨by decide, claim_C3 2 [1, 2] (by decide)⟩

/-- C3 is refuted as stated: after inserting `[1,2,3,4,5,6,7,8,9,0]` into an
empty set with `M = 2`, the root's child 0 has `elt_count = 0`, yet slot 1 of
its family — past the in-use range — holds a moved-from node with
`elt_count = 2`, not a default-initialized one (its family is null, though). -/
theorem claim_C3_counterexample :
    Except.map (fun s =>
        (((s.root.family.getD []).getD 0 nodeD).elt_count,
         ((((s.root.family.getD []).getD 0 nodeD).family.getD []).getD 1 nodeD).elt_count,
         ((((s.root.family.getD []).getD 0 nodeD).family.getD []).getD 1
            nodeD).family.isNone))
      (insertsE 2 (cashew_set.empty 2) [1, 2, 3, 4, 5, 6, 7, 8, 9, 0]) =
      Except.ok (0, 2, true) := by
  rfl

/-- C4: when the root-level `tryInsert` reports `familySplit (f0, f1)`, the
wrapper returns `true` with a new root: depth and count bumped by one, the new
root holding just the pivot, its two children carrying `f0`/`f1` as families
and the old root's keys partitioned around the pivot with both counts updated;
moreover `clear` never increases the depth and `insert` increases it by at most
one, and only with a full root. -/
theorem claim_C4 (M : Nat) (s : cashew_set) (k : Nat)
    (f0 f1 : Option (List CashewSetNode)) (root1 : CashewSetNode) (n1 : Nat)
    (hM : 1 ≤ M) (hinv : s.inv M = true)
    (hsplit : tryInsert M s.treeDepth s.treeDepth s.root 1 k s.treeEltCount =
      .ok (⟨f0, f1, .familySplit⟩, root1, n1)) :
    (∃ s1, cashew_set.insert M s k = .ok (true, s1) ∧
      s1.treeDepth = s.treeDepth + 1 ∧
      s1.treeEltCount = s.treeEltCount + 1 ∧
      s1.root.elt_count = 1 ∧
      s1.root.elts.getD 0 0 = k ∧
      (∃ fam, s1.root.family = some fam ∧ fam.length = M + 1 ∧
        (fam.getD 0 nodeD).family = f0 ∧ (fam.getD 1 nodeD).family = f1 ∧
        liveElts (fam.getD 0 nodeD) =
          (liveElts s.root).filter (fun x => decide (x < k)) ∧
        liveElts (fam.getD 1 nodeD) =
          (liveElts s.root).filter (fun x => !decide (x < k)) ∧
        (fam.getD 0 nodeD).elt_count =
          ((liveElts s.root).filter (fun x => decide (x < k))).length ∧
        (fam.getD 1 nodeD).elt_count =
          ((liveElts s.root).filter (fun x => !decide (x < k))).length)) ∧
    s.clear.treeDepth ≤ s.treeDepth ∧
    (∀ k2 b2 s2, cashew_set.insert M s k2 = .ok (b2, s2) →
      s2.treeDepth = s.treeDepth ∨
        (s2.treeDepth = s.treeDepth + 1 ∧ s.root.elt_count = M)) := by
  obtain ⟨ro, td, te⟩ := s
  simp only [cashew_set.treeDepth_mk, cashew_set.root_mk, cashew_set.treeEltCount_mk]
    at hsplit ⊢
  obtain ⟨hd1, hrootinv, hcount⟩ := (inv_iff M ⟨ro, td, te⟩).1 hinv
  simp only [cashew_set.treeDepth_mk, cashew_set.root_mk, cashew_set.treeEltCount_mk,
    treeKeys] at hd1 hrootinv hcount
  have hsplit0 := hsplit
  have hrd : td = (td - 1) + 1 := by omega
  obtain ⟨⟨res, root1x, n1x⟩, hrec, houtc⟩ := tryInsert_master M td k hM (td - 1) 1 ro te
    (by omega) (by omega) hrootinv
  rw [← hrd] at hrec
  rw [hrec] at hsplit
  simp only [Except.ok.injEq, Prod.mk.injEq] at hsplit
  obtain ⟨hres, hr1, hn1x⟩ := hsplit
  subst hres
  subst hr1
  subst hn1x
  rw [insertOutcome_def] at houtc
  obtain ⟨hn1, hcM, hroot1, hf0iff, hf1iff, hins0, hins1⟩ := houtc.2.2.2 rfl
  have heq := insert_split_eq M ro td te k f0 f1 root1x n1x hM hsplit0
  have hrolen : ro.elts.length = M := invNode_elts_length M (td - 1) ro hrootinv
  have hroc : ro.elt_count ≤ M := invNode_count_le M (td - 1) ro hrootinv
  have hliveRL : (liveElts ro).length = M := by
    rw [length_liveElts ro (by omega)]
    exact hcM
  rw [hroot1] at heq
  rw [show (movedFrom ro).elts = ro.elts from rfl,
    show (movedFrom ro).elt_count = ro.elt_count from rfl,
    show ro.elts.take ro.elt_count = liveElts ro from rfl] at heq
  have hltge := filter_length_split (liveElts ro) (fun x => decide (x < k))
  rw [hliveRL] at hltge
  rw [hcM, show M - ((liveElts ro).filter (fun x => decide (x < k))).length =
    ((liveElts ro).filter (fun x => !decide (x < k))).length by omega, hn1] at heq
  set A := CashewSetNode.mk f0
    (((liveElts ro).filter (fun x => decide (x < k))).length)
    (writeAt (List.replicate M 0) 0
      ((liveElts ro).filter (fun x => decide (x < k)))) with hA
  set B := CashewSetNode.mk f1
    (((liveElts ro).filter (fun x => !decide (x < k))).length)
    (writeAt (List.replicate M 0) 0
      ((liveElts ro).filter (fun x => !decide (x < k)))) with hB
  have hFeq := make_family_set2 M hM A B
  refine ⟨⟨_, heq, rfl, rfl, rfl, ?_, ?_⟩, hd1, ?_⟩
  · exact getD_set_self ro.elts 0 k 0 (by omega)
  · refine ⟨((make_family M).set 0 A).set 1 B, rfl, by simp [hFeq]; omega, ?_, ?_, ?_, ?_, ?_, ?_⟩
    · rw [hFeq]
      rfl
    · rw [hFeq]
      rfl
    · rw [hFeq, show (A :: B :: List.replicate (M - 1) (freshNode M)).getD 0 nodeD = A
        from rfl, hA]
      exact liveElts_writeAt f0 _ (List.replicate M 0)
        (by simp
            calc ((liveElts ro).filter (fun x => decide (x < k))).length
                ≤ (liveElts ro).length := List.length_filter_le _ _
              _ = M := hliveRL)
    · rw [hFeq, show (A :: B :: List.replicate (M - 1) (freshNode M)).getD 1 nodeD = B
        from rfl, hB]
      exact liveElts_writeAt f1 _ (List.replicate M 0)
        (by simp
            calc ((liveElts ro).filter (fun x => !decide (x < k))).length
                ≤ (liveElts ro).length := List.length_filter_le _ _
              _ = M := hliveRL)
    · rw [hFeq]
      rfl
    · rw [hFeq]
      rfl
  · intro k2 b2 s2 h2
    obtain ⟨b3, s3, heq3, -, -, -, -, hdep3⟩ := insert_spec M ⟨ro, td, te⟩ k2 hM hinv
    rw [heq3] at h2
    simp only [Except.ok.injEq, Prod.mk.injEq] at h2
    obtain ⟨-, hs3⟩ := h2
    subst hs3
    simp only [cashew_set.treeDepth_mk, cashew_set.root_mk] at hdep3
    rcases hdep3 with h | ⟨h1, h2, -⟩
    · exact Or.inl h
    · exact Or.inr ⟨h1, h2⟩

/-- C4 at a concrete input: a full one-node root, `M = 2`, inserting 3. -/
theorem claim_C4_witness :
    (1 ≤ 2 ∧ (⟨CashewSetNode.mk none 2 [1, 2], 1, 2⟩ : cashew_set).inv 2 = true ∧
     tryInsert 2 1 1 (CashewSetNode.mk none 2 [1, 2]) 1 3 2 =
       .ok (⟨none, none, .familySplit⟩, CashewSetNode.mk none 2 [1, 2], 2)) ∧
    ((∃ s1, cashew_set.insert 2 ⟨CashewSetNode.mk none 2 [1, 2], 1, 2⟩ 3 =
        .ok (true, s1) ∧
      s1.treeDepth = (⟨CashewSetNode.mk none 2 [1, 2], 1, 2⟩ : cashew_set).treeDepth + 1 ∧
      s1.treeEltCount =
        (⟨CashewSetNode.mk none 2 [1, 2], 1, 2⟩ : cashew_set).treeEltCount + 1 ∧
      s1.root.elt_count = 1 ∧
      s1.root.elts.getD 0 0 = 3 ∧
      (∃ fam, s1.root.family = some fam ∧ fam.length = 2 + 1 ∧
        (fam.getD 0 nodeD).family = none ∧ (fam.getD 1 nodeD).family = none ∧
        liveElts (fam.getD 0 nodeD) =
          (liveElts (CashewSetNode.mk none 2 [1, 2])).filter (fun x => decide (x < 3)) ∧
        liveElts (fam.getD 1 nodeD) =
          (liveElts (CashewSetNode.mk none 2 [1, 2])).filter (fun x => !decide (x < 3)) ∧
        (fam.getD 0 nodeD).elt_count =
          ((liveElts (CashewSetNode.mk none 2 [1, 2])).filter
            (fun x => decide (x < 3))).length ∧
        (fam.getD 1 nodeD).elt_count =
          ((liveElts (CashewSetNode.mk none 2 [1, 2])).filter
            (fun x => !decide (x < 3))).length)) ∧
    (⟨CashewSetNode.mk none 2 [1, 2], 1, 2⟩ : cashew_set).clear.treeDepth ≤
      (⟨CashewSetNode.mk none 2 [1, 2], 1, 2⟩ : cashew_set).treeDepth ∧
    (∀ k2 b2 s2,
      cashew_set.insert 2 ⟨CashewSetNode.mk none 2 [1, 2], 1, 2⟩ k2 = .ok (b2, s2) →
      s2.treeDepth = (⟨CashewSetNode.mk none 2 [1, 2], 1, 2⟩ : cashew_set).treeDepth ∨
        (s2.treeDepth =
          (⟨CashewSetNode.mk none 2 [1, 2], 1, 2⟩ : cashew_set).treeDepth + 1 ∧
         (CashewSetNode.mk none 2 [1, 2]).elt_count = 2))) :=
  ⟨⟨by decide, by decide, rfl⟩,
   claim_C4 2 ⟨CashewSetNode.mk none 2 [1, 2], 1, 2⟩ 3 none none
     (CashewSetNode.mk none 2 [1, 2]) 2 (by decide) (by decide) rfl⟩

/-- C5: after any insert sequence on an initially empty set, every node of the
tree has at most `M` live keys, every leaf-level node has no family, and the
ordering rule holds: for a key `x` of a node, keys under children at index
`j ≤ positionOf x` are `< x` and keys under children at `j > positionOf x` are
`≥ x`, where `positionOf` counts the node's keys strictly below `x`. -/
theorem claim_C5 (M : Nat) (L : List Nat) (hM : 1 ≤ M) :
    ∃ s, insertsE M (cashew_set.empty M) L = .ok s ∧
      ∀ p ∈ nodesD (s.treeDepth - 1) s.root,
        p.2.elt_count ≤ M ∧
        (p.1 = 0 → p.2.family = none) ∧
        (∀ fam, p.2.family = some fam →
          ∀ x ∈ liveElts p.2, ∀ j, j ≤ p.2.elt_count →
            ∀ y ∈ nodeKeys (p.1 - 1) (fam.getD j nodeD),
              (j ≤ scanLess (liveElts p.2) x → y < x) ∧
              (scanLess (liveElts p.2) x < j → x ≤ y)) := by
  obtain ⟨s, heq, hinv⟩ := insertsE_inv M hM L (cashew_set.empty M) (inv_empty M)
  refine ⟨s, heq, ?_⟩
  intro p hp
  have hroot := ((inv_iff M s).1 hinv).2.1
  have hpinv := invNode_nodesD M (s.treeDepth - 1) s.root hroot p hp
  refine ⟨invNode_count_le M p.1 p.2 hpinv, ?_, ?_⟩
  · intro h0
    rw [h0] at hpinv
    exact ((invNode_zero M p.2).1 hpinv).2.2.2
  · intro fam hfam
    cases hf : p.1 with
    | zero =>
      rw [hf] at hpinv
      rw [((invNode_zero M p.2).1 hpinv).2.2.2] at hfam
      exact absurd hfam (by simp)
    | succ g =>
      rw [hf] at hpinv
      have h5 := invNode_I5 M g p.2 fam hpinv hfam
      simpa using h5

/-- C5 at a concrete input: `M = 2`, keys `[2, 1, 3]`. -/
theorem claim_C5_witness :
    (1 ≤ 2) ∧
    (∃ s, insertsE 2 (cashew_set.empty 2) [2, 1, 3] = .ok s ∧
      ∀ p ∈ nodesD (s.treeDepth - 1) s.root,
        p.2.elt_count ≤ 2 ∧
        (p.1 = 0 → p.2.family = none) ∧
        (∀ fam, p.2.family = some fam →
          ∀ x ∈ liveElts p.2, ∀ j, j ≤ p.2.elt_count →
            ∀ y ∈ nodeKeys (p.1 - 1) (fam.getD j nodeD),
              (j ≤ scanLess (liveElts p.2) x → y < x) ∧
              (scanLess (liveElts p.2) x < j → x ≤ y))) :=
  ⟨by decide, claim_C5 2 [2, 1, 3] (by decide)⟩

/-- C6 (amended): `checkBugs` reports corruption exactly when `c > M`, the node
is deeper than the tree, or a node at the leaf level has a family; and on every
reachable state `insert` returns normally, so no exception is raised.  (The
original "exactly when" over all of `tryInsert` fails: a full interior node
with no family throws even though all three checks pass —
`claim_C6_counterexample`.) -/
theorem claim_C6 (M d : Nat) (node : CashewSetNode) (δ : Nat)
    (s : cashew_set) (k : Nat)
    (hM : 1 ≤ M) (hreach : Reachable M s) :
    (checkBugs M d node δ = none ↔
      ¬(node.elt_count > M ∨ δ > d ∨ (δ = d ∧ node.family ≠ none))) ∧
    (∃ b s1, cashew_set.insert M s k = .ok (b, s1)) := by
  constructor
  · rw [checkBugs_eq_none_iff]
    constructor
    · rintro ⟨h1, h2, h3⟩ (hc | hd | ⟨hdd, hf⟩)
      · omega
      · omega
      · exact hf (h3 hdd)
    · intro h
      refine ⟨?_, ?_, ?_⟩
      · by_contra hc
        exact h (Or.inl (by omega))
      · by_contra hd2
        exact h (Or.inr (Or.inl (by omega)))
      · intro hdd
        by_cases hfn : node.family = none
        · exact hfn
        · exact absurd (Or.inr (Or.inr ⟨hdd, hfn⟩)) h
  · have hinv := reachable_inv M s hM hreach
    obtain ⟨b, s1, heq, -⟩ := insert_spec M s k hM hinv
    exact ⟨b, s1, heq⟩

/-- C6 at a concrete input: the empty reachable state, `M = 2`. -/
theorem claim_C6_witness :
    (1 ≤ 2 ∧ Reachable 2 (cashew_set.empty 2)) ∧
    ((checkBugs 2 1 nodeD 1 = none ↔
      ¬(nodeD.elt_count > 2 ∨ 1 > 1 ∨ (1 = 1 ∧ nodeD.family ≠ none))) ∧
     (∃ b s1, cashew_set.insert 2 (cashew_set.empty 2) 5 = .ok (b, s1))) :=
  ⟨⟨by decide, Reachable.empty⟩,
   claim_C6 2 1 nodeD 1 (cashew_set.empty 2) 5 (by decide) Reachable.empty⟩

/-- C6 is refuted as stated: on a full interior node with no family (count 2,
depth 1 of a depth-2 tree), `tryInsert` throws even though none of the three
`checkBugs` conditions holds at any checked node. -/
theorem claim_C6_counterexample :
    tryInsert 2 2 2 (CashewSetNode.mk none 2 [5, 6]) 1 7 0 = .error .fullNoFamily ∧
    checkBugs 2 2 (CashewSetNode.mk none 2 [5, 6]) 1 = none ∧
    ¬((CashewSetNode.mk none 2 [5, 6]).elt_count > 2 ∨ 1 > 2 ∨
      (1 = 2 ∧ (CashewSetNode.mk none 2 [5, 6]).family ≠ none)) := by
  refine ⟨rfl, rfl, ?_⟩
  rintro (h | h | ⟨h, -⟩)
  · simp at h
  · omega
  · omega

/-- C7: `splitArray` writes, in source order, the elements below the pivot into
`dest_lt` and the rest into `dest_ge` (stability is the order-preservation of
`filter`), returns the count placed in `dest_lt`, and the fully aliased
`splitArrayAlias` (with `src ≡ dest_lt`) produces the same three results. -/
theorem claim_C7 (less : Nat → Nat → Bool) (pivot : Nat) (src dlt dge : List Nat) :
    splitArray less pivot src dlt dge =
      ((src.filter (fun x => less x pivot)).length,
       writeAt dlt 0 (src.filter (fun x => less x pivot)),
       writeAt dge 0 (src.filter (fun x => !less x pivot))) ∧
    splitArrayAlias less pivot src.length src dge =
      ((src.filter (fun x => less x pivot)).length,
       writeAt src 0 (src.filter (fun x => less x pivot)),
       writeAt dge 0 (src.filter (fun x => !less x pivot))) := by
  refine ⟨splitArray_spec less pivot src dlt dge, ?_⟩
  have h := splitArrayAlias_spec less pivot src.length src dge (Nat.le_refl _)
  simpa using h

/-- C8: `insertSpacious` never reports `familySplit`: whenever it returns
normally the status is `Done` or `DuplicateFound`. -/
theorem claim_C8 (M d fuel : Nat) (node : CashewSetNode) (δ k lc n : Nat)
    (res : TryInsertResult) (nd : CashewSetNode) (n1 : Nat)
    (h : insertSpacious M d fuel node δ k lc n = .ok (res, nd, n1)) :
    res.status = .done ∨ res.status = .duplicateFound := by
  have hns := insertSpacious_no_split M d fuel node δ k lc n res nd n1 h
  cases hst : res.status with
  | done => exact Or.inl rfl
  | duplicateFound => exact Or.inr rfl
  | familySplit => exact absurd hst hns

/-- C8 at a concrete input: a spacious leaf append. -/
theorem claim_C8_witness :
    (insertSpacious 2 1 0 (freshNode 2) 1 5 0 0 =
      .ok (⟨none, none, .done⟩, CashewSetNode.mk none 1 [5, 0], 1)) ∧
    ((⟨none, none, .done⟩ : TryInsertResult).status = .done ∨
     (⟨none, none, .done⟩ : TryInsertResult).status = .duplicateFound) :=
  ⟨rfl, claim_C8 2 1 0 (freshNode 2) 1 5 0 0 ⟨none, none, .done⟩
    (CashewSetNode.mk none 1 [5, 0]) 1 rfl⟩

/-- C9: on any reachable state, one `insert` call bumps the stored count `n`
exactly once when it returns `true` and not at all when it returns `false`; and
`n` always equals the number of keys stored across the tree. -/
theorem claim_C9 (M : Nat) (s : cashew_set) (k : Nat) (hM : 1 ≤ M)
    (hreach : Reachable M s) :
    (∀ b s1, cashew_set.insert M s k = .ok (b, s1) →
      s1.size = (if b then s.size + 1 else s.size)) ∧
    s.treeEltCount = (treeKeys s).length := by
  have hinv := reachable_inv M s hM hreach
  constructor
  · intro b s1 h
    obtain ⟨b2, s2, heq, -, -, hfls, htru, -⟩ := insert_spec M s k hM hinv
    rw [heq] at h
    simp only [Except.ok.injEq, Prod.mk.injEq] at h
    obtain ⟨hb, hs⟩ := h
    subst hb
    subst hs
    cases b2 with
    | true =>
      rw [if_pos rfl]
      exact (htru rfl).2
    | false =>
      rw [if_neg (by simp), hfls rfl]
  · exact ((inv_iff M s).1 hinv).2.2

/-- C9 at a concrete input: the empty reachable state, `M = 2`, key 5. -/
theorem claim_C9_witness :
    (1 ≤ 2 ∧ Reachable 2 (cashew_set.empty 2)) ∧
    ((∀ b s1, cashew_set.insert 2 (cashew_set.empty 2) 5 = .ok (b, s1) →
      s1.size = (if b then (cashew_set.empty 2).size + 1 else (cashew_set.empty 2).size)) ∧
     (cashew_set.empty 2).treeEltCount = (treeKeys (cashew_set.empty 2)).length) :=
  ⟨⟨by decide, Reachable.empty⟩,
   claim_C9 2 (cashew_set.empty 2) 5 (by decide) Reachable.empty⟩

/-- C10: whenever `tryInsert` returns status `familySplit`, the node it hands
back holds exactly `M` keys and a null family — and it had kept its own family
(now moved into the first returned handle) exactly when it was interior. -/
theorem claim_C10 (M d fuel : Nat) (node : CashewSetNode) (δ k n : Nat)
    (res : TryInsertResult) (nd : CashewSetNode) (n1 : Nat)
    (h : tryInsert M d fuel node δ k n = .ok (res, nd, n1))
    (hs : res.status = .familySplit) :
    nd.elt_count = M ∧ nd.family = none ∧ (res.family0 = none ↔ node.family = none) :=
  tryInsert_split_shape M d fuel node δ k n res nd n1 h hs

/-- C10 at a concrete input: a full leaf root splitting. -/
theorem claim_C10_witness :
    (tryInsert 2 1 1 (CashewSetNode.mk none 2 [1, 2]) 1 3 0 =
      .ok (⟨none, none, .familySplit⟩, CashewSetNode.mk none 2 [1, 2], 0)) ∧
    ((CashewSetNode.mk none 2 [1, 2]).elt_count = 2 ∧
     (CashewSetNode.mk none 2 [1, 2]).family = none ∧
     ((⟨none, none, .familySplit⟩ : TryInsertResult).family0 = none ↔
      (CashewSetNode.mk none 2 [1, 2]).family = none)) :=
  ⟨rfl, claim_C10 2 1 1 (CashewSetNode.mk none 2 [1, 2]) 1 3 0
    ⟨none, none, .familySplit⟩ (CashewSetNode.mk none 2 [1, 2]) 0 rfl rfl⟩

end Cashew

